import Mathlib

/-!
# goproj: a JSON-RPC store of named big numbers (`hello.go`)

Shallow embedding of the request handlers of `hello.go` (`Serve`, `VerifyRpcObj`,
`FillReplay`, `Create`, `Set`, `Calc`, `Delete`) together with the two libraries the
handlers call: `math/big` (`big.Float` at the precision the program uses) and
`github.com/patrickmn/go-cache` (the expiring map behind `database`).

Conventions.
* A Go panic is the `.error` side of `Except Panic`.
* The global `database` is an explicit `cache.Cache` argument; a handler returns the new
  cache next to the reply it filled.
* `time.Now()` is an explicit argument: `t1` is the wall clock (Unix nanoseconds) during the
  first cache call of a handler and `t2` the wall clock during the second one.
* Go `int` and `int64` values that the handlers only copy or compare are `Int`.
-/

namespace GoProj

/-! ## math/big -/

namespace big

/-- Largest exponent of a `big.Float` (`math.MaxInt32`). -/
def MaxExp : Int := 2147483647

/-- Smallest exponent of a `big.Float` (`math.MinInt32`). -/
def MinExp : Int := -2147483648

/-- A `big.Float`: its form (zero, finite, inf), sign, mantissa and exponent.
A finite value is `0.mant * 2^exp` as in Go, that is `mant * 2^(exp - bitLen mant)`.
The mantissa is kept without its trailing zero bits, so equal numbers are equal terms.
The precision field is left out: every finite `Float` the handlers hold comes from
`SetString` on a fresh `new(big.Float)` and so has precision 64, and the
precision of an operation's receiver is passed to the operation instead. -/
inductive Float where
  | zero (neg : Bool)
  | finite (neg : Bool) (mant : Nat) (exp : Int)
  | inf (neg : Bool)
  deriving DecidableEq, Repr

/-- Worker of `bitLen`: halve `m` until it is zero, at most `fuel` times. -/
def bitLenAux : Nat → Nat → Nat
  | 0, _ => 0
  | fuel + 1, m => if m = 0 then 0 else bitLenAux fuel (m / 2) + 1

/-- Number of bits of `m` (`nat.bitLen`): halving `m` reaches zero in at most `m`
steps. -/
def bitLen (m : Nat) : Nat := bitLenAux m m

/-- The mantissa `m` without its trailing zero bits. -/
def oddPart (m : Nat) : Nat := m / Nat.gcd m (2 ^ bitLen m)

/-- Go's `setExpAndRound` and `round` in mode `ToNearestEven`: the number
`(m + s) * 2^k`, where `0 ≤ s < 1` and `s ≠ 0` exactly when `sbit` is set, rounded to
`prec` mantissa bits. An exponent below `MinExp` underflows to zero and one above
`MaxExp` overflows to an infinity. -/
def roundTo (prec : Nat) (neg : Bool) (m : Nat) (k : Int) (sbit : Bool) : Float :=
  if m = 0 then .zero neg
  else
    let bl := bitLen m
    let exp : Int := k + bl
    if exp < MinExp then .zero neg
    else if exp > MaxExp then .inf neg
    else if bl ≤ prec then .finite neg (oddPart m) exp
    else
      let r := bl - prec - 1
      let top := m / 2 ^ (r + 1)
      let rbit : Bool := (m / 2 ^ r) % 2 == 1
      let sticky : Bool := sbit || m % 2 ^ r != 0
      let inc : Bool := rbit && (sticky || top % 2 == 1)
      if !inc then .finite neg (oddPart top) exp
      else if top + 1 = 2 ^ prec then
        if exp ≥ MaxExp then .inf neg else .finite neg 1 (exp + 1)
      else .finite neg (oddPart (top + 1)) exp

/-- The binary scale of a finite mantissa: the number is `mant * 2^(scale mant exp)`. -/
def scale (mant : Nat) (exp : Int) : Int := exp - bitLen mant

/-- `Float.SetUint64` on a receiver wide enough to hold `n` exactly. -/
def ofNat (n : Nat) : Float := roundTo (bitLen n) false n 0 false

/-- `m * 2^(s - t)` for `t ≤ s`: the mantissa aligned to the smaller scale `t`. -/
def alignTo (m : Nat) (s t : Int) : Nat := m * 2 ^ (s - t).toNat

/-- Go's `uadd`: `|x| + |y|` for finite operands, exact and then rounded. -/
def uadd (prec : Nat) (neg : Bool) (mx : Nat) (ex : Int) (my : Nat) (ey : Int) : Float :=
  let sx := scale mx ex
  let sy := scale my ey
  let t := min sx sy
  roundTo prec neg (alignTo mx sx t + alignTo my sy t) t false

/-- Go's `ucmp`: whether `|x| > |y|` for finite operands. -/
def ugt (mx : Nat) (ex : Int) (my : Nat) (ey : Int) : Bool :=
  let sx := scale mx ex
  let sy := scale my ey
  let t := min sx sy
  decide (alignTo mx sx t > alignTo my sy t)

/-- Go's `usub`: `|x| - |y|` for finite operands with `|x| ≥ |y|`; an exact zero
difference is `+0` whatever the sign set before. -/
def usub (prec : Nat) (neg : Bool) (mx : Nat) (ex : Int) (my : Nat) (ey : Int) : Float :=
  let sx := scale mx ex
  let sy := scale my ey
  let t := min sx sy
  let d := alignTo mx sx t - alignTo my sy t
  if d = 0 then .zero false else roundTo prec neg d t false

/-- Go's `umul`: `|x| * |y|` for finite operands. -/
def umul (prec : Nat) (neg : Bool) (mx : Nat) (ex : Int) (my : Nat) (ey : Int) : Float :=
  roundTo prec neg (mx * my) (scale mx ex + scale my ey) false

/-- Go's `uquo`: `|x| / |y|` for finite operands. The dividend is extended so that
the integer quotient has more than `prec + 1` bits, and the sticky bit records a
non-zero remainder. -/
def uquo (prec : Nat) (neg : Bool) (mx : Nat) (ex : Int) (my : Nat) (ey : Int) : Float :=
  let d := prec + 2 + bitLen my
  let q := (mx * 2 ^ d) / my
  let rem := (mx * 2 ^ d) % my
  roundTo prec neg q (scale mx ex - scale my ey - d) (rem != 0)

/-- The sign of a `Float`. -/
def Float.neg : Float → Bool
  | .zero n => n
  | .finite n _ _ => n
  | .inf n => n

/-- Go's `Float.Neg` at unchanged precision. -/
def Float.Neg : Float → Float
  | .zero n => .zero (!n)
  | .finite n m e => .finite (!n) m e
  | .inf n => .inf (!n)

/-- The panic value `big.ErrNaN`, raised by an operation whose result would be a NaN. -/
structure ErrNaN where
  msg : String
  deriving DecidableEq, Repr

/-- Go's `Float.Add` with a receiver of precision `prec`. -/
def Float.AddP (prec : Nat) (x y : Float) : Except ErrNaN Float :=
  match x, y with
  | .finite nx mx ex, .finite ny my ey =>
    if nx = ny then pure (uadd prec nx mx ex my ey)
    else if ugt mx ex my ey then pure (usub prec nx mx ex my ey)
    else pure (usub prec (!nx) my ey mx ex)
  | .inf nx, .inf ny =>
    if nx ≠ ny then throw ⟨"addition of infinities with opposite signs"⟩
    else pure (.inf nx)
  | .zero nx, .zero ny => pure (.zero (nx && ny))
  | .inf nx, _ => pure (.inf nx)
  | x, .zero _ => pure x
  | _, y => pure y

/-- Go's `Float.Sub` with a receiver of precision `prec`. -/
def Float.SubP (prec : Nat) (x y : Float) : Except ErrNaN Float :=
  match x, y with
  | .finite nx mx ex, .finite ny my ey =>
    if nx ≠ ny then pure (uadd prec nx mx ex my ey)
    else if ugt mx ex my ey then pure (usub prec nx mx ex my ey)
    else pure (usub prec (!nx) my ey mx ex)
  | .inf nx, .inf ny =>
    if nx = ny then throw ⟨"subtraction of infinities with equal signs"⟩
    else pure (.inf nx)
  | .zero nx, .zero ny => pure (.zero (nx && !ny))
  | .inf nx, _ => pure (.inf nx)
  | x, .zero _ => pure x
  | _, y => pure y.Neg

/-- Go's `Float.Mul` with a receiver of precision `prec`. -/
def Float.MulP (prec : Nat) (x y : Float) : Except ErrNaN Float :=
  match x, y with
  | .finite nx mx ex, .finite ny my ey => pure (umul prec (nx != ny) mx ex my ey)
  | .zero _, .inf _ => throw ⟨"multiplication of zero with infinity"⟩
  | .inf _, .zero _ => throw ⟨"multiplication of zero with infinity"⟩
  | .inf nx, y => pure (.inf (nx != y.neg))
  | x, .inf ny => pure (.inf (x.neg != ny))
  | x, y => pure (.zero (x.neg != y.neg))

/-- Go's `Float.Quo` with a receiver of precision `prec`. -/
def Float.QuoP (prec : Nat) (x y : Float) : Except ErrNaN Float :=
  match x, y with
  | .finite nx mx ex, .finite ny my ey => pure (uquo prec (nx != ny) mx ex my ey)
  | .zero _, .zero _ => throw ⟨"division of zero by zero or infinity by infinity"⟩
  | .inf _, .inf _ => throw ⟨"division of zero by zero or infinity by infinity"⟩
  | .zero nx, y => pure (.zero (nx != y.neg))
  | x, .inf ny => pure (.zero (x.neg != ny))
  | x, y => pure (.inf (x.neg != y.neg))

/-! ### Parsing (`Float.SetString`, that is `Float.Parse` in base 0)

A Go string is a sequence of bytes; it is read here as its `Char`s. A byte outside ASCII
is no sign, digit, separator, point or exponent letter, so it ends the number wherever it
stands, just as a non-ASCII `Char` does. -/

/-- Go's `scanSign`: an optional `+` or `-`; reading past the end is an error. -/
def scanSign : List Char → Option (Bool × List Char)
  | [] => none
  | '+' :: r => some (false, r)
  | '-' :: r => some (true, r)
  | r => some (false, r)

/-- The value of a digit rune in `nat.scan` (bases up to 36); 63 (`MaxBase + 1`) for
any other character. -/
def digitVal (ch : Char) : Nat :=
  if '0' ≤ ch ∧ ch ≤ '9' then ch.toNat - '0'.toNat
  else if 'a' ≤ ch ∧ ch ≤ 'z' then ch.toNat - 'a'.toNat + 10
  else if 'A' ≤ ch ∧ ch ≤ 'Z' then ch.toNat - 'A'.toNat + 10
  else 63

/-- The previously seen character class of the scanners: a digit, a `_` or anything
else (`'0'`, `'_'` and `'.'` in Go). -/
inductive Prev where
  | digit
  | sep
  | other
  deriving DecidableEq, Repr

/-- State of the digit loop of `nat.scan`. -/
structure ScanState where
  z : Nat
  count : Nat
  dp : Option Nat
  fracOk : Bool
  prev : Prev
  invalSep : Bool
  deriving Repr

/-- The digit loop of `nat.scan` in base `b` (called with `base == 0`, so `_` is
a separator): returns the final state and the unread input. -/
def scanDigits (b : Nat) : ScanState → List Char → ScanState × List Char
  | st, [] => (st, [])
  | st, ch :: r =>
    if ch = '.' ∧ st.fracOk = true then
      scanDigits b { st with fracOk := false, invalSep := st.invalSep || st.prev == .sep,
                             prev := .other, dp := some st.count } r
    else if ch = '_' then
      scanDigits b { st with invalSep := st.invalSep || st.prev != .digit, prev := .sep } r
    else if digitVal ch ≥ b then (st, ch :: r)
    else
      scanDigits b { st with prev := .digit, count := st.count + 1,
                             z := st.z * b + digitVal ch } r

/-- Result of `nat.scan`: mantissa, actual base, fractional digit count (`≤ 0` when
there is a point) and whether an error was found (no digits, misplaced `_`). -/
structure NatScan where
  mant : Nat
  b : Nat
  fcount : Int
  err : Bool
  rest : List Char
  deriving Repr

/-- The end of `nat.scan`: error checks and the fractional digit count. -/
def finishScan (b : Nat) (p : ScanState × List Char) : NatScan :=
  let st := p.1
  { mant := st.z, b := b,
    fcount := match st.dp with
      | some dp => (dp : Int) - st.count
      | none => st.count,
    err := st.invalSep || st.prev == .sep || st.count == 0,
    rest := p.2 }

/-- Go's `nat.scan(r, 0, true)`: base 10 unless the input starts with `0b`, `0o` or
`0x` (either case); the leading `0` of a number without such a mark counts as a digit. -/
def natScan : List Char → NatScan
  | '0' :: ch :: r =>
    let st0 : ScanState := ⟨0, 0, none, true, .digit, false⟩
    if ch = 'b' ∨ ch = 'B' then finishScan 2 (scanDigits 2 st0 r)
    else if ch = 'o' ∨ ch = 'O' then finishScan 8 (scanDigits 8 st0 r)
    else if ch = 'x' ∨ ch = 'X' then finishScan 16 (scanDigits 16 st0 r)
    else finishScan 10 (scanDigits 10 { st0 with count := 1 } (ch :: r))
  | ['0'] => finishScan 10 (⟨0, 1, none, true, .digit, false⟩, [])
  | r => finishScan 10 (scanDigits 10 ⟨0, 0, none, true, .other, false⟩ r)

/-- State of the digit loop of `scanExponent`. -/
structure ExpState where
  val : Nat
  hasDigits : Bool
  prev : Prev
  invalSep : Bool
  deriving Repr

/-- The digit loop of `scanExponent` (separators allowed). -/
def scanExpDigits : ExpState → List Char → ExpState × List Char
  | st, [] => (st, [])
  | st, ch :: r =>
    if '0' ≤ ch ∧ ch ≤ '9' then
      scanExpDigits { st with val := st.val * 10 + (ch.toNat - '0'.toNat),
                              prev := .digit, hasDigits := true } r
    else if ch = '_' then
      scanExpDigits { st with invalSep := st.invalSep || st.prev != .digit, prev := .sep } r
    else (st, ch :: r)

/-- Result of `scanExponent`: exponent, its base (10 or 2) and the error flag. -/
structure ExpScan where
  exp : Int
  ebase : Nat
  err : Bool
  rest : List Char
  deriving Repr

/-- The part of `scanExponent` after the exponent letter: sign, digits,
`strconv.ParseInt(digits, 10, 64)` with its range error, separator check. -/
def scanExpValue (ebase : Nat) (r : List Char) : ExpScan :=
  let sr : Bool × List Char := match r with
    | '+' :: r1 => (false, r1)
    | '-' :: r1 => (true, r1)
    | r1 => (false, r1)
  let p := scanExpDigits ⟨0, false, .other, false⟩ sr.2
  let st := p.1
  let v : Int := if sr.1 then -(st.val : Int) else st.val
  let rangeErr : Bool := decide (v < -9223372036854775808 ∨ 9223372036854775807 < v)
  { exp := v, ebase := ebase,
    err := !st.hasDigits || rangeErr || st.invalSep || st.prev == .sep,
    rest := p.2 }

/-- Go's `scanExponent(r, true, true)`: `e`/`E` starts a decimal exponent, `p`/`P` a
binary one; anything else is left unread and the exponent is 0. -/
def scanExponent : List Char → ExpScan
  | [] => ⟨0, 10, false, []⟩
  | ch :: r =>
    if ch = 'e' ∨ ch = 'E' then scanExpValue 10 r
    else if ch = 'p' ∨ ch = 'P' then scanExpValue 2 r
    else ⟨0, 10, false, ch :: r⟩

/-- The loop of Go's `pow5`: square-and-multiply, `z` rounded to 128 bits and `f`
to 192 bits. A `uint64` has 64 bits, so 64 rounds exhaust `n`. The operands are never
zero, so `Mul` cannot panic; the unreachable error branch keeps `z`. -/
def pow5Loop : Nat → Nat → Float → Float → Float
  | 0, _, z, _ => z
  | fuel + 1, n, z, f =>
    if n = 0 then z
    else
      let z1 := if n % 2 = 1 then
          (match Float.MulP 128 z f with
           | .ok v => v
           | .error _ => z)
        else z
      let f1 := match Float.MulP 192 f f with
        | .ok v => v
        | .error _ => f
      pow5Loop fuel (n / 2) z1 f1

/-- Go's `pow5` on a receiver of precision 128: `5^n`, exact from the table
`pow5tab` for `n ≤ 27`. -/
def pow5 (n : Nat) : Float :=
  if n ≤ 27 then ofNat (5 ^ n)
  else pow5Loop 64 (n - 27) (ofNat (5 ^ 27)) (ofNat 5)

/-- Go's `Float.scan` in base 0 on a fresh receiver (precision 64): `none` is a
returned error. The mantissa `z` is `mant * 2^(exp2 - bitLen mant) * 5^exp5`. In the
last step `z` is finite and `pow5` is never zero, so `Quo` and `Mul` raise no `ErrNaN`
there and the `.error` branch is not taken. -/
def scan (s : List Char) : Option (Float × List Char) :=
  match scanSign s with
  | none => none
  | some (neg, r1) =>
    let ns := natScan r1
    if ns.err then none
    else
      let es := scanExponent ns.rest
      if es.err then none
      else if ns.mant = 0 then some (.zero neg, es.rest)
      else
        let d : Int := if ns.fcount < 0 then ns.fcount else 0
        let exp5a : Int := if ns.b = 10 then d else 0
        let exp2a : Int := bitLen ns.mant +
          (if ns.b = 10 ∨ ns.b = 2 then d else if ns.b = 8 then d * 3 else d * 4)
        let exp5 : Int := if es.ebase = 10 then exp5a + es.exp else exp5a
        let exp2 : Int := exp2a + es.exp
        if exp2 < MinExp ∨ MaxExp < exp2 then none
        else if exp5 = 0 then
          some (roundTo 64 neg ns.mant (exp2 - bitLen ns.mant) false, es.rest)
        else
          let z : Float := .finite neg ns.mant exp2
          let p := pow5 exp5.natAbs
          let v := if exp5 < 0 then Float.QuoP 64 z p else Float.MulP 64 z p
          match v with
          | .ok f => some (f, es.rest)
          | .error _ => none

/-- Go's `Float.Parse(s, 0)` on a fresh receiver: the infinities by name, otherwise
`scan`, and the whole string must be consumed. -/
def Parse (s : String) : Option Float :=
  if s = "Inf" ∨ s = "inf" then some (.inf false)
  else if s = "+Inf" ∨ s = "+inf" then some (.inf false)
  else if s = "-Inf" ∨ s = "-inf" then some (.inf true)
  else
    match scan s.data with
    | some (f, []) => some f
    | _ => none

/-- Go's `new(big.Float).SetString(s)`: `some f` for `(f, true)`, `none` for
`(nil, false)`. -/
def Float.SetString (s : String) : Option Float := Parse s

/-! ### Formatting (`Float.String`, that is `Float.Text('g', 10)`) -/

/-- Worker of `digits`: the decimal digits of `n` in front of `acc`. -/
def digitsAux : Nat → Nat → List Nat → List Nat
  | 0, _, acc => acc
  | fuel + 1, n, acc => if n = 0 then acc else digitsAux fuel (n / 10) (n % 10 :: acc)

/-- The decimal digits of `n`, most significant first (`nat.utoa(10)`); none for 0. -/
def digits (n : Nat) : List Nat := digitsAux n n []

/-- Drop the trailing zero digits (Go's `trim`). -/
def trim (ds : List Nat) : List Nat := (ds.reverse.dropWhile (fun d => d == 0)).reverse

/-- Go's multi-precision `decimal`: the number `0.mant * 10^exp`, the digits without
trailing zeros. -/
structure decimal where
  mant : List Nat
  exp : Int
  deriving DecidableEq, Repr

/-- Go's `decimal.init(m, shift)`: the exact decimal expansion of `m * 2^shift`. -/
def decimal.init (m : Nat) (shift : Int) : decimal :=
  if m = 0 then ⟨[], 0⟩
  else
    let s : Nat := (-shift).toNat
    let ds := digits (if shift < 0 then m * 5 ^ s else m * 2 ^ shift.toNat)
    ⟨trim ds, (ds.length : Int) - s⟩

/-- Go's `shouldRoundUp(x, n)` for `0 ≤ n < len(x.mant)`: half-way cases go to even. -/
def shouldRoundUp (x : decimal) (n : Nat) : Bool :=
  if x.mant.getD n 0 = 5 ∧ n + 1 = x.mant.length then
    decide (n > 0) && (x.mant.getD (n - 1) 0) % 2 != 0
  else decide (x.mant.getD n 0 ≥ 5)

/-- Go's `decimal.roundUp(n)`: skip the trailing nines of the first `n` digits and
increment the digit before them; all nines give `1` with the exponent raised. -/
def decimal.roundUp (x : decimal) (n : Nat) : decimal :=
  match ((x.mant.take n).reverse.dropWhile (fun d => decide (d ≥ 9))) with
  | [] => ⟨[1], x.exp + 1⟩
  | d :: front => ⟨front.reverse ++ [d + 1], x.exp⟩

/-- Go's `decimal.roundDown(n)`. -/
def decimal.roundDown (x : decimal) (n : Nat) : decimal := ⟨trim (x.mant.take n), x.exp⟩

/-- Go's `decimal.round(n)` for `n ≥ 0`: round to `n` digits, to nearest even. -/
def decimal.round (x : decimal) (n : Nat) : decimal :=
  if n ≥ x.mant.length then x
  else if shouldRoundUp x n then x.roundUp n else x.roundDown n

/-- The character of a decimal digit. -/
def digitChar (d : Nat) : Char := Char.ofNat (48 + d)

/-- Go's `decimal.at(i)`: the digit at index `i`, `'0'` outside the mantissa. -/
def decimal.at (x : decimal) (i : Int) : Char :=
  if 0 ≤ i ∧ i < x.mant.length then digitChar (x.mant.getD i.toNat 0) else '0'

/-- Go's `fmtE` with format byte `e`: `d.ddddde±dd`. -/
def fmtE (prec : Nat) (d : decimal) : List Char :=
  let first : Char := match d.mant with
    | [] => '0'
    | d0 :: _ => digitChar d0
  let m := min d.mant.length (prec + 1)
  let frac : List Char :=
    if prec > 0 then
      '.' :: (((d.mant.take m).drop 1).map digitChar ++ List.replicate (prec + 1 - max m 1) '0')
    else []
  let exp : Int := if d.mant.length > 0 then d.exp - 1 else 0
  let sign : Char := if exp < 0 then '-' else '+'
  let a : Nat := exp.natAbs
  let expDigits : List Char :=
    if a = 0 then ['0', '0']
    else if a < 10 then '0' :: (digits a).map digitChar
    else (digits a).map digitChar
  first :: frac ++ ['e', sign] ++ expDigits

/-- Go's `fmtF`: `ddddddd.ddddd` with `prec` digits after the point. -/
def fmtF (prec : Nat) (d : decimal) : List Char :=
  let int : List Char :=
    if d.exp > 0 then
      let m := min d.mant.length d.exp.toNat
      (d.mant.take m).map digitChar ++ List.replicate (d.exp.toNat - m) '0'
    else ['0']
  let frac : List Char :=
    if prec > 0 then '.' :: (List.range prec).map (fun i => d.at (d.exp + i))
    else []
  int ++ frac

/-- Go's `Float.Text('g', prec)` (`Float.Append` with format `g`) for `prec ≥ 0`. -/
def Float.TextG (x : Float) (prec0 : Nat) : String :=
  match x with
  | .inf neg => if neg then "-Inf" else "+Inf"
  | _ =>
    let d0 : decimal := match x with
      | .finite _ m e => decimal.init m (e - bitLen m)
      | _ => ⟨[], 0⟩
    let prec : Nat := if prec0 = 0 then 1 else prec0
    let d := d0.round prec
    let len := d.mant.length
    let eprec : Int := if prec > len ∧ (len : Int) ≥ d.exp then len else prec
    let exp : Int := d.exp - 1
    let body : List Char :=
      if exp < -4 ∨ exp ≥ eprec then
        fmtE ((if prec > len then len else prec) - 1) d
      else
        fmtF (((if (prec : Int) > d.exp then (len : Int) else prec) - d.exp).toNat) d
    String.mk (if x.neg then '-' :: body else body)

/-- Go's `Float.String`: `x.Text('g', 10)`. -/
def Float.String (x : Float) : String := x.TextG 10

/-- Go's `new(big.Float).Add(x, y)` for operands of precision at most 64. -/
def Float.Add (x y : Float) : Except ErrNaN Float := Float.AddP 64 x y

/-- Go's `new(big.Float).Sub(x, y)` for operands of precision at most 64. -/
def Float.Sub (x y : Float) : Except ErrNaN Float := Float.SubP 64 x y

/-- Go's `new(big.Float).Mul(x, y)` for operands of precision at most 64. -/
def Float.Mul (x y : Float) : Except ErrNaN Float := Float.MulP 64 x y

/-- Go's `new(big.Float).Quo(x, y)` for operands of precision at most 64. -/
def Float.Quo (x y : Float) : Except ErrNaN Float := Float.QuoP 64 x y

end big

/-! ## go-cache -/

namespace cache

/-- Go's `cache.Item`. The program stores only `*big.Float` objects, so `Object` has
that type and the type assertions `n1.(*big.Float)` of `Calc` cannot fail. -/
structure Item where
  Object : big.Float
  Expiration : Int
  deriving DecidableEq, Repr

/-- Go's `cache.Cache`: the default expiration (nanoseconds) and the items. -/
structure Cache where
  defaultExpiration : Int
  items : String → Option Item

/-- Go's `cache.DefaultExpiration`. -/
def DefaultExpiration : Int := 0

/-- One minute in nanoseconds (`time.Minute`). -/
def Minute : Int := 60000000000

/-- Go's `cache.New(defaultExpiration, cleanupInterval)`: an empty cache. The
sweep that the cleanup interval starts is `DeleteExpired`, run by another goroutine. -/
def New (defaultExpiration : Int) (_cleanupInterval : Int) : Cache :=
  { defaultExpiration := if defaultExpiration = 0 then -1 else defaultExpiration,
    items := fun _ => none }

/-- Whether an item is expired at time `now` (`Item.Expired`). -/
def Item.Expired (item : Item) (now : Int) : Bool :=
  decide (item.Expiration > 0 ∧ now > item.Expiration)

/-- Go's `Cache.Get(k)` at wall-clock time `now`: `some x` for `(x, true)`, `none` for
`(nil, false)`. An item whose expiration has passed is not returned (and not removed). -/
def Cache.Get (c : Cache) (now : Int) (k : String) : Option big.Float :=
  match c.items k with
  | none => none
  | some item => if item.Expiration > 0 ∧ now > item.Expiration then none else some item.Object

/-- Go's `Cache.Set(k, x, d)` at wall-clock time `now`. -/
def Cache.Set (c : Cache) (now : Int) (k : String) (x : big.Float) (d : Int) : Cache :=
  let d1 := if d = DefaultExpiration then c.defaultExpiration else d
  let e : Int := if d1 > 0 then now + d1 else 0
  { c with items := fun k1 => if k1 = k then some ⟨x, e⟩ else c.items k1 }

/-- Go's `Cache.Delete(k)`. -/
def Cache.Delete (c : Cache) (k : String) : Cache :=
  { c with items := fun k1 => if k1 = k then none else c.items k1 }

/-- Go's `Cache.DeleteExpired()` at wall-clock time `now` (the janitor's sweep). -/
def Cache.DeleteExpired (c : Cache) (now : Int) : Cache :=
  { c with items := fun k => (c.items k).filter (fun item => !item.Expired now) }

end cache

/-! ## hello.go -/

/-- An IEEE-754 binary64 (`float64`) given by its 64 bits. -/
structure Float64 where
  bits : Nat
  deriving DecidableEq, Repr

/-- Whether the value is a NaN: exponent all ones and a non-zero fraction. -/
def Float64.isNaN (x : Float64) : Bool :=
  (x.bits / 2 ^ 52) % 2 ^ 11 == 2047 && x.bits % 2 ^ 52 != 0

/-- Whether the value is `+0` or `-0`. -/
def Float64.isZero (x : Float64) : Bool := x.bits % 2 ^ 63 == 0

/-- Go's `x != y` on `float64`: a NaN differs from everything, the two zeros are
equal, and any other two values differ exactly when their bits do. -/
def Float64.ne (x y : Float64) : Bool :=
  x.isNaN || y.isNaN || (!(x.isZero && y.isZero) && x.bits % 2 ^ 64 != y.bits % 2 ^ 64)

/-- The constant `1.0`. -/
def Float64.one : Float64 := ⟨0x3FF0000000000000⟩

/-- The `float64` nearest to `1.2`, the version the client's first request carries. -/
def Float64.onePointTwo : Float64 := ⟨0x3FF3333333333333⟩

/-- Go's `RpcObj`. -/
structure RpcObj where
  Jsonrpc : Float64
  Method : String
  Params : List String
  Id : Int
  deriving DecidableEq, Repr

/-- Go's `ReplyObj`. -/
structure ReplyObj where
  Id : Int
  Ok : Bool
  Msg : String
  Result : String
  deriving DecidableEq, Repr

/-- The global `database = cache.New(5*time.Minute, 10*time.Minute)` at start-up. -/
def database : cache.Cache := cache.New (5 * cache.Minute) (10 * cache.Minute)

/-- Go's `Arith`; `Serve` passes only these four constants to `Calc`. -/
inductive Arith where
  | ADD
  | SUB
  | MUL
  | DIV
  deriving DecidableEq, Repr

/-- A run-time panic of a handler. -/
inductive Panic where
  | indexOutOfRange (index length : Nat)
  | errNaN (e : big.ErrNaN)
  deriving DecidableEq, Repr

/-- The slice index expression `params[i]`, which panics when `i` is out of range. -/
def index (params : List String) (i : Nat) : Except Panic String :=
  match params.get? i with
  | some x => .ok x
  | none => .error (.indexOutOfRange i params.length)

/-- Go's `VerifyRpcObj`. -/
def VerifyRpcObj (rpcObj : RpcObj) : Bool :=
  if rpcObj.Jsonrpc.ne Float64.one then false else true

/-- Go's `FillReplay`. -/
def FillReplay (returnObj : ReplyObj) (id : Int) (ok : Bool) (msg : String) (result : String) :
    ReplyObj :=
  { returnObj with Id := id, Ok := ok, Msg := msg, Result := result }

/-- Go's `Create`: the new store and the filled reply, or a panic. -/
def Create (db : cache.Cache) (t1 t2 : Int) (rpcObj : RpcObj) (returnObj : ReplyObj) :
    Except Panic (cache.Cache × ReplyObj) :=
  match index rpcObj.Params 0 with
  | .error e => .error e
  | .ok key =>
    match index rpcObj.Params 1 with
    | .error e => .error e
    | .ok value =>
      if (big.Float.SetString key).isSome then
        .ok (db, FillReplay returnObj rpcObj.Id false
          "Create: Variable name should not be a number" "")
      else if !(db.Get t1 key).isSome then
        match big.Float.SetString value with
        | none =>
          .ok (db, FillReplay returnObj rpcObj.Id false "Create: The input string is not valid" "")
        | some n =>
          .ok (db.Set t2 key n cache.DefaultExpiration,
               FillReplay returnObj rpcObj.Id true ("Create: " ++ key ++ " success") "")
      else .ok (db, FillReplay returnObj rpcObj.Id false (key ++ " existed!! ") "")

/-- Go's `Set`. -/
def Set (db : cache.Cache) (t1 t2 : Int) (rpcObj : RpcObj) (returnObj : ReplyObj) :
    Except Panic (cache.Cache × ReplyObj) :=
  match index rpcObj.Params 0 with
  | .error e => .error e
  | .ok key =>
    match index rpcObj.Params 1 with
    | .error e => .error e
    | .ok value =>
      if (db.Get t1 key).isSome then
        match big.Float.SetString value with
        | none =>
          .ok (db, FillReplay returnObj rpcObj.Id false "Set: The input string is not valid" "")
        | some n =>
          .ok (db.Set t2 key n cache.DefaultExpiration,
               FillReplay returnObj rpcObj.Id true ("Set: " ++ key ++ " success") "")
      else .ok (db, FillReplay returnObj rpcObj.Id false (key ++ " does not exist!! ") "")

/-- The `switch op` of `Calc`: the `big.Float` operation, whose `ErrNaN` is a panic. -/
def applyOp (op : Arith) (n1 n2 : big.Float) : Except Panic big.Float :=
  let r := match op with
    | .MUL => big.Float.Mul n1 n2
    | .ADD => big.Float.Add n1 n2
    | .SUB => big.Float.Sub n1 n2
    | .DIV => big.Float.Quo n1 n2
  match r with
  | .ok v => .ok v
  | .error e => .error (.errNaN e)

/-- The block `if !exist { n, ok := new(big.Float).SetString(key); ... }` that `Calc`
runs for each key: the operand is the value found under the key, otherwise the key
parsed as a number, and `none` when it is neither (the block then returns an error). -/
def operand (found : Option big.Float) (key : String) : Option big.Float :=
  match found with
  | some n => some n
  | none => big.Float.SetString key

/-- Go's `Calc`: both keys are looked up (at `t1` and `t2`), then each operand that is
no live key is parsed as a number, then the operation is applied. -/
def Calc (db : cache.Cache) (t1 t2 : Int) (rpcObj : RpcObj) (returnObj : ReplyObj) (op : Arith) :
    Except Panic (cache.Cache × ReplyObj) :=
  match index rpcObj.Params 0 with
  | .error e => .error e
  | .ok key1 =>
    match index rpcObj.Params 1 with
    | .error e => .error e
    | .ok key2 =>
      match operand (db.Get t1 key1) key1 with
      | none =>
        .ok (db, FillReplay returnObj rpcObj.Id false "Params[0] error, expired or invalid" "")
      | some n1 =>
        match operand (db.Get t2 key2) key2 with
        | none =>
          .ok (db, FillReplay returnObj rpcObj.Id false "Params[1] error, expired or invalid" "")
        | some n2 =>
          match applyOp op n1 n2 with
          | .error e => .error e
          | .ok result =>
            .ok (db, FillReplay returnObj rpcObj.Id true "Calculate success" result.String)

/-- Go's `Delete`. -/
def Delete (db : cache.Cache) (t1 : Int) (rpcObj : RpcObj) (returnObj : ReplyObj) :
    Except Panic (cache.Cache × ReplyObj) :=
  match index rpcObj.Params 0 with
  | .error e => .error e
  | .ok key =>
    if (db.Get t1 key).isSome then
      .ok (db.Delete key, FillReplay returnObj rpcObj.Id true ("Delete: " ++ key ++ " success") "")
    else
      .ok (db, FillReplay returnObj rpcObj.Id false ("Delete: " ++ key ++ " not existed!! ") "")

/-- What a completed call of `Serve` leaves behind: the store, the reply object and
the returned Go `error` (`none` for `nil`). -/
structure Outcome where
  db : cache.Cache
  reply : ReplyObj
  err : Option String

/-- A handler's result followed by `return nil`. -/
def returnNil (r : Except Panic (cache.Cache × ReplyObj)) : Except Panic Outcome :=
  match r with
  | .error e => .error e
  | .ok (db, reply) => .ok ⟨db, reply, none⟩

/-- Go's `ServerHandler.Serve`. -/
def ServerHandler.Serve (db : cache.Cache) (t1 t2 : Int) (rpcObj : RpcObj)
    (returnObj : ReplyObj) : Except Panic Outcome :=
  if !VerifyRpcObj rpcObj then
    .ok ⟨db, FillReplay returnObj rpcObj.Id false "JsonrpcVersion not match" "", none⟩
  else if rpcObj.Method = "create" then returnNil (Create db t1 t2 rpcObj returnObj)
  else if rpcObj.Method = "set" then returnNil (Set db t1 t2 rpcObj returnObj)
  else if rpcObj.Method = "delete" then returnNil (Delete db t1 rpcObj returnObj)
  else if rpcObj.Method = "mul" then returnNil (Calc db t1 t2 rpcObj returnObj .MUL)
  else if rpcObj.Method = "add" then returnNil (Calc db t1 t2 rpcObj returnObj .ADD)
  else if rpcObj.Method = "sub" then returnNil (Calc db t1 t2 rpcObj returnObj .SUB)
  else if rpcObj.Method = "div" then returnNil (Calc db t1 t2 rpcObj returnObj .DIV)
  else .ok ⟨db, FillReplay returnObj rpcObj.Id false "method name not match" "", none⟩

/-! ## Vocabulary of the statements -/

/-- The four arithmetic method names with the `Arith` constant `Serve` passes for each. -/
def arithMethods : List (String × Arith) :=
  [("mul", .MUL), ("add", .ADD), ("sub", .SUB), ("div", .DIV)]

/-- What it is for a token to resolve to `n` at time `t`: `n` is the value of a live
stored name, and only when there is no such name the parsed token. -/
def resolvesTo (db : cache.Cache) (t : Int) (tok : String) (n : big.Float) : Prop :=
  db.Get t tok = some n ∨ (db.Get t tok = none ∧ big.Float.SetString tok = some n)

/-- The operand pairs on which the `big.Float` operation of `op` panics with `ErrNaN`:
`0 * Inf`, `Inf * 0`, `Inf + -Inf`, `Inf - Inf`, `0 / 0` and `Inf / Inf`. -/
def undefinedOp (op : Arith) (n1 n2 : big.Float) : Bool :=
  match op, n1, n2 with
  | .MUL, .zero _, .inf _ => true
  | .MUL, .inf _, .zero _ => true
  | .ADD, .inf nx, .inf ny => nx != ny
  | .SUB, .inf nx, .inf ny => nx == ny
  | .DIV, .zero _, .zero _ => true
  | .DIV, .inf _, .inf _ => true
  | _, _, _ => false

/-- The store after the client's `create("ggg", ...)` and `set("ggg", "3")`, both
written at time 0. -/
def dbGgg3 : cache.Cache :=
  (database.Set 0 "ggg" (.finite false 13554328270686560627 34) cache.DefaultExpiration).Set
    0 "ggg" (.finite false 3 2) cache.DefaultExpiration

/-- The stores the server can be in: the start-up store, and from any such store the
one left by a completed call of `Serve` (any request, reply object and clock readings)
or by a sweep of the janitor at any time. A call that panics ends the process, and the
in-memory store with it. -/
inductive Reachable : cache.Cache → Prop where
  | start : Reachable database
  | serve {db : cache.Cache} (t1 t2 : Int) (rpcObj : RpcObj) (returnObj : ReplyObj)
      (out : Outcome) (h : Reachable db)
      (hs : ServerHandler.Serve db t1 t2 rpcObj returnObj = .ok out) : Reachable out.db
  | sweep {db : cache.Cache} (now : Int) (h : Reachable db) : Reachable (db.DeleteExpired now)

/-- No name held by the store, live or expired, parses as a number. -/
def NoNumericName (db : cache.Cache) : Prop :=
  ∀ k, (db.items k).isSome = true → big.Float.SetString k = none

/-- The characters a number can be written with: the ASCII letters and digits (the
characters `digitVal` gives a value below 63), the two signs, the point and the
separator `_`. -/
def allowedChar (c : Char) : Bool :=
  c == '.' || c == '_' || c == '+' || c == '-' || decide (big.digitVal c < 63)

/-- A scanner that was given `input` and left `rest` unread has consumed a prefix made
of allowed characters with at most `dots` points in it. -/
def Consumed (input rest : List Char) (dots : Nat) : Prop :=
  ∃ pre, input = pre ++ rest ∧ (∀ c ∈ pre, allowedChar c = true) ∧ pre.count '.' ≤ dots

/-- What a handler has decided once its first cache call (`database.Get`) and its
parsing are done, while its second cache call is still to come. Every call of the cache
takes the cache's lock for itself and releases it on return, and `net/rpc` runs each
request in a goroutine of its own, so another handler's cache calls can come between
the two. -/
inductive Pending where
  | done (reply : ReplyObj)
  | write (key : String) (n : big.Float) (reply : ReplyObj)
  | remove (key : String) (reply : ReplyObj)

/-- Go's `Create` up to, and without, its `database.Set`. -/
def CreateLookup (db : cache.Cache) (t1 : Int) (rpcObj : RpcObj) (returnObj : ReplyObj) :
    Except Panic Pending :=
  match index rpcObj.Params 0 with
  | .error e => .error e
  | .ok key =>
    match index rpcObj.Params 1 with
    | .error e => .error e
    | .ok value =>
      if (big.Float.SetString key).isSome then
        .ok (.done (FillReplay returnObj rpcObj.Id false
          "Create: Variable name should not be a number" ""))
      else if !(db.Get t1 key).isSome then
        match big.Float.SetString value with
        | none =>
          .ok (.done (FillReplay returnObj rpcObj.Id false
            "Create: The input string is not valid" ""))
        | some n =>
          .ok (.write key n
            (FillReplay returnObj rpcObj.Id true ("Create: " ++ key ++ " success") ""))
      else .ok (.done (FillReplay returnObj rpcObj.Id false (key ++ " existed!! ") ""))

/-- Go's `Set` up to, and without, its `database.Set`. -/
def SetLookup (db : cache.Cache) (t1 : Int) (rpcObj : RpcObj) (returnObj : ReplyObj) :
    Except Panic Pending :=
  match index rpcObj.Params 0 with
  | .error e => .error e
  | .ok key =>
    match index rpcObj.Params 1 with
    | .error e => .error e
    | .ok value =>
      if (db.Get t1 key).isSome then
        match big.Float.SetString value with
        | none =>
          .ok (.done (FillReplay returnObj rpcObj.Id false
            "Set: The input string is not valid" ""))
        | some n =>
          .ok (.write key n
            (FillReplay returnObj rpcObj.Id true ("Set: " ++ key ++ " success") ""))
      else .ok (.done (FillReplay returnObj rpcObj.Id false (key ++ " does not exist!! ") ""))

/-- Go's `Delete` up to, and without, its `database.Delete`. -/
def DeleteLookup (db : cache.Cache) (t1 : Int) (rpcObj : RpcObj) (returnObj : ReplyObj) :
    Except Panic Pending :=
  match index rpcObj.Params 0 with
  | .error e => .error e
  | .ok key =>
    if (db.Get t1 key).isSome then
      .ok (.remove key
        (FillReplay returnObj rpcObj.Id true ("Delete: " ++ key ++ " success") ""))
    else
      .ok (.done
        (FillReplay returnObj rpcObj.Id false ("Delete: " ++ key ++ " not existed!! ") ""))

/-- The rest of the handler: its second cache call, on the store as it is by then and
at wall-clock time `t2`, and the reply it fills in. -/
def Pending.commit (p : Pending) (db : cache.Cache) (t2 : Int) : cache.Cache × ReplyObj :=
  match p with
  | .done reply => (db, reply)
  | .write key n reply => (db.Set t2 key n cache.DefaultExpiration, reply)
  | .remove key reply => (db.Delete key, reply)

/-- A handler run in two steps: the lookup on `db1`, the commit on `db2`. -/
def runSplit (lookup : Except Panic Pending) (db2 : cache.Cache) (t2 : Int) :
    Except Panic (cache.Cache × ReplyObj) :=
  match lookup with
  | .error e => .error e
  | .ok p => .ok (p.commit db2 t2)

/-- A digit of base 2, 8, 10 or 16. -/
def baseDigit (b : Nat) (c : Char) : Bool :=
  if b = 2 then decide ('0' ≤ c ∧ c ≤ '1')
  else if b = 8 then decide ('0' ≤ c ∧ c ≤ '7')
  else if b = 10 then decide ('0' ≤ c ∧ c ≤ '9')
  else if b = 16 then
    decide (('0' ≤ c ∧ c ≤ '9') ∨ ('a' ≤ c ∧ c ≤ 'f') ∨ ('A' ≤ c ∧ c ≤ 'F'))
  else false

/-- Whether the input starts with a digit of base `b`. -/
def startsWithDigit (b : Nat) : List Char → Bool
  | c :: _ => baseDigit b c
  | [] => false

/-- The input without one leading sign. -/
def dropSign : List Char → List Char
  | '+' :: r => r
  | '-' :: r => r
  | r => r

/-- The digits of an exponent: decimal digits, at least one, with `_` only directly
after a digit and directly before one. `prevDigit` tells whether the character before
was a digit, `seenDigit` whether a digit was read. -/
def exponentDigits : Bool → Bool → List Char → Bool
  | _, seenDigit, [] => seenDigit
  | prevDigit, seenDigit, c :: r =>
    if baseDigit 10 c then exponentDigits true true r
    else if c = '_' then prevDigit && startsWithDigit 10 r && exponentDigits false seenDigit r
    else false

/-- An optional exponent that ends the literal: nothing, or one of `e`, `E`, `p`, `P`,
an optional sign and exponent digits. -/
def exponentPart : List Char → Bool
  | [] => true
  | c :: r =>
    (c == 'e' || c == 'E' || c == 'p' || c == 'P') && exponentDigits false false (dropSign r)

/-- A mantissa in base `b` followed by an optional exponent: digits of the base, at
least one, with at most one point, and `_` only directly after a digit (or the base
prefix) and directly before a digit. `prevDigit` tells whether the character before was
a digit or the prefix, `seenPoint` whether the point was read and `seenDigit` whether a
digit was read. -/
def mantissaPart (b : Nat) : Bool → Bool → Bool → List Char → Bool
  | _, _, seenDigit, [] => seenDigit
  | prevDigit, seenPoint, seenDigit, c :: r =>
    if baseDigit b c then mantissaPart b true seenPoint true r
    else if c = '.' ∧ seenPoint = false then mantissaPart b false true seenDigit r
    else if c = '_' then
      prevDigit && startsWithDigit b r && mantissaPart b false seenPoint seenDigit r
    else seenDigit && exponentPart (c :: r)

/-- A base prefix `0b`, `0o` or `0x` (either case): the base and the input after it. -/
def basePrefix : List Char → Option (Nat × List Char)
  | '0' :: ch :: r =>
    if ch = 'b' ∨ ch = 'B' then some (2, r)
    else if ch = 'o' ∨ ch = 'O' then some (8, r)
    else if ch = 'x' ∨ ch = 'X' then some (16, r)
    else none
  | _ => none

/-- A number written as: an optional sign, an optional base prefix, a mantissa and an
optional exponent. -/
def numberLiteral (s : List Char) : Bool :=
  match basePrefix (dropSign s) with
  | some (b, r) => mantissaPart b true false false r
  | none => mantissaPart 10 false false false (dropSign s)

/-- The literals `SetString` can accept: an infinity by name (`Inf` or `inf`, with an
optional sign), or a number. Whether a number so written is stored still depends on the
size of its exponent. -/
def floatLiteral (s : String) : Bool :=
  decide (s ∈ ["Inf", "inf", "+Inf", "+inf", "-Inf", "-inf"]) || numberLiteral s.data

/-- The literals `SetString` rejects: the empty string, a string with more than one
point, a string with a character that is no ASCII letter or digit, sign, point or `_`
(whitespace among them), and every string that is not written as `floatLiteral`
describes. -/
def rejectedLiteral (s : String) : Prop :=
  s = "" ∨ 2 ≤ s.data.count '.' ∨ (∃ c ∈ s.data, allowedChar c = false) ∨
    floatLiteral s = false

/-! ### Vocabulary of the arithmetic: rational values, rounding, printing -/

/-- The magnitude of a `Float` as a rational number: `mant * 2^(exp - bitLen mant)` for a
finite value, 0 for a zero (and for an infinity, which has no rational magnitude). -/
def big.Float.mag : big.Float → ℚ
  | .finite _ m e => (m : ℚ) * 2 ^ (e - (big.bitLen m : Int))
  | _ => 0

/-- The rational number a zero or finite `Float` stands for. -/
def big.Float.toRat (x : big.Float) : ℚ := if x.neg = true then -x.mag else x.mag

/-- Rounding of a rational number to the nearest integer, a tie going to the even one. -/
def roundHalfEven (x : ℚ) : Int :=
  if 2 * (x - ⌊x⌋) < 1 then ⌊x⌋
  else if 1 < 2 * (x - ⌊x⌋) then ⌊x⌋ + 1
  else if ⌊x⌋ % 2 = 0 then ⌊x⌋ else ⌊x⌋ + 1

/-- What `big.Float` keeps of a positive rational `q` at `prec` mantissa bits, sign apart.
With `e` the binary exponent of `q`, that is `2^(e-1) ≤ q < 2^e`: a zero when `e` is below
`MinExp`, an infinity when `e` is above `MaxExp` or rounding carries `q` up to
`2^MaxExp`, and otherwise the finite value `n * 2^(e - prec)`, where `n` is
`q / 2^(e - prec)` rounded to the nearest integer, ties to even. -/
def IsRounding (prec : Nat) (q : ℚ) (r : big.Float) : Prop :=
  ∃ e : Int, (2 : ℚ) ^ (e - 1) ≤ q ∧ q < 2 ^ e ∧
    (e < big.MinExp → r = .zero r.neg) ∧
    (big.MaxExp < e → r = .inf r.neg) ∧
    (big.MinExp ≤ e → e ≤ big.MaxExp →
      (roundHalfEven (q / 2 ^ (e - prec)) = 2 ^ prec ∧ e = big.MaxExp → r = .inf r.neg) ∧
      (¬ (roundHalfEven (q / 2 ^ (e - prec)) = 2 ^ prec ∧ e = big.MaxExp) →
        (∃ m x, r = .finite r.neg m x ∧ m ≠ 0) ∧
          r.mag = roundHalfEven (q / 2 ^ (e - prec)) * 2 ^ (e - prec)))

/-- The result a `big.Float` operation at `prec` bits gives for the exact value `q`: an
exact zero is `+0`; otherwise the result has the sign of `q` and is `|q|` rounded. -/
def IsRoundedResult (prec : Nat) (q : ℚ) (r : big.Float) : Prop :=
  (q = 0 → r = .zero false) ∧
  (q ≠ 0 → (r.neg = true ↔ q < 0) ∧ IsRounding prec |q| r)

/-- The exact mathematical result of an operation on two rational numbers. -/
def exactResult (op : Arith) (a b : ℚ) : ℚ :=
  match op with
  | .ADD => a + b
  | .SUB => a - b
  | .MUL => a * b
  | .DIV => a / b

/-- The number written by a list of decimal digits, most significant first. -/
def ofDigits (ds : List Nat) : Nat := ds.foldl (fun a d => 10 * a + d) 0

/-- The rational number a `decimal` stands for: `0.mant * 10^exp`. -/
def big.decimal.value (d : big.decimal) : ℚ :=
  (ofDigits d.mant : ℚ) * 10 ^ (d.exp - (d.mant.length : Int))

/-- A `decimal` in normal form: decimal digits, the first and the last of them not 0. -/
def big.decimal.Normal (d : big.decimal) : Prop :=
  (∀ x ∈ d.mant, x < 10) ∧ d.mant.head? ≠ some 0 ∧ d.mant.getLast? ≠ some 0 ∧ d.mant ≠ []

/-- The `decimal` `d` is the positive rational `q` rounded to at most `n` significant
decimal digits: `d` is in normal form with at most `n` digits and, `E` being the decimal
exponent of `q` (`10^(E-1) ≤ q < 10^E`), its value is `q / 10^(E-n)` rounded to the
nearest integer, ties to even, times `10^(E-n)`. -/
def IsDecimalRounding (n : Nat) (q : ℚ) (d : big.decimal) : Prop :=
  d.Normal ∧ d.mant.length ≤ n ∧
    ∃ E : Int, (10 : ℚ) ^ (E - 1) ≤ q ∧ q < 10 ^ E ∧
      d.value = (roundHalfEven (q / 10 ^ (E - (n : Int))) : ℚ) * 10 ^ (E - (n : Int))

/-- The characters of a list of decimal digits. -/
def digitString (ds : List Nat) : List Char := ds.map big.digitChar

/-- Plain decimal notation of the `decimal` `0.mant * 10^exp`: the digits with the point
after the first `exp` of them; `0.` and `-exp` zeros in front when `exp ≤ 0`; zeros
appended and no point when the digits end before the point. -/
def plainNotation (d : big.decimal) : List Char :=
  if d.exp ≤ 0 then
    '0' :: '.' :: (List.replicate (-d.exp).toNat '0' ++ digitString d.mant)
  else if (d.mant.length : Int) ≤ d.exp then
    digitString d.mant ++ List.replicate (d.exp.toNat - d.mant.length) '0'
  else
    digitString (d.mant.take d.exp.toNat) ++ '.' :: digitString (d.mant.drop d.exp.toNat)

/-- Exponent notation of the `decimal` `0.mant * 10^exp`: the first digit, the other
digits after a point if there are any, then `e`, the sign of the exponent `exp - 1` and
its decimal digits, at least two. -/
def exponentNotation (d : big.decimal) : List Char :=
  digitString (d.mant.take 1) ++
    (if 1 < d.mant.length then '.' :: digitString (d.mant.drop 1) else []) ++
    ['e', if d.exp - 1 < 0 then '-' else '+'] ++
    (if (d.exp - 1).natAbs < 10 then ['0'] else []) ++
    (if (d.exp - 1).natAbs = 0 then ['0'] else digitString (big.digits (d.exp - 1).natAbs))

/-- The string `s` is the `Float` `x` printed as `Float.String` prints it: an infinity by
name, a zero as `0`, and a finite value by the digits of its magnitude rounded to at most
10 significant digits, in exponent notation when the rounded magnitude is below `10^-4`
or not below `10^10`, and in plain notation otherwise; a negative value with a leading
`-`. In particular `s` holds the letter `e` exactly when the exponent notation is used. -/
def IsPrinted (x : big.Float) (s : String) : Prop :=
  match x with
  | .inf neg => s = if neg = true then "-Inf" else "+Inf"
  | .zero neg => s = if neg = true then "-0" else "0"
  | .finite neg _ _ =>
    ∃ d : big.decimal, IsDecimalRounding 10 x.mag d ∧
      s = String.mk ((if neg = true then ['-'] else []) ++
        (if d.value < 10 ^ (-4 : Int) ∨ 10 ^ (10 : Int) ≤ d.value
          then exponentNotation d else plainNotation d)) ∧
      ('e' ∈ s.data ↔ (d.value < 10 ^ (-4 : Int) ∨ 10 ^ (10 : Int) ≤ d.value))

/-- A well-formed `Float`: a finite value has a mantissa that is not 0. -/
def big.Float.IsValid : big.Float → Prop
  | .finite _ m _ => m ≠ 0
  | _ => True

/-- The sign `big.Float` gives a zero result when an operand is a zero. -/
def zeroSign (op : Arith) (nx ny : Bool) : Bool :=
  match op with
  | .ADD => nx && ny
  | .SUB => nx && !ny
  | .MUL => nx != ny
  | .DIV => nx != ny

/-- The result `r` of an operation of `hello.go` on two zero or finite operands, against
the exact result `q` of the operation on the rational numbers the operands stand for.
With both operands not zero, `r` is `q` rounded to 64 mantissa bits (`IsRoundedResult`).
With an operand that is a zero nothing is rounded: `r` is a zero (of the sign `zeroSign`
gives) when `q` is 0, and otherwise a finite value that stands for `q`. -/
def IsOpResult (op : Arith) (x y r : big.Float) : Prop :=
  (x.mag ≠ 0 ∧ y.mag ≠ 0 → IsRoundedResult 64 (exactResult op x.toRat y.toRat) r) ∧
  (x.mag = 0 ∨ y.mag = 0 →
    (exactResult op x.toRat y.toRat = 0 → r = .zero (zeroSign op x.neg y.neg)) ∧
    (exactResult op x.toRat y.toRat ≠ 0 →
      (∃ neg m e, r = .finite neg m e ∧ m ≠ 0) ∧ r.toRat = exactResult op x.toRat y.toRat))

/-- Every value held by the store is well-formed. -/
def AllValid (db : cache.Cache) : Prop :=
  ∀ k item, db.items k = some item → item.Object.IsValid

/-! ## Properties of the handlers -/

section lemmas

variable (db : cache.Cache) (t1 t2 : Int) (rpcObj : RpcObj) (returnObj : ReplyObj)

theorem FillReplay_eq (id : Int) (ok : Bool) (msg result : String) :
    FillReplay returnObj id ok msg result = ⟨id, ok, msg, result⟩ := rfl

theorem Create_reply_id {r : cache.Cache × ReplyObj}
    (h : Create db t1 t2 rpcObj returnObj = .ok r) : r.2.Id = rpcObj.Id := by
  unfold Create at h
  repeat' split at h
  all_goals first
    | (cases h; rfl)
    | cases h

theorem Set_reply_id {r : cache.Cache × ReplyObj}
    (h : Set db t1 t2 rpcObj returnObj = .ok r) : r.2.Id = rpcObj.Id := by
  unfold Set at h
  repeat' split at h
  all_goals first
    | (cases h; rfl)
    | cases h

theorem Delete_reply_id {r : cache.Cache × ReplyObj}
    (h : Delete db t1 rpcObj returnObj = .ok r) : r.2.Id = rpcObj.Id := by
  unfold Delete at h
  repeat' split at h
  all_goals first
    | (cases h; rfl)
    | cases h

theorem Calc_reply_id (op : Arith) {r : cache.Cache × ReplyObj}
    (h : Calc db t1 t2 rpcObj returnObj op = .ok r) : r.2.Id = rpcObj.Id := by
  unfold Calc at h
  repeat' split at h
  all_goals first
    | (cases h; rfl)
    | cases h

theorem returnNil_ok {r : Except Panic (cache.Cache × ReplyObj)} {out : Outcome}
    (h : returnNil r = .ok out) : r = .ok (out.db, out.reply) ∧ out.err = none := by
  unfold returnNil at h
  split at h
  · cases h
  · injection h with h; subst h; exact ⟨rfl, rfl⟩

end lemmas

/-- C1: whenever `Serve` fills in a reply, on the version-mismatch path, on the
unknown-method path and on every path of create, set, delete and add/sub/mul/div, the
reply's `Id` is the request's `Id`. -/
theorem C1_reply_id_eq_request_id (db : cache.Cache) (t1 t2 : Int) (rpcObj : RpcObj)
    (returnObj : ReplyObj) (out : Outcome)
    (h : ServerHandler.Serve db t1 t2 rpcObj returnObj = .ok out) :
    out.reply.Id = rpcObj.Id := by
  unfold ServerHandler.Serve at h
  repeat' split at h
  · injection h with h; subst h; rfl
  · exact Create_reply_id db t1 t2 rpcObj returnObj (returnNil_ok h).1
  · exact Set_reply_id db t1 t2 rpcObj returnObj (returnNil_ok h).1
  · exact Delete_reply_id db t1 rpcObj returnObj (returnNil_ok h).1
  · exact Calc_reply_id db t1 t2 rpcObj returnObj .MUL (returnNil_ok h).1
  · exact Calc_reply_id db t1 t2 rpcObj returnObj .ADD (returnNil_ok h).1
  · exact Calc_reply_id db t1 t2 rpcObj returnObj .SUB (returnNil_ok h).1
  · exact Calc_reply_id db t1 t2 rpcObj returnObj .DIV (returnNil_ok h).1
  · injection h with h; subst h; rfl

/-- C1 at the client's second request: create `ggg` with id 999 at version 1. -/
theorem C1_reply_id_witness :
    ServerHandler.Serve database 0 0
        ⟨Float64.one, "create", ["ggg", "555"], 999⟩ ⟨0, false, "", ""⟩ =
      .ok ⟨database.Set 0 "ggg" (.finite false 555 10) cache.DefaultExpiration,
           ⟨999, true, "Create: ggg success", ""⟩, none⟩ ∧
    (999 : Int) = 999 :=
  ⟨by rfl, C1_reply_id_eq_request_id database 0 0
    ⟨Float64.one, "create", ["ggg", "555"], 999⟩ ⟨0, false, "", ""⟩ _ (by rfl)⟩

section lemmas

variable (db : cache.Cache) (t1 t2 : Int) (returnObj : ReplyObj)

theorem VerifyRpcObj_one (m : String) (ps : List String) (id : Int) :
    VerifyRpcObj ⟨Float64.one, m, ps, id⟩ = true := by
  have h : Float64.one.ne Float64.one = false := by decide
  simp [VerifyRpcObj, h]

theorem Serve_create (ps : List String) (id : Int) :
    ServerHandler.Serve db t1 t2 ⟨Float64.one, "create", ps, id⟩ returnObj =
      returnNil (Create db t1 t2 ⟨Float64.one, "create", ps, id⟩ returnObj) := by
  simp [ServerHandler.Serve, VerifyRpcObj_one]

theorem Serve_set (ps : List String) (id : Int) :
    ServerHandler.Serve db t1 t2 ⟨Float64.one, "set", ps, id⟩ returnObj =
      returnNil (Set db t1 t2 ⟨Float64.one, "set", ps, id⟩ returnObj) := by
  simp [ServerHandler.Serve, VerifyRpcObj_one]

theorem Serve_delete (ps : List String) (id : Int) :
    ServerHandler.Serve db t1 t2 ⟨Float64.one, "delete", ps, id⟩ returnObj =
      returnNil (Delete db t1 ⟨Float64.one, "delete", ps, id⟩ returnObj) := by
  simp [ServerHandler.Serve, VerifyRpcObj_one]

theorem Get_Set_same (k : String) (x : big.Float) :
    (db.Set t2 k x cache.DefaultExpiration).Get t2 k = some x := by
  simp only [cache.Cache.Set, cache.Cache.Get, cache.DefaultExpiration, if_true]
  by_cases hd : db.defaultExpiration > 0
  · simp [hd]
    omega
  · simp [hd]

end lemmas

/-- What `database.Set(key, n, cache.DefaultExpiration)` leaves under `key` in a store
configured as `database` is: the value with the deadline five minutes after the write. -/
theorem Set_default_items (db : cache.Cache) (hde : db.defaultExpiration = 5 * cache.Minute)
    (t2 : Int) (k : String) (x : big.Float) :
    (db.Set t2 k x cache.DefaultExpiration).items k = some ⟨x, t2 + 5 * cache.Minute⟩ := by
  simp [cache.Cache.Set, cache.DefaultExpiration, hde, cache.Minute]

theorem Get_of_items_live {db : cache.Cache} {k : String} {v : big.Float} {e t : Int}
    (hitem : db.items k = some ⟨v, e⟩) (hlive : t ≤ e) : db.Get t k = some v := by
  simp only [cache.Cache.Get, hitem]
  rw [if_neg]
  omega

theorem Get_of_items_late {db : cache.Cache} {k : String} {v : big.Float} {e t : Int}
    (hitem : db.items k = some ⟨v, e⟩) (hpos : 0 < e) (hlate : e < t) :
    db.Get t k = none := by
  simp [cache.Cache.Get, hitem, hpos, hlate]

theorem Serve_defaultExpiration (db : cache.Cache) (t1 t2 : Int) (rpcObj : RpcObj)
    (returnObj : ReplyObj) {out : Outcome}
    (h : ServerHandler.Serve db t1 t2 rpcObj returnObj = .ok out) :
    out.db.defaultExpiration = db.defaultExpiration := by
  have hcalc : ∀ op {r : cache.Cache × ReplyObj},
      Calc db t1 t2 rpcObj returnObj op = .ok r → r.1.defaultExpiration = db.defaultExpiration := by
    intro op r hr
    unfold Calc at hr
    repeat' split at hr
    all_goals first | (cases hr; rfl) | cases hr
  have hcreate : ∀ {r : cache.Cache × ReplyObj},
      Create db t1 t2 rpcObj returnObj = .ok r → r.1.defaultExpiration = db.defaultExpiration := by
    intro r hr
    unfold Create at hr
    repeat' split at hr
    all_goals first | (cases hr; rfl) | cases hr
  have hset : ∀ {r : cache.Cache × ReplyObj},
      Set db t1 t2 rpcObj returnObj = .ok r → r.1.defaultExpiration = db.defaultExpiration := by
    intro r hr
    unfold Set at hr
    repeat' split at hr
    all_goals first | (cases hr; rfl) | cases hr
  have hdelete : ∀ {r : cache.Cache × ReplyObj},
      Delete db t1 rpcObj returnObj = .ok r → r.1.defaultExpiration = db.defaultExpiration := by
    intro r hr
    unfold Delete at hr
    repeat' split at hr
    all_goals first | (cases hr; rfl) | cases hr
  unfold ServerHandler.Serve at h
  repeat' split at h
  · cases h; rfl
  · exact hcreate (returnNil_ok h).1
  · exact hset (returnNil_ok h).1
  · exact hdelete (returnNil_ok h).1
  · exact hcalc _ (returnNil_ok h).1
  · exact hcalc _ (returnNil_ok h).1
  · exact hcalc _ (returnNil_ok h).1
  · exact hcalc _ (returnNil_ok h).1
  · cases h; rfl

/-- Every store the server can be in is configured as `database` is created in
hello.go: `cache.New(5*time.Minute, 10*time.Minute)`. No handler and no sweep changes
the default expiration. -/
theorem Reachable_defaultExpiration {db : cache.Cache} (h : Reachable db) :
    db.defaultExpiration = 5 * cache.Minute := by
  induction h with
  | start => rfl
  | serve t1 t2 rpcObj returnObj out _ hs ih =>
    rw [Serve_defaultExpiration _ t1 t2 rpcObj returnObj hs]
    exact ih
  | sweep now _ ih => exact ih

/-- C2: on a store configured as the program's `database` (default expiration of five
minutes, which every reachable store has), a version-1 `create` with params
`[name, literal]` completes, and replies `ok=true` exactly when `name` does not parse as
a number, no unexpired entry `name` exists and `literal` parses. Then the store holds
under `name` the parsed value with the deadline `t2 + 5 minutes`, `t2` being the time of
the write: a lookup at any time up to that deadline finds the value, a lookup after it
(the deadline being a positive Unix time) finds nothing; every other entry is as
before. -/
theorem C2_create_ok_iff (db : cache.Cache) (hde : db.defaultExpiration = 5 * cache.Minute)
    (t1 t2 : Int) (name literal : String) (id : Int) (returnObj : ReplyObj) :
    ∃ out, ServerHandler.Serve db t1 t2 ⟨Float64.one, "create", [name, literal], id⟩ returnObj
        = .ok out ∧
      (out.reply.Ok = true ↔
        (big.Float.SetString name = none ∧ db.Get t1 name = none ∧
          (big.Float.SetString literal).isSome = true)) ∧
      (∀ v, out.reply.Ok = true → big.Float.SetString literal = some v →
        out.db.items name = some ⟨v, t2 + 5 * cache.Minute⟩ ∧
          t2 + 5 * cache.Minute = t2 + 300000000000 ∧
          out.db.Get t2 name = some v ∧
          (∀ t, t ≤ t2 + 5 * cache.Minute → out.db.Get t name = some v) ∧
          (∀ t, 0 < t2 + 5 * cache.Minute → t2 + 5 * cache.Minute < t →
            out.db.Get t name = none) ∧
          out.db.defaultExpiration = 5 * cache.Minute ∧
          ∀ k, k ≠ name → out.db.items k = db.items k) := by
  rw [Serve_create]
  simp only [Create, index, List.get?, returnNil]
  cases hk : big.Float.SetString name with
  | some x => exact ⟨_, rfl, by simp [FillReplay], by simp [FillReplay]⟩
  | none =>
    cases hg : db.Get t1 name with
    | some x => exact ⟨_, rfl, by simp [FillReplay], by simp [FillReplay]⟩
    | none =>
      cases hv : big.Float.SetString literal with
      | none => exact ⟨_, rfl, by simp [FillReplay], by simp [FillReplay]⟩
      | some n =>
        refine ⟨_, rfl, by simp [FillReplay], ?_⟩
        intro v _ hv2
        cases hv2
        have hitem := Set_default_items db hde t2 name n
        refine ⟨hitem, by simp [cache.Minute], Get_Set_same db t2 name _,
          fun t ht => Get_of_items_live hitem ht,
          fun t hpos ht => Get_of_items_late hitem hpos ht, hde, ?_⟩
        intro k hk2
        simp [cache.Cache.Set, hk2]

/-- C2 on the start-up store: `create("ggg", "555")` written at time 7 replies `ok=true`
and leaves `ggg = 555` with the deadline `7 + 300000000000`. -/
theorem C2_create_witness :
    database.defaultExpiration = 5 * cache.Minute ∧
    ServerHandler.Serve database 0 7 ⟨Float64.one, "create", ["ggg", "555"], 1⟩
        ⟨0, false, "", ""⟩ =
      .ok ⟨database.Set 7 "ggg" (.finite false 555 10) cache.DefaultExpiration,
        ⟨1, true, "Create: ggg success", ""⟩, none⟩ ∧
    (database.Set 7 "ggg" (.finite false 555 10) cache.DefaultExpiration).items "ggg" =
      some ⟨.finite false 555 10, 300000000007⟩ ∧
    ∃ out, ServerHandler.Serve database 0 7 ⟨Float64.one, "create", ["ggg", "555"], 1⟩
        ⟨0, false, "", ""⟩ = .ok out ∧
      (out.reply.Ok = true ↔
        (big.Float.SetString "ggg" = none ∧ database.Get 0 "ggg" = none ∧
          (big.Float.SetString "555").isSome = true)) ∧
      (∀ v, out.reply.Ok = true → big.Float.SetString "555" = some v →
        out.db.items "ggg" = some ⟨v, 7 + 5 * cache.Minute⟩ ∧
          (7 : Int) + 5 * cache.Minute = 7 + 300000000000 ∧
          out.db.Get 7 "ggg" = some v ∧
          (∀ t, t ≤ 7 + 5 * cache.Minute → out.db.Get t "ggg" = some v) ∧
          (∀ t, 0 < 7 + 5 * cache.Minute → 7 + 5 * cache.Minute < t →
            out.db.Get t "ggg" = none) ∧
          out.db.defaultExpiration = 5 * cache.Minute ∧
          ∀ k, k ≠ "ggg" → out.db.items k = database.items k) :=
  ⟨rfl, by rfl, by rfl,
    C2_create_ok_iff database rfl 0 7 "ggg" "555" 1 ⟨0, false, "", ""⟩⟩

/-- C3: on a store configured as the program's `database` (default expiration of five
minutes, which every reachable store has), a version-1 `set` with params
`[name, literal]` completes, and replies `ok=true` exactly when an unexpired entry `name`
exists and `literal` parses. Then the entry holds the parsed value with the refreshed
deadline `t2 + 5 minutes`, `t2` being the time of the write: a lookup at any time up to
that deadline finds the new value, a lookup after it (the deadline being a positive Unix
time) finds nothing; every other entry is as before. When `name` is absent the reply is
`ok=false` and the store is the one before, so `name` is still absent, whatever
`literal` is. -/
theorem C3_set_ok_iff (db : cache.Cache) (hde : db.defaultExpiration = 5 * cache.Minute)
    (t1 t2 : Int) (name literal : String) (id : Int) (returnObj : ReplyObj) :
    ∃ out, ServerHandler.Serve db t1 t2 ⟨Float64.one, "set", [name, literal], id⟩ returnObj
        = .ok out ∧
      (out.reply.Ok = true ↔
        ((db.Get t1 name).isSome = true ∧ (big.Float.SetString literal).isSome = true)) ∧
      (∀ v, out.reply.Ok = true → big.Float.SetString literal = some v →
        out.db.items name = some ⟨v, t2 + 5 * cache.Minute⟩ ∧
          t2 + 5 * cache.Minute = t2 + 300000000000 ∧
          out.db.Get t2 name = some v ∧
          (∀ t, t ≤ t2 + 5 * cache.Minute → out.db.Get t name = some v) ∧
          (∀ t, 0 < t2 + 5 * cache.Minute → t2 + 5 * cache.Minute < t →
            out.db.Get t name = none) ∧
          out.db.defaultExpiration = 5 * cache.Minute ∧
          ∀ k, k ≠ name → out.db.items k = db.items k) ∧
      (db.Get t1 name = none →
        out.reply.Ok = false ∧ out.db = db ∧ ∀ t, out.db.Get t name = db.Get t name) := by
  rw [Serve_set]
  simp only [Set, index, List.get?, returnNil]
  cases hg : db.Get t1 name with
  | none => exact ⟨_, rfl, by simp [FillReplay], by simp [FillReplay], by simp [FillReplay]⟩
  | some x =>
    cases hv : big.Float.SetString literal with
    | none => exact ⟨_, rfl, by simp [FillReplay], by simp [FillReplay], by simp⟩
    | some n =>
      refine ⟨_, rfl, by simp [FillReplay], ?_, by simp⟩
      intro v _ hv2
      cases hv2
      have hitem := Set_default_items db hde t2 name n
      refine ⟨hitem, by simp [cache.Minute], Get_Set_same db t2 name _,
        fun t ht => Get_of_items_live hitem ht,
        fun t hpos ht => Get_of_items_late hitem hpos ht, hde, ?_⟩
      intro k hk2
      simp [cache.Cache.Set, hk2]

/-- C3 on the store where `ggg` was created at time 0 and set to 3: `set("ggg", "7")`
written at time 9 replies `ok=true` and leaves `ggg = 7` with the refreshed deadline
`9 + 300000000000`. -/
theorem C3_set_witness :
    dbGgg3.defaultExpiration = 5 * cache.Minute ∧
    ServerHandler.Serve dbGgg3 8 9 ⟨Float64.one, "set", ["ggg", "7"], 2⟩ ⟨0, false, "", ""⟩ =
      .ok ⟨dbGgg3.Set 9 "ggg" (.finite false 7 3) cache.DefaultExpiration,
        ⟨2, true, "Set: ggg success", ""⟩, none⟩ ∧
    (dbGgg3.Set 9 "ggg" (.finite false 7 3) cache.DefaultExpiration).items "ggg" =
      some ⟨.finite false 7 3, 300000000009⟩ ∧
    ∃ out, ServerHandler.Serve dbGgg3 8 9 ⟨Float64.one, "set", ["ggg", "7"], 2⟩
        ⟨0, false, "", ""⟩ = .ok out ∧
      (out.reply.Ok = true ↔
        ((dbGgg3.Get 8 "ggg").isSome = true ∧ (big.Float.SetString "7").isSome = true)) ∧
      (∀ v, out.reply.Ok = true → big.Float.SetString "7" = some v →
        out.db.items "ggg" = some ⟨v, 9 + 5 * cache.Minute⟩ ∧
          (9 : Int) + 5 * cache.Minute = 9 + 300000000000 ∧
          out.db.Get 9 "ggg" = some v ∧
          (∀ t, t ≤ 9 + 5 * cache.Minute → out.db.Get t "ggg" = some v) ∧
          (∀ t, 0 < 9 + 5 * cache.Minute → 9 + 5 * cache.Minute < t →
            out.db.Get t "ggg" = none) ∧
          out.db.defaultExpiration = 5 * cache.Minute ∧
          ∀ k, k ≠ "ggg" → out.db.items k = dbGgg3.items k) ∧
      (dbGgg3.Get 8 "ggg" = none →
        out.reply.Ok = false ∧ out.db = dbGgg3 ∧
          ∀ t, out.db.Get t "ggg" = dbGgg3.Get t "ggg") :=
  ⟨rfl, by rfl, by rfl,
    C3_set_ok_iff dbGgg3 rfl 8 9 "ggg" "7" 2 ⟨0, false, "", ""⟩⟩

/-- C4: a version-1 `delete` whose first param is `name` completes, and replies
`ok=true` exactly when an unexpired entry `name` exists; after a successful delete the
name is absent, every other entry is as before, and any following delete of the same
name replies `ok=false`. -/
theorem C4_delete_ok_iff (db : cache.Cache) (t1 t2 : Int) (name : String) (rest : List String)
    (id : Int) (returnObj : ReplyObj) :
    ∃ out, ServerHandler.Serve db t1 t2 ⟨Float64.one, "delete", name :: rest, id⟩ returnObj
        = .ok out ∧
      (out.reply.Ok = true ↔ (db.Get t1 name).isSome = true) ∧
      (out.reply.Ok = true →
        out.db.items name = none ∧
          (∀ t, out.db.Get t name = none) ∧
          out.db.defaultExpiration = db.defaultExpiration ∧
          (∀ k, k ≠ name → out.db.items k = db.items k) ∧
          ∀ (t3 t4 : Int) (rest2 : List String) (id2 : Int) (returnObj2 : ReplyObj),
            ∃ out2, ServerHandler.Serve out.db t3 t4
                ⟨Float64.one, "delete", name :: rest2, id2⟩ returnObj2 = .ok out2 ∧
              out2.reply.Ok = false ∧ out2.db = out.db) := by
  rw [Serve_delete]
  simp only [Delete, index, List.get?, returnNil]
  cases hg : db.Get t1 name with
  | none => exact ⟨_, rfl, by simp [FillReplay], by simp [FillReplay]⟩
  | some x =>
    have hget : ∀ t, (db.Delete name).Get t name = none := by
      intro t
      simp [cache.Cache.Delete, cache.Cache.Get]
    refine ⟨_, rfl, by simp [FillReplay], ?_⟩
    intro _
    refine ⟨by simp [cache.Cache.Delete], hget, rfl, ?_, ?_⟩
    · intro k hk
      simp [cache.Cache.Delete, hk]
    · intro t3 t4 rest2 id2 returnObj2
      rw [Serve_delete]
      simp only [Delete, index, List.get?, returnNil, hget t3]
      exact ⟨_, rfl, by simp [FillReplay], rfl⟩

theorem Serve_calc (db : cache.Cache) (t1 t2 : Int) (returnObj : ReplyObj) (m : String)
    (op : Arith) (hm : (m, op) ∈ arithMethods) (ps : List String) (id : Int) :
    ServerHandler.Serve db t1 t2 ⟨Float64.one, m, ps, id⟩ returnObj =
      returnNil (Calc db t1 t2 ⟨Float64.one, m, ps, id⟩ returnObj op) := by
  simp only [arithMethods, List.mem_cons, Prod.mk.injEq, List.mem_singleton,
    List.not_mem_nil, or_false] at hm
  rcases hm with ⟨rfl, rfl⟩ | ⟨rfl, rfl⟩ | ⟨rfl, rfl⟩ | ⟨rfl, rfl⟩ <;>
    simp [ServerHandler.Serve, VerifyRpcObj_one]

theorem operand_of_resolvesTo {db : cache.Cache} {t : Int} {tok : String} {n : big.Float}
    (h : resolvesTo db t tok n) : operand (db.Get t tok) tok = some n := by
  rcases h with h | ⟨h, h1⟩ <;> simp [operand, h, *]

theorem resolvesTo_of_operand {db : cache.Cache} {t : Int} {tok : String} {n : big.Float}
    (h : operand (db.Get t tok) tok = some n) : resolvesTo db t tok n := by
  unfold operand at h
  split at h
  · next n1 hg => exact Or.inl (by rw [hg, h])
  · next hg => exact Or.inr ⟨hg, h⟩

theorem Serve_calc_resolved (db : cache.Cache) (t1 t2 : Int) (m : String) (op : Arith)
    (a b : String) (rest : List String) (id : Int) (returnObj : ReplyObj)
    (hm : (m, op) ∈ arithMethods) (n1 n2 : big.Float)
    (h1 : resolvesTo db t1 a n1) (h2 : resolvesTo db t2 b n2) :
    ServerHandler.Serve db t1 t2 ⟨Float64.one, m, a :: b :: rest, id⟩ returnObj =
      match applyOp op n1 n2 with
      | .ok result => .ok ⟨db, ⟨id, true, "Calculate success", result.String⟩, none⟩
      | .error e => .error e := by
  rw [Serve_calc db t1 t2 returnObj m op hm]
  simp only [Calc, index, List.get?, returnNil, operand_of_resolvesTo h1,
    operand_of_resolvesTo h2]
  cases applyOp op n1 n2 <;> rfl

/-- C5: for add/sub/mul/div at version 1 with params `[a, b]`, an operand that is a live
stored name takes the stored value and only otherwise the parsed token. If `a` is
neither, the reply is `ok=false` with the message for `Params[0]`; if `a` resolves and
`b` is neither, the reply is `ok=false` with the message for `Params[1]`; if both
resolve (`resolvesTo`: the stored value of a live name, else the parsed token), the
outcome is that of the operation on the two resolved values. -/
theorem C5_operand_resolution (db : cache.Cache) (t1 t2 : Int) (m : String) (op : Arith)
    (a b : String) (id : Int) (returnObj : ReplyObj) (hm : (m, op) ∈ arithMethods) :
    (db.Get t1 a = none → big.Float.SetString a = none →
      ServerHandler.Serve db t1 t2 ⟨Float64.one, m, [a, b], id⟩ returnObj =
        .ok ⟨db, ⟨id, false, "Params[0] error, expired or invalid", ""⟩, none⟩) ∧
    ((db.Get t1 a).isSome = true ∨ (big.Float.SetString a).isSome = true →
      db.Get t2 b = none → big.Float.SetString b = none →
      ServerHandler.Serve db t1 t2 ⟨Float64.one, m, [a, b], id⟩ returnObj =
        .ok ⟨db, ⟨id, false, "Params[1] error, expired or invalid", ""⟩, none⟩) ∧
    (∀ n1 n2, resolvesTo db t1 a n1 → resolvesTo db t2 b n2 →
      ServerHandler.Serve db t1 t2 ⟨Float64.one, m, [a, b], id⟩ returnObj =
        match applyOp op n1 n2 with
        | .ok result => .ok ⟨db, ⟨id, true, "Calculate success", result.String⟩, none⟩
        | .error e => .error e) := by
  refine ⟨?_, ?_, Serve_calc_resolved db t1 t2 m op a b [] id returnObj hm⟩ <;>
    rw [Serve_calc db t1 t2 returnObj m op hm] <;>
    simp only [Calc, index, List.get?, returnNil]
  · intro hg hp
    simp [operand, hg, hp, FillReplay]
  · intro ha hg hp
    have h1 : ∃ n1, operand (db.Get t1 a) a = some n1 := by
      cases hga : db.Get t1 a with
      | some n => exact ⟨n, rfl⟩
      | none =>
        cases hpa : big.Float.SetString a with
        | some n => exact ⟨n, by simp [operand, hpa]⟩
        | none => simp [hga, hpa] at ha
    obtain ⟨n1, h1⟩ := h1
    have h2 : operand (db.Get t2 b) b = none := by simp [operand, hg, hp]
    simp only [h1, h2]
    rfl

/-- C5 at the client's request `add("1", "abc")` on the empty store: it fails on
param 1. -/
theorem C5_operand_resolution_witness :
    (("add", Arith.ADD) ∈ arithMethods) ∧
    ServerHandler.Serve database 0 0 ⟨Float64.one, "add", ["1", "abc"], 1⟩ ⟨0, false, "", ""⟩ =
      .ok ⟨database, ⟨1, false, "Params[1] error, expired or invalid", ""⟩, none⟩ :=
  ⟨by decide,
   (C5_operand_resolution database 0 0 "add" .ADD "1" "abc" 1 ⟨0, false, "", ""⟩
      (by decide)).2.1 (Or.inr (by decide)) (by rfl) (by decide)⟩

/-- C6 (what the code does): on the empty store `div("5", "0")` replies `ok=true` with
result `+Inf`, and `div("0", "0")` panics with `big.ErrNaN`; neither replies `ok=false`
with a division-by-zero cause. The same holds when the divisor is a stored zero. -/
theorem C6_div_by_zero_not_rejected :
    ServerHandler.Serve database 0 0 ⟨Float64.one, "div", ["5", "0"], 1⟩ ⟨0, false, "", ""⟩ =
      .ok ⟨database, ⟨1, true, "Calculate success", "+Inf"⟩, none⟩ ∧
    ServerHandler.Serve database 0 0 ⟨Float64.one, "div", ["0", "0"], 1⟩ ⟨0, false, "", ""⟩ =
      .error (.errNaN ⟨"division of zero by zero or infinity by infinity"⟩) ∧
    (∀ (db : cache.Cache) (t1 t2 : Int) (a b : String) (id : Int) (returnObj : ReplyObj)
        (n1 : big.Float) (neg : Bool) (out : Outcome),
      resolvesTo db t1 a n1 → resolvesTo db t2 b (.zero neg) →
      ServerHandler.Serve db t1 t2 ⟨Float64.one, "div", [a, b], id⟩ returnObj = .ok out →
      out.reply.Ok = true) := by
  refine ⟨by rfl, by rfl, ?_⟩
  intro db t1 t2 a b id returnObj n1 neg out h1 h2 h
  rw [Serve_calc_resolved db t1 t2 "div" .DIV a b [] id returnObj (by decide) n1 _ h1 h2] at h
  split at h
  · cases h; rfl
  · cases h

/-! ### Completion of `Serve` -/

theorem applyOp_ok_of_defined (op : Arith) (n1 n2 : big.Float)
    (h : undefinedOp op n1 n2 = false) : ∃ r, applyOp op n1 n2 = .ok r := by
  cases op <;> cases n1 <;> cases n2 <;>
    simp only [undefinedOp, applyOp, big.Float.Mul, big.Float.MulP, big.Float.Add,
      big.Float.AddP, big.Float.Sub, big.Float.SubP, big.Float.Quo, big.Float.QuoP,
      pure, Except.pure, throw, throwThe, MonadExceptOf.throw] at h ⊢ <;>
    first
      | exact ⟨_, rfl⟩
      | (split_ifs <;> exact ⟨_, rfl⟩)
      | (cases h)
      | (simp at h; simp [h])

theorem exists_cons_of_length {ps : List String} (h : 1 ≤ ps.length) :
    ∃ a rest, ps = a :: rest := by
  cases ps with
  | nil => simp at h
  | cons a rest => exact ⟨a, rest, rfl⟩

theorem exists_cons_cons_of_length {ps : List String} (h : 2 ≤ ps.length) :
    ∃ a b rest, ps = a :: b :: rest := by
  match ps, h with
  | a :: b :: rest, _ => exact ⟨a, b, rest, rfl⟩

theorem returnNil_of_ok {r : Except Panic (cache.Cache × ReplyObj)}
    (h : ∃ x, r = .ok x) : ∃ out, returnNil r = .ok out ∧ out.err = none := by
  obtain ⟨x, rfl⟩ := h
  exact ⟨⟨x.1, x.2, none⟩, rfl, rfl⟩

theorem Create_completes (db : cache.Cache) (t1 t2 : Int) (ver : Float64) (m a b : String)
    (rest : List String) (id : Int) (returnObj : ReplyObj) :
    ∃ x, Create db t1 t2 ⟨ver, m, a :: b :: rest, id⟩ returnObj = .ok x := by
  simp only [Create, index, List.get?]
  repeat' split
  all_goals exact ⟨_, rfl⟩

theorem Set_completes (db : cache.Cache) (t1 t2 : Int) (ver : Float64) (m a b : String)
    (rest : List String) (id : Int) (returnObj : ReplyObj) :
    ∃ x, Set db t1 t2 ⟨ver, m, a :: b :: rest, id⟩ returnObj = .ok x := by
  simp only [Set, index, List.get?]
  repeat' split
  all_goals exact ⟨_, rfl⟩

theorem Delete_completes (db : cache.Cache) (t1 : Int) (ver : Float64) (m a : String)
    (rest : List String) (id : Int) (returnObj : ReplyObj) :
    ∃ x, Delete db t1 ⟨ver, m, a :: rest, id⟩ returnObj = .ok x := by
  simp only [Delete, index, List.get?]
  repeat' split
  all_goals exact ⟨_, rfl⟩

theorem Calc_completes (db : cache.Cache) (t1 t2 : Int) (ver : Float64) (m a b : String)
    (rest : List String) (id : Int) (returnObj : ReplyObj) (op : Arith)
    (hop : ∀ n1 n2, resolvesTo db t1 a n1 → resolvesTo db t2 b n2 →
      undefinedOp op n1 n2 = false) :
    ∃ x, Calc db t1 t2 ⟨ver, m, a :: b :: rest, id⟩ returnObj op = .ok x := by
  simp only [Calc, index, List.get?]
  cases h1 : operand (db.Get t1 a) a with
  | none => exact ⟨_, rfl⟩
  | some n1 =>
    cases h2 : operand (db.Get t2 b) b with
    | none => exact ⟨_, rfl⟩
    | some n2 =>
      obtain ⟨r, hr⟩ := applyOp_ok_of_defined op n1 n2
        (hop n1 n2 (resolvesTo_of_operand h1) (resolvesTo_of_operand h2))
      simp only [hr]
      exact ⟨_, rfl⟩

/-- C7: `Serve` does not complete for every request. A version-1 `create` with no
params panics on `rpcObj.Params[0]` (index out of range): no reply is filled in and
nothing is returned. The same happens, for every store, clock reading, id and reply
object, with each of the seven methods and no params, and with each of the six
two-parameter methods and one param (on `rpcObj.Params[1]`). -/
theorem C7_empty_params_panics :
    ServerHandler.Serve database 0 0 ⟨Float64.one, "create", [], 0⟩ ⟨0, false, "", ""⟩ =
      .error (.indexOutOfRange 0 0) ∧
    (¬ ∃ out, ServerHandler.Serve database 0 0 ⟨Float64.one, "create", [], 0⟩
        ⟨0, false, "", ""⟩ = .ok out) ∧
    (∀ (db : cache.Cache) (t1 t2 id : Int) (returnObj : ReplyObj) (m : String),
      m ∈ ["create", "set", "delete", "mul", "add", "sub", "div"] →
      ServerHandler.Serve db t1 t2 ⟨Float64.one, m, [], id⟩ returnObj =
        .error (.indexOutOfRange 0 0)) ∧
    (∀ (db : cache.Cache) (t1 t2 id : Int) (returnObj : ReplyObj) (m a : String),
      m ∈ ["create", "set", "mul", "add", "sub", "div"] →
      ServerHandler.Serve db t1 t2 ⟨Float64.one, m, [a], id⟩ returnObj =
        .error (.indexOutOfRange 1 1)) := by
  have h : ServerHandler.Serve database 0 0 ⟨Float64.one, "create", [], 0⟩
      ⟨0, false, "", ""⟩ = .error (.indexOutOfRange 0 0) := by rfl
  refine ⟨h, ?_, ?_, ?_⟩
  · rintro ⟨out, ho⟩
    rw [h] at ho
    cases ho
  · intro db t1 t2 id returnObj m hm
    simp only [List.mem_cons, List.mem_singleton, List.mem_nil_iff, or_false] at hm
    rcases hm with rfl | rfl | rfl | rfl | rfl | rfl | rfl <;>
      simp [ServerHandler.Serve, VerifyRpcObj_one, Create, Set, Delete, Calc, index, returnNil]
  · intro db t1 t2 id returnObj m a hm
    simp only [List.mem_cons, List.mem_singleton, List.mem_nil_iff, or_false] at hm
    rcases hm with rfl | rfl | rfl | rfl | rfl | rfl <;>
      simp [ServerHandler.Serve, VerifyRpcObj_one, Create, Set, Calc, index, returnNil]

/-- Where `Serve` does complete: it fills in a reply and returns a nil error for every
request that fails the version check or names no known method (any params), and for
every version-1 request whose params hold the entries its handler indexes, when for
add/sub/mul/div the operation on the two resolved operands does not raise `ErrNaN`. -/
theorem Serve_completes_with_enough_params (db : cache.Cache) (t1 t2 : Int) (rpcObj : RpcObj)
    (returnObj : ReplyObj)
    (hlen2 : VerifyRpcObj rpcObj = true →
      rpcObj.Method ∈ ["create", "set", "mul", "add", "sub", "div"] →
      2 ≤ rpcObj.Params.length)
    (hlen1 : VerifyRpcObj rpcObj = true → rpcObj.Method = "delete" →
      1 ≤ rpcObj.Params.length)
    (hop : ∀ op a b n1 n2, (rpcObj.Method, op) ∈ arithMethods →
      rpcObj.Params.get? 0 = some a → rpcObj.Params.get? 1 = some b →
      resolvesTo db t1 a n1 → resolvesTo db t2 b n2 → undefinedOp op n1 n2 = false) :
    ∃ out, ServerHandler.Serve db t1 t2 rpcObj returnObj = .ok out ∧ out.err = none := by
  obtain ⟨ver, m, ps, id⟩ := rpcObj
  simp only at hlen2 hlen1 hop
  unfold ServerHandler.Serve
  by_cases hv : VerifyRpcObj ⟨ver, m, ps, id⟩ = true
  · have calcCase : ∀ op, (m, op) ∈ arithMethods →
        m ∈ ["create", "set", "mul", "add", "sub", "div"] →
        ∃ out, returnNil (Calc db t1 t2 ⟨ver, m, ps, id⟩ returnObj op) = .ok out ∧
          out.err = none := by
      intro op hm hmem
      obtain ⟨a, b, rest, rfl⟩ := exists_cons_cons_of_length (hlen2 hv hmem)
      exact returnNil_of_ok (Calc_completes db t1 t2 ver m a b rest id returnObj op
        (fun n1 n2 h1 h2 => hop op a b n1 n2 hm rfl rfl h1 h2))
    simp only [hv, Bool.not_true, Bool.false_eq_true, if_false]
    by_cases h1 : m = "create"
    · subst h1
      obtain ⟨a, b, rest, rfl⟩ := exists_cons_cons_of_length (hlen2 hv (by simp))
      simp only [if_true]
      exact returnNil_of_ok (Create_completes db t1 t2 ver _ a b rest id returnObj)
    by_cases h2 : m = "set"
    · subst h2
      obtain ⟨a, b, rest, rfl⟩ := exists_cons_cons_of_length (hlen2 hv (by simp))
      simp only [if_true]
      exact returnNil_of_ok (Set_completes db t1 t2 ver _ a b rest id returnObj)
    by_cases h3 : m = "delete"
    · subst h3
      obtain ⟨a, rest, rfl⟩ := exists_cons_of_length (hlen1 hv rfl)
      simp only [if_true]
      exact returnNil_of_ok (Delete_completes db t1 ver _ a rest id returnObj)
    by_cases h4 : m = "mul"
    · subst h4
      simp only [if_true]
      exact calcCase .MUL (by simp [arithMethods]) (by simp)
    by_cases h5 : m = "add"
    · subst h5
      simp only [if_true]
      exact calcCase .ADD (by simp [arithMethods]) (by simp)
    by_cases h6 : m = "sub"
    · subst h6
      simp only [if_true]
      exact calcCase .SUB (by simp [arithMethods]) (by simp)
    by_cases h7 : m = "div"
    · subst h7
      simp only [if_true]
      exact calcCase .DIV (by simp [arithMethods]) (by simp)
    simp only [h1, h2, h3, h4, h5, h6, h7, if_false]
    exact ⟨_, rfl, rfl⟩
  · simp only [hv, Bool.not_false, if_true]
    exact ⟨_, rfl, rfl⟩

theorem resolvesTo_database {t : Int} {tok : String} {n : big.Float}
    (h : resolvesTo database t tok n) : big.Float.SetString tok = some n := by
  rcases h with h | ⟨_, h⟩
  · cases h
  · exact h

/-- The client's request `div("5", "2.5")` on the empty store completes with result `2`
and a nil error. -/
theorem Serve_completes_example :
    ServerHandler.Serve database 0 0 ⟨Float64.one, "div", ["5", "2.5"], 10⟩ ⟨0, false, "", ""⟩ =
      .ok ⟨database, ⟨10, true, "Calculate success", "2"⟩, none⟩ ∧
    ∃ out, ServerHandler.Serve database 0 0 ⟨Float64.one, "div", ["5", "2.5"], 10⟩
        ⟨0, false, "", ""⟩ = .ok out ∧ out.err = none :=
  ⟨by rfl,
   Serve_completes_with_enough_params database 0 0 ⟨Float64.one, "div", ["5", "2.5"], 10⟩
    ⟨0, false, "", ""⟩ (fun _ _ => by decide) (fun _ _ => by decide)
    (by
      intro op a b n1 n2 hm ha hb h1 h2
      simp [arithMethods] at hm
      simp at ha hb
      subst hm ha hb
      have p1 := resolvesTo_database h1
      have p2 := resolvesTo_database h2
      have q1 : big.Float.SetString "5" = some (.finite false 5 3) := by decide
      have q2 : big.Float.SetString "2.5" = some (.finite false 5 2) := by decide
      rw [q1] at p1
      rw [q2] at p2
      cases p1
      cases p2
      rfl)⟩

/-! ### Failed requests and read-only requests -/

theorem Create_fail_keeps_store (db : cache.Cache) (t1 t2 : Int) (rpcObj : RpcObj)
    (returnObj : ReplyObj) {r : cache.Cache × ReplyObj}
    (h : Create db t1 t2 rpcObj returnObj = .ok r) (hok : r.2.Ok = false) : r.1 = db := by
  unfold Create at h
  repeat' split at h
  all_goals first
    | (cases h; rfl)
    | (cases h; simp [FillReplay] at hok)
    | cases h

theorem Set_fail_keeps_store (db : cache.Cache) (t1 t2 : Int) (rpcObj : RpcObj)
    (returnObj : ReplyObj) {r : cache.Cache × ReplyObj}
    (h : Set db t1 t2 rpcObj returnObj = .ok r) (hok : r.2.Ok = false) : r.1 = db := by
  unfold Set at h
  repeat' split at h
  all_goals first
    | (cases h; rfl)
    | (cases h; simp [FillReplay] at hok)
    | cases h

theorem Delete_fail_keeps_store (db : cache.Cache) (t1 : Int) (rpcObj : RpcObj)
    (returnObj : ReplyObj) {r : cache.Cache × ReplyObj}
    (h : Delete db t1 rpcObj returnObj = .ok r) (hok : r.2.Ok = false) : r.1 = db := by
  unfold Delete at h
  repeat' split at h
  all_goals first
    | (cases h; rfl)
    | (cases h; simp [FillReplay] at hok)
    | cases h

theorem Calc_keeps_store (db : cache.Cache) (t1 t2 : Int) (rpcObj : RpcObj)
    (returnObj : ReplyObj) (op : Arith) {r : cache.Cache × ReplyObj}
    (h : Calc db t1 t2 rpcObj returnObj op = .ok r) : r.1 = db := by
  unfold Calc at h
  repeat' split at h
  all_goals first
    | (cases h; rfl)
    | cases h

/-- C8: whenever `Serve` replies `ok=false` (version mismatch, unknown method, numeric
or existing name on create, absent name on set or delete, unparsable literal,
unresolvable operand), the store after the call is the store before it: the same
items with the same values and expiration deadlines. -/
theorem C8_failed_request_keeps_store (db : cache.Cache) (t1 t2 : Int) (rpcObj : RpcObj)
    (returnObj : ReplyObj) (out : Outcome)
    (h : ServerHandler.Serve db t1 t2 rpcObj returnObj = .ok out)
    (hok : out.reply.Ok = false) : out.db = db := by
  unfold ServerHandler.Serve at h
  repeat' split at h
  · cases h; rfl
  · exact Create_fail_keeps_store db t1 t2 rpcObj returnObj (returnNil_ok h).1 hok
  · exact Set_fail_keeps_store db t1 t2 rpcObj returnObj (returnNil_ok h).1 hok
  · exact Delete_fail_keeps_store db t1 rpcObj returnObj (returnNil_ok h).1 hok
  · exact Calc_keeps_store db t1 t2 rpcObj returnObj .MUL (returnNil_ok h).1
  · exact Calc_keeps_store db t1 t2 rpcObj returnObj .ADD (returnNil_ok h).1
  · exact Calc_keeps_store db t1 t2 rpcObj returnObj .SUB (returnNil_ok h).1
  · exact Calc_keeps_store db t1 t2 rpcObj returnObj .DIV (returnNil_ok h).1
  · cases h; rfl

set_option maxRecDepth 100000 in
/-- C8 at the client's requests: `dbGgg3` is the store after `create("ggg", ...)` and
`set("ggg", "3")`; there `set("ggg", "asd")` fails and leaves the store as it was, and
`mul("ggg", "0.005")` then still succeeds on the value 3. -/
theorem C8_failed_set_witness :
    (∃ out1 out2,
      ServerHandler.Serve database 0 0
        ⟨Float64.one, "create", ["ggg", "12623451902.239174235"], 999⟩ ⟨0, false, "", ""⟩
        = .ok out1 ∧
      ServerHandler.Serve out1.db 0 0 ⟨Float64.one, "set", ["ggg", "3"], 555⟩ out1.reply
        = .ok out2 ∧ out2.reply.Ok = true ∧ out2.db = dbGgg3) ∧
    ServerHandler.Serve dbGgg3 1 1 ⟨Float64.one, "set", ["ggg", "asd"], 555⟩ ⟨0, false, "", ""⟩ =
      .ok ⟨dbGgg3, ⟨555, false, "Set: The input string is not valid", ""⟩, none⟩ ∧
    ServerHandler.Serve dbGgg3 2 2 ⟨Float64.one, "mul", ["ggg", "0.005"], 1⟩ ⟨0, false, "", ""⟩ =
      .ok ⟨dbGgg3, ⟨1, true, "Calculate success", "0.015"⟩, none⟩ ∧
    (⟨dbGgg3, ⟨555, false, "Set: The input string is not valid", ""⟩, none⟩ : Outcome).db =
      dbGgg3 :=
  ⟨⟨_, _, by rfl, by rfl, by rfl, by rfl⟩, by rfl, by rfl,
   C8_failed_request_keeps_store dbGgg3 1 1 ⟨Float64.one, "set", ["ggg", "asd"], 555⟩
     ⟨0, false, "", ""⟩ _ (by rfl) (by rfl)⟩

/-- C9: `Calc` never changes the store: whenever it fills in a reply, with `ok=true` or
`ok=false`, the store it leaves is the store it found (no item added, removed or
changed, no deadline refreshed); so does `Serve` for add, sub, mul and div. -/
theorem C9_Calc_read_only (db : cache.Cache) (t1 t2 : Int) (rpcObj : RpcObj)
    (returnObj : ReplyObj) (op : Arith) :
    (∀ r, Calc db t1 t2 rpcObj returnObj op = .ok r → r.1 = db) ∧
    (∀ out, (rpcObj.Method, op) ∈ arithMethods → rpcObj.Jsonrpc = Float64.one →
      ServerHandler.Serve db t1 t2 rpcObj returnObj = .ok out → out.db = db) := by
  refine ⟨fun r h => Calc_keeps_store db t1 t2 rpcObj returnObj op h, ?_⟩
  intro out hm hv h
  obtain ⟨ver, m, ps, id⟩ := rpcObj
  simp only at hm hv
  subst hv
  rw [Serve_calc db t1 t2 returnObj m op hm] at h
  exact Calc_keeps_store db t1 t2 _ returnObj op (returnNil_ok h).1

/-- C9 at `add("ggg", "0.005")` on the store holding `ggg = 3`: the reply is `3.005`
and the store is unchanged. -/
theorem C9_Calc_read_only_witness :
    Calc dbGgg3 1 1 ⟨Float64.one, "add", ["ggg", "0.005"], 1⟩ ⟨0, false, "", ""⟩ .ADD =
      .ok (dbGgg3, ⟨1, true, "Calculate success", "3.005"⟩) ∧
    (dbGgg3, (⟨1, true, "Calculate success", "3.005"⟩ : ReplyObj)).1 = dbGgg3 :=
  ⟨by rfl,
   (C9_Calc_read_only dbGgg3 1 1 ⟨Float64.one, "add", ["ggg", "0.005"], 1⟩ ⟨0, false, "", ""⟩
      .ADD).1 _ (by rfl)⟩

/-! ### The version check -/

theorem ne_of_getLast {s t : String} (h : s.data.getLast? ≠ t.data.getLast?) : s ≠ t :=
  fun e => h (by rw [e])

theorem append_ne_version (s : String) (c : Char) (tl : List Char) (hc : c ≠ 'h') :
    s ++ String.mk (tl ++ [c]) ≠ "JsonrpcVersion not match" := by
  apply ne_of_getLast
  have h1 : (s ++ String.mk (tl ++ [c])).data = (s.data ++ tl) ++ [c] := by
    simp [String.data_append]
  rw [h1, List.getLast?_concat]
  have h2 : "JsonrpcVersion not match".data.getLast? = some 'h' := by decide
  rw [h2]
  intro e
  exact hc (Option.some.inj e)

theorem Create_msg_ne_version (db : cache.Cache) (t1 t2 : Int) (rpcObj : RpcObj)
    (returnObj : ReplyObj) {r : cache.Cache × ReplyObj}
    (h : Create db t1 t2 rpcObj returnObj = .ok r) :
    r.2.Msg ≠ "JsonrpcVersion not match" := by
  unfold Create at h
  repeat' split at h
  all_goals first
    | (cases h; simp only [FillReplay]; decide)
    | (cases h; simp only [FillReplay]
       exact append_ne_version _ 's' " succes".data (by decide))
    | (cases h; simp only [FillReplay]
       exact append_ne_version _ ' ' " existed!!".data (by decide))
    | cases h

theorem Set_msg_ne_version (db : cache.Cache) (t1 t2 : Int) (rpcObj : RpcObj)
    (returnObj : ReplyObj) {r : cache.Cache × ReplyObj}
    (h : Set db t1 t2 rpcObj returnObj = .ok r) :
    r.2.Msg ≠ "JsonrpcVersion not match" := by
  unfold Set at h
  repeat' split at h
  all_goals first
    | (cases h; simp only [FillReplay]; decide)
    | (cases h; simp only [FillReplay]
       exact append_ne_version _ 's' " succes".data (by decide))
    | (cases h; simp only [FillReplay]
       exact append_ne_version _ ' ' " does not exist!!".data (by decide))
    | cases h

theorem Delete_msg_ne_version (db : cache.Cache) (t1 : Int) (rpcObj : RpcObj)
    (returnObj : ReplyObj) {r : cache.Cache × ReplyObj}
    (h : Delete db t1 rpcObj returnObj = .ok r) :
    r.2.Msg ≠ "JsonrpcVersion not match" := by
  unfold Delete at h
  repeat' split at h
  all_goals first
    | (cases h; simp only [FillReplay]
       exact append_ne_version _ 's' " succes".data (by decide))
    | (cases h; simp only [FillReplay]
       exact append_ne_version _ ' ' " not existed!!".data (by decide))
    | cases h

theorem Calc_msg_ne_version (db : cache.Cache) (t1 t2 : Int) (rpcObj : RpcObj)
    (returnObj : ReplyObj) (op : Arith) {r : cache.Cache × ReplyObj}
    (h : Calc db t1 t2 rpcObj returnObj op = .ok r) :
    r.2.Msg ≠ "JsonrpcVersion not match" := by
  unfold Calc at h
  repeat' split at h
  all_goals first
    | (cases h; simp only [FillReplay]; decide)
    | cases h

/-- C10: a request whose version differs from 1 (Go's `!=` on `float64`, so 1.2 and a
NaN alike) gets, for any method, params and store, the reply `ok=false` with the
request's id and the version message; no handler runs and the store is unchanged. A
request whose version equals 1 passes `VerifyRpcObj`, and no reply to it carries the
version message. -/
theorem C10_version_check (db : cache.Cache) (t1 t2 : Int) (rpcObj : RpcObj)
    (returnObj : ReplyObj) :
    (rpcObj.Jsonrpc.ne Float64.one = true →
      ServerHandler.Serve db t1 t2 rpcObj returnObj =
        .ok ⟨db, ⟨rpcObj.Id, false, "JsonrpcVersion not match", ""⟩, none⟩) ∧
    (rpcObj.Jsonrpc.ne Float64.one = false →
      VerifyRpcObj rpcObj = true ∧
      ∀ out, ServerHandler.Serve db t1 t2 rpcObj returnObj = .ok out →
        out.reply.Msg ≠ "JsonrpcVersion not match") := by
  constructor
  · intro hv
    simp [ServerHandler.Serve, VerifyRpcObj, hv, FillReplay]
  · intro hv
    have hver : VerifyRpcObj rpcObj = true := by simp [VerifyRpcObj, hv]
    refine ⟨hver, ?_⟩
    intro out h
    unfold ServerHandler.Serve at h
    simp only [hver, Bool.not_true, Bool.false_eq_true, if_false] at h
    repeat' split at h
    · exact Create_msg_ne_version db t1 t2 rpcObj returnObj (returnNil_ok h).1
    · exact Set_msg_ne_version db t1 t2 rpcObj returnObj (returnNil_ok h).1
    · exact Delete_msg_ne_version db t1 rpcObj returnObj (returnNil_ok h).1
    · exact Calc_msg_ne_version db t1 t2 rpcObj returnObj .MUL (returnNil_ok h).1
    · exact Calc_msg_ne_version db t1 t2 rpcObj returnObj .ADD (returnNil_ok h).1
    · exact Calc_msg_ne_version db t1 t2 rpcObj returnObj .SUB (returnNil_ok h).1
    · exact Calc_msg_ne_version db t1 t2 rpcObj returnObj .DIV (returnNil_ok h).1
    · cases h
      simp only [FillReplay]
      decide

/-- C10 at the client's first request, version 1.2: rejected with id 0, the store
untouched; and the same request at version 1 passes the check and creates `ggg`. -/
theorem C10_version_check_witness :
    Float64.onePointTwo.ne Float64.one = true ∧
    ServerHandler.Serve database 0 0
        ⟨Float64.onePointTwo, "create", ["ggg", "555"], 0⟩ ⟨7, true, "old", "old"⟩ =
      .ok ⟨database, ⟨0, false, "JsonrpcVersion not match", ""⟩, none⟩ ∧
    VerifyRpcObj ⟨Float64.one, "create", ["ggg", "555"], 0⟩ = true :=
  ⟨by decide,
   (C10_version_check database 0 0 ⟨Float64.onePointTwo, "create", ["ggg", "555"], 0⟩
      ⟨7, true, "old", "old"⟩).1 (by decide),
   ((C10_version_check database 0 0 ⟨Float64.one, "create", ["ggg", "555"], 0⟩
      ⟨7, true, "old", "old"⟩).2 (by decide)).1⟩

/-! ### The method switch -/

/-- C11: a version-1 request whose method is none of create, set, delete, mul, add, sub,
div gets, for any params and store, the reply `ok=false` with the non-empty message
`method name not match`, an empty result and the request's id; `Serve` returns a nil
error and the store is unchanged. -/
theorem C11_unknown_method (db : cache.Cache) (t1 t2 : Int) (rpcObj : RpcObj)
    (returnObj : ReplyObj) (hv : rpcObj.Jsonrpc = Float64.one)
    (hm : rpcObj.Method ∉ ["create", "set", "delete", "mul", "add", "sub", "div"]) :
    ∃ out, ServerHandler.Serve db t1 t2 rpcObj returnObj = .ok out ∧
      out.reply.Ok = false ∧ out.reply.Msg ≠ "" ∧ out.reply.Result = "" ∧
      out.reply.Id = rpcObj.Id ∧ out.err = none ∧ out.db = db := by
  obtain ⟨ver, m, ps, id⟩ := rpcObj
  simp only at hv hm
  subst hv
  simp only [List.mem_cons, List.mem_singleton, List.not_mem_nil, or_false, not_or] at hm
  obtain ⟨h1, h2, h3, h4, h5, h6, h7⟩ := hm
  have hmsg : ("method name not match" : String) ≠ "" := by decide
  refine ⟨⟨db, ⟨id, false, "method name not match", ""⟩, none⟩, ?_, rfl, hmsg, rfl,
    rfl, rfl, rfl⟩
  simp [ServerHandler.Serve, VerifyRpcObj_one, h1, h2, h3, h4, h5, h6, h7, FillReplay]

/-- C11 at the client's last request, method `xxx` with params `["hhh", "0"]`. -/
theorem C11_unknown_method_witness :
    ∃ out, ServerHandler.Serve database 0 0 ⟨Float64.one, "xxx", ["hhh", "0"], 12⟩
        ⟨0, true, "", ""⟩ = .ok out ∧
      out.reply.Ok = false ∧ out.reply.Msg ≠ "" ∧ out.reply.Result = "" ∧
      out.reply.Id = 12 ∧ out.err = none ∧ out.db = database :=
  C11_unknown_method database 0 0 ⟨Float64.one, "xxx", ["hhh", "0"], 12⟩ ⟨0, true, "", ""⟩
    rfl (by decide)

/-- C19: params beyond the ones a handler indexes change nothing: for every version,
method, store and clock, `Serve` on `a :: b :: extra` is `Serve` on `[a, b]` (same reply,
same store, same panic if any), and for delete `Serve` on `a :: extra` is `Serve` on
`[a]`. -/
theorem C19_extra_params_ignored (db : cache.Cache) (t1 t2 : Int) (ver : Float64)
    (m a b : String) (extra : List String) (id : Int) (returnObj : ReplyObj) :
    ServerHandler.Serve db t1 t2 ⟨ver, m, a :: b :: extra, id⟩ returnObj =
      ServerHandler.Serve db t1 t2 ⟨ver, m, [a, b], id⟩ returnObj ∧
    ServerHandler.Serve db t1 t2 ⟨ver, "delete", a :: extra, id⟩ returnObj =
      ServerHandler.Serve db t1 t2 ⟨ver, "delete", [a], id⟩ returnObj := by
  constructor
  · simp only [ServerHandler.Serve, VerifyRpcObj, Create, Set, Delete, Calc, index, List.get?]
  · simp [ServerHandler.Serve, VerifyRpcObj, Delete, index]

/-- C19 at the client's request `delete` with params `["ggg", "0.005"]` on the store
holding `ggg`: it succeeds and removes `ggg`, as `delete` with `["ggg"]` does. -/
theorem C19_extra_params_witness :
    ServerHandler.Serve dbGgg3 1 1 ⟨Float64.one, "delete", ["ggg", "0.005"], 1⟩
        ⟨0, false, "", ""⟩ =
      .ok ⟨dbGgg3.Delete "ggg", ⟨1, true, "Delete: ggg success", ""⟩, none⟩ ∧
    ServerHandler.Serve dbGgg3 1 1 ⟨Float64.one, "delete", ["ggg", "0.005"], 1⟩
        ⟨0, false, "", ""⟩ =
      ServerHandler.Serve dbGgg3 1 1 ⟨Float64.one, "delete", ["ggg"], 1⟩ ⟨0, false, "", ""⟩ :=
  ⟨by rfl,
   (C19_extra_params_ignored dbGgg3 1 1 Float64.one "delete" "ggg" "0.005" [] 1
      ⟨0, false, "", ""⟩).2⟩

/-! ### Create after create -/

theorem Get_Set_live (db : cache.Cache) (t2 t3 : Int) (k : String) (x : big.Float)
    (h : t3 ≤ t2 + db.defaultExpiration) :
    (db.Set t2 k x cache.DefaultExpiration).Get t3 k = some x := by
  simp only [cache.Cache.Set, cache.Cache.Get, cache.DefaultExpiration, if_true]
  by_cases hd : db.defaultExpiration > 0
  · simp [hd]
    omega
  · simp [hd]

theorem Create_ok_true (db : cache.Cache) (t1 t2 : Int) (ver : Float64) (m name lit : String)
    (rest : List String) (id : Int) (returnObj : ReplyObj) {r : cache.Cache × ReplyObj}
    (h : Create db t1 t2 ⟨ver, m, name :: lit :: rest, id⟩ returnObj = .ok r)
    (hok : r.2.Ok = true) :
    big.Float.SetString name = none ∧ db.Get t1 name = none ∧
      ∃ p, big.Float.SetString lit = some p ∧
        r.1 = db.Set t2 name p cache.DefaultExpiration := by
  simp only [Create, index, List.get?] at h
  cases hk : big.Float.SetString name with
  | some x =>
    simp only [hk, Option.isSome_some, if_true] at h
    cases h
    simp [FillReplay] at hok
  | none =>
    cases hg : db.Get t1 name with
    | some x =>
      simp [hk, hg] at h
      cases h
      simp [FillReplay] at hok
    | none =>
      cases hv : big.Float.SetString lit with
      | none =>
        simp [hk, hg, hv] at h
        cases h
        simp [FillReplay] at hok
      | some p =>
        simp [hk, hg, hv] at h
        cases h
        exact ⟨rfl, rfl, p, rfl, rfl⟩

/-- C12: if a version-1 `create(name, v1)` written at time `t2` replied `ok=true`, a
following `create(name, v2)` whose lookup happens no later than the entry's deadline
(`t3 ≤ t2 + TTL`) replies `ok=false`, leaves the store as it is, and `name` still holds
the parsed value of `v1`. -/
theorem C12_second_create_fails (db : cache.Cache) (t1 t2 t3 t4 : Int) (name v1 v2 : String)
    (id1 id2 : Int) (returnObj1 returnObj2 : ReplyObj) (out1 : Outcome)
    (h1 : ServerHandler.Serve db t1 t2 ⟨Float64.one, "create", [name, v1], id1⟩ returnObj1
      = .ok out1)
    (hok : out1.reply.Ok = true) (hnow : t3 ≤ t2 + db.defaultExpiration) :
    ∃ p1 out2, big.Float.SetString v1 = some p1 ∧
      ServerHandler.Serve out1.db t3 t4 ⟨Float64.one, "create", [name, v2], id2⟩ returnObj2
        = .ok out2 ∧
      out2.reply.Ok = false ∧ out2.db = out1.db ∧ out2.db.Get t3 name = some p1 := by
  rw [Serve_create] at h1
  obtain ⟨hc, _⟩ := returnNil_ok h1
  obtain ⟨hk, _, p, hp, hdb⟩ := Create_ok_true db t1 t2 _ _ name v1 [] id1 returnObj1 hc hok
  simp only at hdb
  have hlive : out1.db.Get t3 name = some p := by
    rw [hdb]
    exact Get_Set_live db t2 t3 name p hnow
  refine ⟨p, ⟨out1.db, ⟨id2, false, name ++ " existed!! ", ""⟩, none⟩, hp, ?_, rfl, rfl, hlive⟩
  rw [Serve_create]
  simp [Create, index, hk, hlive, returnNil, FillReplay]

set_option maxRecDepth 100000 in
/-- C12 at the client's requests: `create("ggg", "12623451902.239174235")` succeeds on
the empty store and `create("ggg", "555")` right after it fails. -/
theorem C12_second_create_witness :
    ∃ out1, ServerHandler.Serve database 0 0
        ⟨Float64.one, "create", ["ggg", "12623451902.239174235"], 999⟩ ⟨0, false, "", ""⟩
        = .ok out1 ∧ out1.reply.Ok = true ∧
      ∃ p1 out2, big.Float.SetString "12623451902.239174235" = some p1 ∧
        ServerHandler.Serve out1.db 1 1 ⟨Float64.one, "create", ["ggg", "555"], 999⟩ out1.reply
          = .ok out2 ∧
        out2.reply.Ok = false ∧ out2.db = out1.db ∧ out2.db.Get 1 "ggg" = some p1 :=
  ⟨_, by rfl, by rfl,
   C12_second_create_fails database 0 0 1 1 "ggg" "12623451902.239174235" "555" 999 999
     ⟨0, false, "", ""⟩ _ _ (by rfl) (by rfl) (by decide)⟩

/-! ### Stored names are never numeric -/

theorem Get_isSome_items {db : cache.Cache} {t : Int} {k : String}
    (h : (db.Get t k).isSome = true) : (db.items k).isSome = true := by
  unfold cache.Cache.Get at h
  split at h
  · simp at h
  · next item hi => simp [hi]

theorem Set_items_isSome {db : cache.Cache} {t : Int} {key k : String} {x : big.Float}
    {d : Int} (h : ((db.Set t key x d).items k).isSome = true) :
    k = key ∨ (db.items k).isSome = true := by
  by_cases hk : k = key
  · exact Or.inl hk
  · right
    simpa [cache.Cache.Set, hk] using h

theorem Create_new_names (db : cache.Cache) (t1 t2 : Int) (rpcObj : RpcObj)
    (returnObj : ReplyObj) {r : cache.Cache × ReplyObj}
    (h : Create db t1 t2 rpcObj returnObj = .ok r) (k : String)
    (hk : (r.1.items k).isSome = true) :
    (db.items k).isSome = true ∨ big.Float.SetString k = none := by
  unfold Create at h
  split at h
  · cases h
  · next key _ =>
    split at h
    · cases h
    · next value _ =>
      split at h
      · cases h; exact Or.inl hk
      · next hnum =>
        split at h
        · split at h
          · cases h; exact Or.inl hk
          · cases h
            rcases Set_items_isSome hk with rfl | h'
            · right
              simpa using hnum
            · exact Or.inl h'
        · cases h; exact Or.inl hk

theorem Set_new_names (db : cache.Cache) (t1 t2 : Int) (rpcObj : RpcObj)
    (returnObj : ReplyObj) {r : cache.Cache × ReplyObj}
    (h : Set db t1 t2 rpcObj returnObj = .ok r) (k : String)
    (hk : (r.1.items k).isSome = true) : (db.items k).isSome = true := by
  unfold Set at h
  split at h
  · cases h
  · next key _ =>
    split at h
    · cases h
    · next value _ =>
      split at h
      · next hlive =>
        split at h
        · cases h; exact hk
        · cases h
          rcases Set_items_isSome hk with rfl | h'
          · exact Get_isSome_items hlive
          · exact h'
      · cases h; exact hk

theorem Delete_new_names (db : cache.Cache) (t1 : Int) (rpcObj : RpcObj)
    (returnObj : ReplyObj) {r : cache.Cache × ReplyObj}
    (h : Delete db t1 rpcObj returnObj = .ok r) (k : String)
    (hk : (r.1.items k).isSome = true) : (db.items k).isSome = true := by
  unfold Delete at h
  split at h
  · cases h
  · next key _ =>
    split at h
    · cases h
      by_cases hkk : k = key
      · simp [cache.Cache.Delete, hkk] at hk
      · simpa [cache.Cache.Delete, hkk] using hk
    · cases h; exact hk

theorem Serve_new_names (db : cache.Cache) (t1 t2 : Int) (rpcObj : RpcObj)
    (returnObj : ReplyObj) {out : Outcome}
    (h : ServerHandler.Serve db t1 t2 rpcObj returnObj = .ok out) (k : String)
    (hk : (out.db.items k).isSome = true) :
    (db.items k).isSome = true ∨ big.Float.SetString k = none := by
  unfold ServerHandler.Serve at h
  repeat' split at h
  · cases h; exact Or.inl hk
  · exact Create_new_names db t1 t2 rpcObj returnObj (returnNil_ok h).1 k hk
  · exact Or.inl (Set_new_names db t1 t2 rpcObj returnObj (returnNil_ok h).1 k hk)
  · exact Or.inl (Delete_new_names db t1 rpcObj returnObj (returnNil_ok h).1 k hk)
  · rw [← Calc_keeps_store db t1 t2 rpcObj returnObj .MUL (returnNil_ok h).1]
    exact Or.inl hk
  · rw [← Calc_keeps_store db t1 t2 rpcObj returnObj .ADD (returnNil_ok h).1]
    exact Or.inl hk
  · rw [← Calc_keeps_store db t1 t2 rpcObj returnObj .SUB (returnNil_ok h).1]
    exact Or.inl hk
  · rw [← Calc_keeps_store db t1 t2 rpcObj returnObj .DIV (returnNil_ok h).1]
    exact Or.inl hk
  · cases h; exact Or.inl hk

theorem DeleteExpired_items {db : cache.Cache} {now : Int} {k : String}
    (h : ((db.DeleteExpired now).items k).isSome = true) : (db.items k).isSome = true := by
  simp only [cache.Cache.DeleteExpired] at h
  cases hi : db.items k with
  | none => simp [hi] at h
  | some item => rfl

theorem Reachable_noNumericName {db : cache.Cache} (h : Reachable db) : NoNumericName db := by
  induction h with
  | start =>
    intro k hk
    simp [database, cache.New] at hk
  | serve t1 t2 rpcObj returnObj out _ hs ih =>
    intro k hk
    rcases Serve_new_names _ t1 t2 rpcObj returnObj hs k hk with h' | h'
    · exact ih k h'
    · exact h'
  | sweep now _ ih =>
    intro k hk
    exact ih k (DeleteExpired_items hk)

theorem NoNumericName_literal_not_stored {db : cache.Cache} (h : NoNumericName db) (t : Int)
    (tok : String) (v : big.Float) (hv : big.Float.SetString tok = some v) :
    db.Get t tok = none := by
  cases hg : db.Get t tok with
  | none => rfl
  | some x =>
    have := h tok (Get_isSome_items (by rw [hg]; rfl))
    rw [hv] at this
    cases this

set_option maxRecDepth 100000 in
theorem Reachable_dbGgg3 : Reachable dbGgg3 := by
  have h1 : Reachable
      (database.Set 0 "ggg" (.finite false 13554328270686560627 34) cache.DefaultExpiration) :=
    Reachable.serve 0 0 ⟨Float64.one, "create", ["ggg", "12623451902.239174235"], 999⟩
      ⟨0, false, "", ""⟩
      ⟨database.Set 0 "ggg" (.finite false 13554328270686560627 34) cache.DefaultExpiration,
        ⟨999, true, "Create: ggg success", ""⟩, none⟩
      Reachable.start (by rfl)
  exact Reachable.serve 0 0 ⟨Float64.one, "set", ["ggg", "3"], 555⟩ ⟨0, false, "", ""⟩
    ⟨dbGgg3, ⟨555, true, "Set: ggg success", ""⟩, none⟩ h1 (by rfl)

/-- C13: in every store reachable from the start-up store by completed `Serve` calls
(and janitor sweeps), no stored name parses as a number. Hence a token that parses as
a number is never found as a stored name, at any time, and resolves to its parsed value:
no token is both a live name and a parsable literal. -/
theorem C13_stored_names_not_numeric (db : cache.Cache) (h : Reachable db) :
    (∀ k, (db.items k).isSome = true → big.Float.SetString k = none) ∧
    (∀ t tok v, big.Float.SetString tok = some v →
      db.Get t tok = none ∧ operand (db.Get t tok) tok = some v) ∧
    (∀ t tok, ¬ ((db.Get t tok).isSome = true ∧ (big.Float.SetString tok).isSome = true)) := by
  have hinv := Reachable_noNumericName h
  refine ⟨hinv, ?_, ?_⟩
  · intro t tok v hv
    have hg := NoNumericName_literal_not_stored hinv t tok v hv
    exact ⟨hg, by simp [operand, hg, hv]⟩
  · intro t tok ⟨hg, hp⟩
    have hnum := hinv tok (Get_isSome_items hg)
    rw [hnum] at hp
    simp at hp

/-- C13 at the store the client's `create("ggg", ...)` and `set("ggg", "3")` reach: its
only name `ggg` does not parse, and the token `3` is not a stored name. -/
theorem C13_stored_names_witness :
    Reachable dbGgg3 ∧ (dbGgg3.items "ggg").isSome = true ∧
    big.Float.SetString "ggg" = none ∧ dbGgg3.Get 1 "3" = none :=
  ⟨Reachable_dbGgg3, by rfl,
   (C13_stored_names_not_numeric dbGgg3 Reachable_dbGgg3).1 "ggg" (by rfl),
   ((C13_stored_names_not_numeric dbGgg3 Reachable_dbGgg3).2.1 1 "3" (.finite false 3 2)
      (by decide)).1⟩

/-! ### The result string -/

theorem trim_length_le (ds : List Nat) : (big.trim ds).length ≤ ds.length := by
  unfold big.trim
  rw [List.length_reverse]
  exact (List.dropWhile_suffix _).length_le.trans (by rw [List.length_reverse])

theorem decimal_round_length (x : big.decimal) (n : Nat) (hn : 0 < n) :
    (x.round n).mant.length ≤ n := by
  unfold big.decimal.round
  split
  · assumption
  · have htake : (x.mant.take n).length ≤ n := by
      rw [List.length_take]
      exact Nat.min_le_left _ _
    split
    · unfold big.decimal.roundUp
      split
      · exact hn
      · next d front hd =>
        have hlen : (d :: front).length ≤ n := by
          rw [← hd]
          exact (List.dropWhile_suffix _).length_le.trans (by rw [List.length_reverse]; exact htake)
        simpa using hlen
    · unfold big.decimal.roundDown
      exact (trim_length_le _).trans htake

/-- C14 (as stated, refuted): on the empty store `add("12345678901", "1")` replies
`1.23456789e+10`, not the exact sum `12345678902`; `mul("100000", "100000")` replies
`1e+10`, in exponent notation, not `10000000000`; and `mul("123456", "654321")` replies
`8.077985338e+10`, not the exact product `80779853376`. -/
theorem C14_result_rounded_to_ten_digits :
    ServerHandler.Serve database 0 0 ⟨Float64.one, "add", ["12345678901", "1"], 1⟩
        ⟨0, false, "", ""⟩ =
      .ok ⟨database, ⟨1, true, "Calculate success", "1.23456789e+10"⟩, none⟩ ∧
    ServerHandler.Serve database 0 0 ⟨Float64.one, "mul", ["100000", "100000"], 1⟩
        ⟨0, false, "", ""⟩ =
      .ok ⟨database, ⟨1, true, "Calculate success", "1e+10"⟩, none⟩ ∧
    ServerHandler.Serve database 0 0 ⟨Float64.one, "mul", ["123456", "654321"], 1⟩
        ⟨0, false, "", ""⟩ =
      .ok ⟨database, ⟨1, true, "Calculate success", "8.077985338e+10"⟩, none⟩ ∧
    ("1.23456789e+10" : String) ≠ "12345678902" ∧ ("1e+10" : String) ≠ "10000000000" ∧
    ("8.077985338e+10" : String) ≠ "80779853376" :=
  ⟨by rfl, by rfl, by rfl, by decide, by decide, by decide⟩

/-! #### Binary rounding: `roundTo` and the four operations against the rational numbers -/

theorem bitLenAux_spec : ∀ fuel m : Nat, m ≤ fuel →
    m < 2 ^ big.bitLenAux fuel m ∧ (0 < m → 2 ^ (big.bitLenAux fuel m - 1) ≤ m) := by
  intro fuel
  induction fuel with
  | zero =>
    intro m hm
    have : m = 0 := by omega
    subst this
    simp [big.bitLenAux]
  | succ fuel ih =>
    intro m hm
    unfold big.bitLenAux
    by_cases h0 : m = 0
    · simp [h0]
    · rw [if_neg h0]
      have hle : m / 2 ≤ fuel := by omega
      obtain ⟨h1, h2⟩ := ih (m / 2) hle
      constructor
      · rw [pow_succ]
        omega
      · intro _
        simp only [Nat.add_sub_cancel]
        by_cases hh : 0 < m / 2
        · have h3 := h2 hh
          have hk : big.bitLenAux fuel (m / 2) ≠ 0 := by
            intro hk
            rw [hk] at h1
            simp at h1
            omega
          obtain ⟨k, hk2⟩ := Nat.exists_eq_succ_of_ne_zero hk
          rw [hk2] at h3 ⊢
          simp only [Nat.succ_sub_one] at h3
          rw [pow_succ]
          omega
        · have hm1 : m / 2 = 0 := by omega
          have hk : big.bitLenAux fuel (m / 2) = 0 := by
            rw [hm1]
            cases fuel <;> simp [big.bitLenAux]
          rw [hk]
          simp
          omega

theorem bitLen_eq_size (m : Nat) : big.bitLen m = Nat.size m := by
  obtain ⟨h1, h2⟩ := bitLenAux_spec m m le_rfl
  apply le_antisymm
  · by_cases h0 : big.bitLen m = 0
    · omega
    · have hm : 0 < m := by
        rcases Nat.eq_zero_or_pos m with h | h
        · subst h
          exact absurd (by simp [big.bitLen, big.bitLenAux]) h0
        · exact h
      have := Nat.lt_size.2 (h2 hm)
      unfold big.bitLen
      omega
  · exact Nat.size_le.2 h1

theorem size_eq_of_bounds {n k : Nat} (h1 : 2 ^ k ≤ n) (h2 : n < 2 ^ (k + 1)) :
    Nat.size n = k + 1 := by
  apply le_antisymm
  · exact Nat.size_le.2 h2
  · exact Nat.lt_size.2 h1

theorem size_bounds {n : Nat} (hn : 0 < n) : 2 ^ (Nat.size n - 1) ≤ n ∧ n < 2 ^ Nat.size n := by
  refine ⟨?_, Nat.lt_size_self n⟩
  have hs : 0 < Nat.size n := Nat.size_pos.2 hn
  exact Nat.lt_size.1 (by omega)

theorem oddPart_spec {m : Nat} (hm : 0 < m) :
    ∃ j, big.oddPart m * 2 ^ j = m ∧ big.bitLen (big.oddPart m) + j = big.bitLen m ∧
      0 < big.oddPart m := by
  unfold big.oddPart
  have hg : Nat.gcd m (2 ^ big.bitLen m) ∣ 2 ^ big.bitLen m := Nat.gcd_dvd_right _ _
  obtain ⟨j, _, hj⟩ := (Nat.dvd_prime_pow Nat.prime_two).1 hg
  have hd : 2 ^ j ∣ m := hj ▸ Nat.gcd_dvd_left _ _
  rw [hj]
  have hmul : m / 2 ^ j * 2 ^ j = m := Nat.div_mul_cancel hd
  have hpos : 0 < m / 2 ^ j := by
    rcases Nat.eq_zero_or_pos (m / 2 ^ j) with h | h
    · rw [h] at hmul
      omega
    · exact h
  refine ⟨j, hmul, ?_, hpos⟩
  rw [bitLen_eq_size, bitLen_eq_size]
  have := Nat.size_shiftLeft (Nat.pos_iff_ne_zero.1 hpos) j
  rw [Nat.shiftLeft_eq, hmul] at this
  omega

theorem oddPart_pos {m : Nat} (hm : 0 < m) : 0 < big.oddPart m := by
  obtain ⟨j, _, _, h⟩ := oddPart_spec hm
  exact h

theorem bitLen_eq_of_bounds {n p : Nat} (hp : 0 < p) (h1 : 2 ^ (p - 1) ≤ n) (h2 : n < 2 ^ p) :
    big.bitLen n = p := by
  rw [bitLen_eq_size]
  obtain ⟨k, rfl⟩ : ∃ k, p = k + 1 := ⟨p - 1, by omega⟩
  simp only [Nat.add_sub_cancel] at h1
  exact size_eq_of_bounds h1 h2

theorem two_zpow_pos (e : Int) : (0 : ℚ) < 2 ^ e := zpow_pos (by norm_num) e

theorem two_zpow_ne (e : Int) : (2 : ℚ) ^ e ≠ 0 := (two_zpow_pos e).ne'

theorem mag_finite_oddPart (neg : Bool) {m : Nat} (hm : 0 < m) (e : Int) :
    (big.Float.finite neg (big.oddPart m) e).mag = (m : ℚ) * 2 ^ (e - (big.bitLen m : Int)) := by
  obtain ⟨j, h1, h2, _⟩ := oddPart_spec hm
  simp only [big.Float.mag]
  have hc : (m : ℚ) = (big.oddPart m : ℚ) * 2 ^ j := by
    have : ((big.oddPart m * 2 ^ j : Nat) : ℚ) = (m : ℚ) := by rw [h1]
    rw [← this]
    push_cast
    ring
  have he : e - (big.bitLen (big.oddPart m) : Int) = (j : Int) + (e - (big.bitLen m : Int)) := by
    omega
  rw [he, zpow_add₀ (by norm_num : (2 : ℚ) ≠ 0), zpow_natCast, hc]
  ring

theorem mag_finite_of_size (neg : Bool) {n : Nat} (hn : 0 < n) {p : Nat}
    (hp : big.bitLen n = p) (e : Int) :
    (big.Float.finite neg (big.oddPart n) e).mag = (n : ℚ) * 2 ^ (e - (p : Int)) := by
  rw [mag_finite_oddPart neg hn, hp]

theorem roundHalfEven_add (t : Int) (y : ℚ) (h0 : 0 ≤ y) (h1 : y < 1) :
    roundHalfEven (t + y) =
      if 2 * y < 1 then t else if 1 < 2 * y then t + 1 else if t % 2 = 0 then t else t + 1 := by
  have hf : ⌊(t : ℚ) + y⌋ = t := by
    rw [Int.floor_eq_iff]
    constructor <;> linarith
  unfold roundHalfEven
  rw [hf]
  simp only [add_sub_cancel_left]

theorem roundHalfEven_natCast (n : Nat) : roundHalfEven (n : ℚ) = n := by
  have := roundHalfEven_add n 0 le_rfl (by norm_num)
  simpa using this

theorem round_bits (m r : Nat) :
    ∃ a b : Nat, m % 2 ^ (r + 1) = a + 2 ^ r * b ∧ a < 2 ^ r ∧ b < 2 ∧
      a = m % 2 ^ r ∧ b = m / 2 ^ r % 2 :=
  ⟨m % 2 ^ r, m / 2 ^ r % 2, Nat.mod_pow_succ, Nat.mod_lt _ (by positivity),
    Nat.mod_lt _ (by norm_num), rfl, rfl⟩

theorem MinExp_lt_MaxExp : big.MinExp < big.MaxExp := by decide

theorem IsRounding.of_inRange {prec : Nat} {q : ℚ} {r : big.Float} {e : Int}
    (h1 : (2 : ℚ) ^ (e - 1) ≤ q) (h2 : q < 2 ^ e) (hmin : ¬ e < big.MinExp)
    (hmax : ¬ e > big.MaxExp) (n : Nat)
    (hn : roundHalfEven (q / 2 ^ (e - prec)) = n)
    (hc : n = 2 ^ prec → e = big.MaxExp → r = .inf r.neg)
    (hf : ¬ (n = 2 ^ prec ∧ e = big.MaxExp) →
      (∃ m x, r = .finite r.neg m x ∧ m ≠ 0) ∧ r.mag = (n : ℚ) * 2 ^ (e - prec)) :
    IsRounding prec q r := by
  have hcast : ((n : Int) = 2 ^ prec) ↔ n = 2 ^ prec := by
    constructor
    · intro h
      exact_mod_cast h
    · intro h
      exact_mod_cast h
  refine ⟨e, h1, h2, fun h => absurd h hmin, fun h => absurd h hmax, fun _ _ => ⟨?_, ?_⟩⟩
  · rintro ⟨ha, hb⟩
    rw [hn] at ha
    exact hc (hcast.1 ha) hb
  · intro hnot
    rw [hn] at hnot ⊢
    have := hf (fun h => hnot ⟨hcast.2 h.1, h.2⟩)
    simpa using this

theorem div_two_zpow (x : ℚ) (k : Int) (bl prec R : Nat) (hR : bl = prec + R) :
    x * 2 ^ k / 2 ^ (k + (bl : Int) - (prec : Int)) = x / 2 ^ R := by
  have h : (2 : ℚ) ^ (k + (bl : Int) - (prec : Int)) = 2 ^ k * 2 ^ R := by
    rw [← zpow_natCast, ← zpow_add₀ (by norm_num : (2 : ℚ) ≠ 0)]
    congr 1
    omega
  rw [h, mul_comm ((2 : ℚ) ^ k) (2 ^ R), mul_div_mul_right _ _ (two_zpow_ne k)]

theorem rhe_bits (top a b r : Nat) (δ : ℚ) (ha : a < 2 ^ r) (hb : b < 2) (hδ0 : 0 ≤ δ)
    (hδ1 : δ < 1) (sbit : Bool) (hs : sbit = true ↔ δ ≠ 0) :
    roundHalfEven ((((top * 2 ^ (r + 1) + (a + 2 ^ r * b) : Nat) : ℚ) + δ) / 2 ^ (r + 1)) =
      ((if ((b == 1) && ((sbit || a != 0) || top % 2 == 1)) = true then top + 1 else top : Nat) :
        Int) := by
  have hp : (0 : ℚ) < 2 ^ r := by positivity
  have ha' : (a : ℚ) + 1 ≤ 2 ^ r := by exact_mod_cast ha
  have ha0 : (0 : ℚ) ≤ a := by positivity
  have hsplit : (((top * 2 ^ (r + 1) + (a + 2 ^ r * b) : Nat) : ℚ) + δ) / 2 ^ (r + 1) =
      ((top : Int) : ℚ) + ((a : ℚ) + 2 ^ r * b + δ) / 2 ^ (r + 1) := by
    push_cast
    field_simp
    ring
  rw [hsplit]
  have h2y : 2 * (((a : ℚ) + 2 ^ r * b + δ) / 2 ^ (r + 1)) = ((a : ℚ) + 2 ^ r * b + δ) / 2 ^ r := by
    rw [pow_succ]
    field_simp
    ring
  have hb01 : b = 0 ∨ b = 1 := by omega
  rcases hb01 with rfl | rfl
  · have hy : ((a : ℚ) + 2 ^ r * (0 : Nat) + δ) / 2 ^ r < 1 := by
      rw [div_lt_one hp]
      push_cast
      linarith
    rw [roundHalfEven_add _ _ (by positivity) (by
      have := hy
      rw [← h2y] at this
      linarith [show (0 : ℚ) ≤ ((a : ℚ) + 2 ^ r * (0 : Nat) + δ) / 2 ^ (r + 1) by positivity])]
    rw [h2y, if_pos hy]
    simp
  · have hy1 : ((a : ℚ) + 2 ^ r * (1 : Nat) + δ) / 2 ^ (r + 1) < 1 := by
      rw [div_lt_one (by positivity), pow_succ]
      push_cast
      linarith
    rw [roundHalfEven_add _ _ (by positivity) hy1, h2y]
    have hge : ¬ ((a : ℚ) + 2 ^ r * (1 : Nat) + δ) / 2 ^ r < 1 := by
      rw [not_lt, le_div_iff₀ hp]
      push_cast
      linarith
    rw [if_neg hge]
    by_cases hst : a = 0 ∧ δ = 0
    · obtain ⟨rfl, rfl⟩ := hst
      have hsb : sbit = false := by
        cases sbit
        · rfl
        · exact absurd rfl (hs.1 rfl)
      have heq : ¬ (1 : ℚ) < (((0 : Nat) : ℚ) + 2 ^ r * (1 : Nat) + 0) / 2 ^ r := by
        rw [not_lt, div_le_one hp]
        push_cast
        linarith
      rw [if_neg heq, hsb]
      by_cases hev : top % 2 = 0
      · have : ((top : Int) % 2 = 0) := by omega
        rw [if_pos this]
        simp [hev]
      · have : ¬ ((top : Int) % 2 = 0) := by omega
        rw [if_neg this]
        have h1 : top % 2 = 1 := by omega
        simp [h1]
    · have hgt : (1 : ℚ) < ((a : ℚ) + 2 ^ r * (1 : Nat) + δ) / 2 ^ r := by
        rw [one_lt_div hp]
        push_cast
        have : 0 < (a : ℚ) + δ := by
          by_cases h0 : a = 0
          · have hδ : δ ≠ 0 := fun h => hst ⟨h0, h⟩
            have : 0 < δ := lt_of_le_of_ne hδ0 (Ne.symm hδ)
            linarith
          · have : (1 : ℚ) ≤ a := by exact_mod_cast Nat.one_le_iff_ne_zero.2 h0
            linarith
        linarith
      rw [if_pos hgt]
      have hsticky : (sbit || a != 0) = true := by
        by_cases h0 : a = 0
        · have hδ : δ ≠ 0 := fun h => hst ⟨h0, h⟩
          simp [hs.2 hδ]
        · simp [h0]
      simp [hsticky]

theorem roundTo_spec (prec : Nat) (hprec : 0 < prec) (neg : Bool) (m : Nat) (hm : 0 < m)
    (k : Int) (sbit : Bool) (δ : ℚ) (hδ0 : 0 ≤ δ) (hδ1 : δ < 1) (hs : sbit = true ↔ δ ≠ 0)
    (hbl : sbit = true → prec < big.bitLen m) :
    (big.roundTo prec neg m k sbit).neg = neg ∧
      IsRounding prec (((m : ℚ) + δ) * 2 ^ k) (big.roundTo prec neg m k sbit) := by
  obtain ⟨hlo, hhi⟩ := size_bounds hm
  rw [← bitLen_eq_size] at hlo hhi
  have hblpos : 0 < big.bitLen m := by
    rw [bitLen_eq_size]
    exact Nat.size_pos.2 hm
  obtain ⟨bl, hbleq⟩ : ∃ bl, big.bitLen m = bl := ⟨_, rfl⟩
  rw [hbleq] at hlo hhi hblpos hbl
  have hq1 : (2 : ℚ) ^ (k + (bl : Int) - 1) ≤ ((m : ℚ) + δ) * 2 ^ k := by
    have h : (2 : ℚ) ^ (k + (bl : Int) - 1) = 2 ^ (bl - 1) * 2 ^ k := by
      rw [← zpow_natCast, ← zpow_add₀ (by norm_num : (2 : ℚ) ≠ 0)]
      congr 1
      omega
    rw [h]
    have h2 : ((2 : ℚ) ^ (bl - 1)) ≤ m := by exact_mod_cast hlo
    exact mul_le_mul_of_nonneg_right (by linarith) (two_zpow_pos k).le
  have hq2 : ((m : ℚ) + δ) * 2 ^ k < 2 ^ (k + (bl : Int)) := by
    rw [zpow_add₀ (by norm_num : (2 : ℚ) ≠ 0), zpow_natCast, mul_comm ((2 : ℚ) ^ k)]
    have h2 : (m : ℚ) + 1 ≤ 2 ^ bl := by exact_mod_cast hhi
    exact mul_lt_mul_of_pos_right (by linarith) (two_zpow_pos k)
  unfold big.roundTo
  rw [if_neg hm.ne']
  simp only [hbleq]
  by_cases hmin : k + (bl : Int) < big.MinExp
  · rw [if_pos hmin]
    exact ⟨rfl, k + bl, hq1, hq2, fun _ => rfl,
      fun h => absurd h (by have := MinExp_lt_MaxExp; omega),
      fun h => absurd hmin (by omega)⟩
  rw [if_neg hmin]
  by_cases hmax : k + (bl : Int) > big.MaxExp
  · rw [if_pos hmax]
    exact ⟨rfl, k + bl, hq1, hq2, fun h => absurd h hmin, fun _ => rfl,
      fun _ h => absurd hmax (by omega)⟩
  rw [if_neg hmax]
  by_cases hle : bl ≤ prec
  · rw [if_pos hle]
    refine ⟨rfl, ?_⟩
    have hδ : δ = 0 := by
      by_contra hne
      have := hbl (hs.2 hne)
      omega
    subst hδ
    have hX : ((m : ℚ) + 0) * 2 ^ k / 2 ^ (k + (bl : Int) - (prec : Int)) =
        ((m * 2 ^ (prec - bl) : Nat) : ℚ) := by
      have h : (2 : ℚ) ^ k = 2 ^ (k + (bl : Int) - (prec : Int)) * 2 ^ (prec - bl) := by
        rw [← zpow_natCast, ← zpow_add₀ (by norm_num : (2 : ℚ) ≠ 0)]
        congr 1
        omega
      rw [add_zero, div_eq_iff (two_zpow_ne _)]
      push_cast
      nth_rewrite 1 [h]
      ring
    have hNlt : m * 2 ^ (prec - bl) < 2 ^ prec := by
      have : 2 ^ prec = 2 ^ bl * 2 ^ (prec - bl) := by
        rw [← pow_add]
        congr 1
        omega
      rw [this]
      exact Nat.mul_lt_mul_of_pos_right hhi (by positivity)
    refine IsRounding.of_inRange hq1 hq2 hmin hmax (m * 2 ^ (prec - bl)) ?_ ?_ ?_
    · rw [hX, roundHalfEven_natCast]
    · intro h
      omega
    · intro _
      refine ⟨⟨_, _, rfl, (oddPart_pos hm).ne'⟩, ?_⟩
      rw [mag_finite_of_size neg hm hbleq]
      have h : (2 : ℚ) ^ (k + (bl : Int) - (bl : Int)) =
          2 ^ (prec - bl) * 2 ^ (k + (bl : Int) - (prec : Int)) := by
        rw [← zpow_natCast, ← zpow_add₀ (by norm_num : (2 : ℚ) ≠ 0)]
        congr 1
        omega
      rw [h]
      push_cast
      ring
  rw [if_neg hle]
  obtain ⟨r, hr⟩ : ∃ r, bl = prec + (r + 1) := ⟨bl - prec - 1, by omega⟩
  have hre : bl - prec - 1 = r := by omega
  simp only [hre]
  obtain ⟨a, b, hrem, ha, hb, hadef, hbdef⟩ := round_bits m r
  rw [← hadef, ← hbdef]
  obtain ⟨top, htop⟩ : ∃ top, m / 2 ^ (r + 1) = top := ⟨_, rfl⟩
  rw [htop]
  have hdm : m = top * 2 ^ (r + 1) + (a + 2 ^ r * b) := by
    have := Nat.div_add_mod m (2 ^ (r + 1))
    rw [htop, hrem] at this
    rw [← this]
    ring
  have hX : ((m : ℚ) + δ) * 2 ^ k / 2 ^ (k + (bl : Int) - (prec : Int)) =
      (((top * 2 ^ (r + 1) + (a + 2 ^ r * b) : Nat) : ℚ) + δ) / 2 ^ (r + 1) := by
    rw [div_two_zpow _ k bl prec (r + 1) hr, ← hdm]
  have hN := rhe_bits top a b r δ ha hb hδ0 hδ1 sbit hs
  rw [← hX] at hN
  have htop_lo : 2 ^ (prec - 1) ≤ top := by
    rw [← htop, Nat.le_div_iff_mul_le (by positivity), ← pow_add]
    have : prec - 1 + (r + 1) = bl - 1 := by omega
    rw [this]
    exact hlo
  have htop_hi : top < 2 ^ prec := by
    rw [← htop, Nat.div_lt_iff_lt_mul (by positivity), ← pow_add, ← hr]
    exact hhi
  have htop_pos : 0 < top := lt_of_lt_of_le (by positivity) htop_lo
  have hpow : (2 : ℚ) ^ (k + (bl : Int)) = 2 ^ prec * 2 ^ (k + (bl : Int) - (prec : Int)) := by
    rw [← zpow_natCast, ← zpow_add₀ (by norm_num : (2 : ℚ) ≠ 0)]
    congr 1
    omega
  cases hinc : ((b == 1) && ((sbit || a != 0) || top % 2 == 1))
  · rw [hinc] at hN
    simp only [Bool.false_eq_true, if_false] at hN
    simp only [Bool.not_false, if_true]
    refine ⟨rfl, IsRounding.of_inRange hq1 hq2 hmin hmax top hN (fun h => by omega) ?_⟩
    intro _
    refine ⟨⟨_, _, rfl, (oddPart_pos htop_pos).ne'⟩, ?_⟩
    rw [mag_finite_of_size neg htop_pos (bitLen_eq_of_bounds hprec htop_lo htop_hi)]
  · rw [hinc] at hN
    simp only [if_true] at hN
    simp only [Bool.not_true, Bool.false_eq_true, if_false]
    by_cases hcarry : top + 1 = 2 ^ prec
    · rw [if_pos hcarry]
      by_cases hge : k + (bl : Int) ≥ big.MaxExp
      · rw [if_pos hge]
        refine ⟨rfl, IsRounding.of_inRange hq1 hq2 hmin hmax (top + 1) hN (fun _ _ => rfl) ?_⟩
        intro hnot
        exact absurd ⟨hcarry, by omega⟩ hnot
      · rw [if_neg hge]
        refine ⟨rfl, IsRounding.of_inRange hq1 hq2 hmin hmax (top + 1) hN
          (fun _ h => absurd h (by omega)) ?_⟩
        intro _
        refine ⟨⟨_, _, rfl, by decide⟩, ?_⟩
        have hb1 : big.bitLen 1 = 1 := by decide
        simp only [big.Float.mag, hb1]
        rw [hcarry]
        push_cast
        rw [← hpow]
        simp
    · rw [if_neg hcarry]
      have hlt : top + 1 < 2 ^ prec := by omega
      refine ⟨rfl, IsRounding.of_inRange hq1 hq2 hmin hmax (top + 1) hN (fun h => by omega) ?_⟩
      intro _
      refine ⟨⟨_, _, rfl, (oddPart_pos (Nat.succ_pos top)).ne'⟩, ?_⟩
      rw [mag_finite_of_size neg (Nat.succ_pos top)
        (bitLen_eq_of_bounds hprec (by omega) hlt)]

theorem IsRoundedResult.of_rounding {prec : Nat} {q : ℚ} {r : big.Float} (neg : Bool)
    (mag : ℚ) (hmag : 0 < mag) (hq : q = if neg = true then -mag else mag)
    (hr : r.neg = neg ∧ IsRounding prec mag r) : IsRoundedResult prec q r := by
  constructor
  · intro h0
    rw [h0] at hq
    cases neg <;> simp at hq <;> linarith
  · intro _
    cases neg
    · simp only [Bool.false_eq_true, if_false] at hq
      rw [hq, abs_of_pos hmag]
      refine ⟨?_, hr.2⟩
      rw [hr.1]
      simp
      linarith
    · simp only [if_true] at hq
      rw [hq, abs_neg, abs_of_pos hmag]
      refine ⟨?_, hr.2⟩
      rw [hr.1]
      simp
      linarith

theorem alignTo_cast (m : Nat) {s t : Int} (h : t ≤ s) :
    ((big.alignTo m s t : Nat) : ℚ) * 2 ^ t = (m : ℚ) * 2 ^ s := by
  unfold big.alignTo
  have hs : (2 : ℚ) ^ s = 2 ^ (s - t).toNat * 2 ^ t := by
    rw [← zpow_natCast, ← zpow_add₀ (by norm_num : (2 : ℚ) ≠ 0)]
    congr 1
    omega
  rw [hs]
  push_cast
  ring

theorem alignTo_pos {m : Nat} (hm : 0 < m) (s t : Int) : 0 < big.alignTo m s t := by
  unfold big.alignTo
  positivity

theorem mag_finite (neg : Bool) (m : Nat) (e : Int) :
    (big.Float.finite neg m e).mag = (m : ℚ) * 2 ^ (big.scale m e) := rfl

theorem mag_finite_pos (neg : Bool) {m : Nat} (hm : 0 < m) (e : Int) :
    0 < (big.Float.finite neg m e).mag := by
  rw [mag_finite]
  have := two_zpow_pos (big.scale m e)
  positivity

theorem uadd_spec (prec : Nat) (hprec : 0 < prec) (neg : Bool) (mx : Nat) (ex : Int)
    (my : Nat) (ey : Int) (hx : 0 < mx) (_hy : 0 < my) :
    (big.uadd prec neg mx ex my ey).neg = neg ∧
      IsRounding prec ((mx : ℚ) * 2 ^ (big.scale mx ex) + (my : ℚ) * 2 ^ (big.scale my ey))
        (big.uadd prec neg mx ex my ey) := by
  unfold big.uadd
  simp only
  have h := roundTo_spec prec hprec neg
    (big.alignTo mx (big.scale mx ex) (min (big.scale mx ex) (big.scale my ey)) +
      big.alignTo my (big.scale my ey) (min (big.scale mx ex) (big.scale my ey)))
    (Nat.add_pos_left (alignTo_pos hx _ _) _) (min (big.scale mx ex) (big.scale my ey)) false 0
    le_rfl (by norm_num) (by simp) (by simp)
  have hv : (((big.alignTo mx (big.scale mx ex) (min (big.scale mx ex) (big.scale my ey)) +
      big.alignTo my (big.scale my ey) (min (big.scale mx ex) (big.scale my ey)) : Nat) : ℚ) + 0) *
        2 ^ (min (big.scale mx ex) (big.scale my ey)) =
      (mx : ℚ) * 2 ^ (big.scale mx ex) + (my : ℚ) * 2 ^ (big.scale my ey) := by
    push_cast
    rw [add_zero, add_mul, alignTo_cast mx (min_le_left _ _), alignTo_cast my (min_le_right _ _)]
  rw [hv] at h
  exact h

theorem ugt_iff (mx : Nat) (ex : Int) (my : Nat) (ey : Int) :
    big.ugt mx ex my ey = true ↔
      (my : ℚ) * 2 ^ (big.scale my ey) < (mx : ℚ) * 2 ^ (big.scale mx ex) := by
  unfold big.ugt
  simp only [decide_eq_true_eq, gt_iff_lt]
  rw [← alignTo_cast mx (min_le_left (big.scale mx ex) (big.scale my ey)),
    ← alignTo_cast my (min_le_right (big.scale mx ex) (big.scale my ey)),
    mul_lt_mul_right (two_zpow_pos _)]
  exact Nat.cast_lt.symm

theorem usub_spec (prec : Nat) (hprec : 0 < prec) (neg : Bool) (mx : Nat) (ex : Int)
    (my : Nat) (ey : Int)
    (hge : (my : ℚ) * 2 ^ (big.scale my ey) ≤ (mx : ℚ) * 2 ^ (big.scale mx ex)) :
    ((my : ℚ) * 2 ^ (big.scale my ey) = (mx : ℚ) * 2 ^ (big.scale mx ex) →
      big.usub prec neg mx ex my ey = .zero false) ∧
    ((my : ℚ) * 2 ^ (big.scale my ey) < (mx : ℚ) * 2 ^ (big.scale mx ex) →
      (big.usub prec neg mx ex my ey).neg = neg ∧
        IsRounding prec ((mx : ℚ) * 2 ^ (big.scale mx ex) - (my : ℚ) * 2 ^ (big.scale my ey))
          (big.usub prec neg mx ex my ey)) := by
  have hxc := alignTo_cast mx (min_le_left (big.scale mx ex) (big.scale my ey))
  have hyc := alignTo_cast my (min_le_right (big.scale mx ex) (big.scale my ey))
  rw [← hxc, ← hyc] at hge ⊢
  rw [mul_le_mul_right (two_zpow_pos _)] at hge
  have hge' : big.alignTo my (big.scale my ey) (min (big.scale mx ex) (big.scale my ey)) ≤
      big.alignTo mx (big.scale mx ex) (min (big.scale mx ex) (big.scale my ey)) := by
    exact_mod_cast hge
  unfold big.usub
  simp only
  constructor
  · intro heq
    have := mul_right_cancel₀ (two_zpow_ne _) heq
    have h2 : big.alignTo my (big.scale my ey) (min (big.scale mx ex) (big.scale my ey)) =
        big.alignTo mx (big.scale mx ex) (min (big.scale mx ex) (big.scale my ey)) := by
      exact_mod_cast this
    rw [h2, Nat.sub_self, if_pos rfl]
  · intro hlt
    rw [mul_lt_mul_right (two_zpow_pos _)] at hlt
    have hlt' : big.alignTo my (big.scale my ey) (min (big.scale mx ex) (big.scale my ey)) <
        big.alignTo mx (big.scale mx ex) (min (big.scale mx ex) (big.scale my ey)) := by
      exact_mod_cast hlt
    rw [if_neg (by omega)]
    have h := roundTo_spec prec hprec neg
      (big.alignTo mx (big.scale mx ex) (min (big.scale mx ex) (big.scale my ey)) -
        big.alignTo my (big.scale my ey) (min (big.scale mx ex) (big.scale my ey)))
      (by omega) (min (big.scale mx ex) (big.scale my ey)) false 0
      le_rfl (by norm_num) (by simp) (by simp)
    rw [add_zero, Nat.cast_sub hge', sub_mul] at h
    exact h

theorem umul_spec (prec : Nat) (hprec : 0 < prec) (neg : Bool) (mx : Nat) (ex : Int)
    (my : Nat) (ey : Int) (hx : 0 < mx) (hy : 0 < my) :
    (big.umul prec neg mx ex my ey).neg = neg ∧
      IsRounding prec ((mx : ℚ) * 2 ^ (big.scale mx ex) * ((my : ℚ) * 2 ^ (big.scale my ey)))
        (big.umul prec neg mx ex my ey) := by
  unfold big.umul
  have h := roundTo_spec prec hprec neg (mx * my) (Nat.mul_pos hx hy)
    (big.scale mx ex + big.scale my ey) false 0 le_rfl (by norm_num) (by simp) (by simp)
  have hv : (((mx * my : Nat) : ℚ) + 0) * 2 ^ (big.scale mx ex + big.scale my ey) =
      (mx : ℚ) * 2 ^ (big.scale mx ex) * ((my : ℚ) * 2 ^ (big.scale my ey)) := by
    rw [zpow_add₀ (by norm_num : (2 : ℚ) ≠ 0)]
    push_cast
    ring
  rw [hv] at h
  exact h

theorem uquo_spec (prec : Nat) (hprec : 0 < prec) (neg : Bool) (mx : Nat) (ex : Int)
    (my : Nat) (ey : Int) (hx : 0 < mx) (hy : 0 < my) :
    (big.uquo prec neg mx ex my ey).neg = neg ∧
      IsRounding prec ((mx : ℚ) * 2 ^ (big.scale mx ex) / ((my : ℚ) * 2 ^ (big.scale my ey)))
        (big.uquo prec neg mx ex my ey) := by
  unfold big.uquo
  simp only
  obtain ⟨d, hd⟩ : ∃ d, prec + 2 + big.bitLen my = d := ⟨_, rfl⟩
  rw [hd]
  have hmy : my < 2 ^ big.bitLen my := by
    rw [bitLen_eq_size]
    exact Nat.lt_size_self my
  have hqlo : 2 ^ (prec + 2) ≤ mx * 2 ^ d / my := by
    rw [Nat.le_div_iff_mul_le hy, ← hd, pow_add (2 : Nat) (prec + 2) (big.bitLen my)]
    calc 2 ^ (prec + 2) * my ≤ 2 ^ (prec + 2) * 2 ^ big.bitLen my :=
          Nat.mul_le_mul_left _ hmy.le
      _ ≤ mx * (2 ^ (prec + 2) * 2 ^ big.bitLen my) := Nat.le_mul_of_pos_left _ hx
  have hqpos : 0 < mx * 2 ^ d / my := lt_of_lt_of_le (by positivity) hqlo
  have hqbits : prec < big.bitLen (mx * 2 ^ d / my) := by
    rw [bitLen_eq_size]
    have := Nat.lt_size.2 hqlo
    omega
  have hmyq : (0 : ℚ) < my := by exact_mod_cast hy
  have hrem : mx * 2 ^ d % my < my := Nat.mod_lt _ hy
  have h := roundTo_spec prec hprec neg (mx * 2 ^ d / my) hqpos
    (big.scale mx ex - big.scale my ey - d) (mx * 2 ^ d % my != 0)
    (((mx * 2 ^ d % my : Nat) : ℚ) / my) (by positivity)
    (by
      rw [div_lt_one hmyq]
      exact_mod_cast hrem)
    (by
      rw [bne_iff_ne, ne_eq, ne_eq, div_eq_zero_iff, not_or]
      constructor
      · intro h1
        exact ⟨by exact_mod_cast h1, hmyq.ne'⟩
      · intro h1 h2
        exact h1.1 (by exact_mod_cast h2))
    (fun _ => hqbits)
  have hv : (((mx * 2 ^ d / my : Nat) : ℚ) + ((mx * 2 ^ d % my : Nat) : ℚ) / my) *
      2 ^ (big.scale mx ex - big.scale my ey - d) =
      (mx : ℚ) * 2 ^ (big.scale mx ex) / ((my : ℚ) * 2 ^ (big.scale my ey)) := by
    have hdm : ((mx * 2 ^ d / my : Nat) : ℚ) * my + ((mx * 2 ^ d % my : Nat) : ℚ) =
        (mx : ℚ) * 2 ^ d := by
      have := Nat.div_add_mod (mx * 2 ^ d) my
      have h2 : ((my * (mx * 2 ^ d / my) + mx * 2 ^ d % my : Nat) : ℚ) = ((mx * 2 ^ d : Nat) : ℚ) := by
        rw [this]
      push_cast at h2
      linarith
    have hsum : ((mx * 2 ^ d / my : Nat) : ℚ) + ((mx * 2 ^ d % my : Nat) : ℚ) / my =
        (mx : ℚ) * 2 ^ d / my := by
      rw [← hdm]
      field_simp
    rw [hsum]
    have hz : (2 : ℚ) ^ (big.scale mx ex - big.scale my ey - d) =
        2 ^ (big.scale mx ex) / (2 ^ (big.scale my ey) * 2 ^ d) := by
      rw [sub_sub, zpow_sub₀ (by norm_num : (2 : ℚ) ≠ 0),
        zpow_add₀ (by norm_num : (2 : ℚ) ≠ 0), zpow_natCast]
    rw [hz]
    have := two_zpow_ne (big.scale my ey)
    field_simp
    ring
  rw [hv] at h
  exact h

theorem toRat_finite (neg : Bool) (m : Nat) (e : Int) :
    (big.Float.finite neg m e).toRat =
      if neg = true then -((m : ℚ) * 2 ^ (big.scale m e)) else (m : ℚ) * 2 ^ (big.scale m e) := rfl

theorem val_pos {m : Nat} (hm : m ≠ 0) (e : Int) : (0 : ℚ) < (m : ℚ) * 2 ^ (big.scale m e) := by
  have := two_zpow_pos (big.scale m e)
  have : (0 : ℚ) < m := by exact_mod_cast Nat.pos_of_ne_zero hm
  positivity

theorem usub_result (prec : Nat) (hprec : 0 < prec) (neg : Bool) (mx : Nat) (ex : Int)
    (my : Nat) (ey : Int) (q : ℚ)
    (hge : (my : ℚ) * 2 ^ (big.scale my ey) ≤ (mx : ℚ) * 2 ^ (big.scale mx ex))
    (hq : q = if neg = true
      then -((mx : ℚ) * 2 ^ (big.scale mx ex) - (my : ℚ) * 2 ^ (big.scale my ey))
      else (mx : ℚ) * 2 ^ (big.scale mx ex) - (my : ℚ) * 2 ^ (big.scale my ey)) :
    IsRoundedResult prec q (big.usub prec neg mx ex my ey) := by
  obtain ⟨h0, h1⟩ := usub_spec prec hprec neg mx ex my ey hge
  rcases hge.eq_or_lt with heq | hlt
  · have hq0 : q = 0 := by
      rw [hq, heq]
      simp
    exact ⟨fun _ => h0 heq, fun hne => absurd hq0 hne⟩
  · exact IsRoundedResult.of_rounding neg _ (sub_pos.2 hlt) hq (h1 hlt)

theorem uadd_result (prec : Nat) (hprec : 0 < prec) (neg : Bool) (mx : Nat) (ex : Int)
    (my : Nat) (ey : Int) (hx : mx ≠ 0) (hy : my ≠ 0) (q : ℚ)
    (hq : q = if neg = true
      then -((mx : ℚ) * 2 ^ (big.scale mx ex) + (my : ℚ) * 2 ^ (big.scale my ey))
      else (mx : ℚ) * 2 ^ (big.scale mx ex) + (my : ℚ) * 2 ^ (big.scale my ey)) :
    IsRoundedResult prec q (big.uadd prec neg mx ex my ey) :=
  IsRoundedResult.of_rounding neg _ (add_pos (val_pos hx ex) (val_pos hy ey)) hq
    (uadd_spec prec hprec neg mx ex my ey (Nat.pos_of_ne_zero hx) (Nat.pos_of_ne_zero hy))

theorem umul_result (prec : Nat) (hprec : 0 < prec) (neg : Bool) (mx : Nat) (ex : Int)
    (my : Nat) (ey : Int) (hx : mx ≠ 0) (hy : my ≠ 0) (q : ℚ)
    (hq : q = if neg = true
      then -((mx : ℚ) * 2 ^ (big.scale mx ex) * ((my : ℚ) * 2 ^ (big.scale my ey)))
      else (mx : ℚ) * 2 ^ (big.scale mx ex) * ((my : ℚ) * 2 ^ (big.scale my ey))) :
    IsRoundedResult prec q (big.umul prec neg mx ex my ey) :=
  IsRoundedResult.of_rounding neg _ (mul_pos (val_pos hx ex) (val_pos hy ey)) hq
    (umul_spec prec hprec neg mx ex my ey (Nat.pos_of_ne_zero hx) (Nat.pos_of_ne_zero hy))

theorem uquo_result (prec : Nat) (hprec : 0 < prec) (neg : Bool) (mx : Nat) (ex : Int)
    (my : Nat) (ey : Int) (hx : mx ≠ 0) (hy : my ≠ 0) (q : ℚ)
    (hq : q = if neg = true
      then -((mx : ℚ) * 2 ^ (big.scale mx ex) / ((my : ℚ) * 2 ^ (big.scale my ey)))
      else (mx : ℚ) * 2 ^ (big.scale mx ex) / ((my : ℚ) * 2 ^ (big.scale my ey))) :
    IsRoundedResult prec q (big.uquo prec neg mx ex my ey) :=
  IsRoundedResult.of_rounding neg _ (div_pos (val_pos hx ex) (val_pos hy ey)) hq
    (uquo_spec prec hprec neg mx ex my ey (Nat.pos_of_ne_zero hx) (Nat.pos_of_ne_zero hy))

theorem AddP_finite (prec : Nat) (hprec : 0 < prec) (nx : Bool) (mx : Nat) (ex : Int)
    (ny : Bool) (my : Nat) (ey : Int) (hx : mx ≠ 0) (hy : my ≠ 0) :
    ∃ r, big.Float.AddP prec (.finite nx mx ex) (.finite ny my ey) = .ok r ∧
      IsRoundedResult prec ((big.Float.finite nx mx ex).toRat + (big.Float.finite ny my ey).toRat)
        r := by
  simp only [big.Float.AddP, pure, Except.pure, toRat_finite]
  by_cases hs : nx = ny
  · rw [if_pos hs]
    refine ⟨_, rfl, uadd_result prec hprec nx mx ex my ey hx hy _ ?_⟩
    subst hs
    cases nx <;> first | (simp; ring) | simp
  · rw [if_neg hs]
    by_cases hg : big.ugt mx ex my ey = true
    · rw [if_pos hg]
      refine ⟨_, rfl, usub_result prec hprec nx mx ex my ey _ ((ugt_iff _ _ _ _).1 hg).le ?_⟩
      cases nx <;> cases ny <;> first | (simp at hs; done) | (simp; ring)
    · rw [if_neg hg]
      have hle : (mx : ℚ) * 2 ^ (big.scale mx ex) ≤ (my : ℚ) * 2 ^ (big.scale my ey) :=
        not_lt.1 (fun h => hg ((ugt_iff _ _ _ _).2 h))
      refine ⟨_, rfl, usub_result prec hprec (!nx) my ey mx ex _ hle ?_⟩
      cases nx <;> cases ny <;> first | (simp at hs; done) | (simp; ring)

theorem SubP_finite (prec : Nat) (hprec : 0 < prec) (nx : Bool) (mx : Nat) (ex : Int)
    (ny : Bool) (my : Nat) (ey : Int) (hx : mx ≠ 0) (hy : my ≠ 0) :
    ∃ r, big.Float.SubP prec (.finite nx mx ex) (.finite ny my ey) = .ok r ∧
      IsRoundedResult prec ((big.Float.finite nx mx ex).toRat - (big.Float.finite ny my ey).toRat)
        r := by
  simp only [big.Float.SubP, pure, Except.pure, toRat_finite]
  by_cases hs : nx ≠ ny
  · rw [if_pos hs]
    refine ⟨_, rfl, uadd_result prec hprec nx mx ex my ey hx hy _ ?_⟩
    cases nx <;> cases ny <;> first | (simp at hs; done) | (simp; ring) | simp
  · rw [if_neg hs]
    by_cases hg : big.ugt mx ex my ey = true
    · rw [if_pos hg]
      refine ⟨_, rfl, usub_result prec hprec nx mx ex my ey _ ((ugt_iff _ _ _ _).1 hg).le ?_⟩
      cases nx <;> cases ny <;> first | (simp at hs; done) | (simp; ring) | simp
    · rw [if_neg hg]
      have hle : (mx : ℚ) * 2 ^ (big.scale mx ex) ≤ (my : ℚ) * 2 ^ (big.scale my ey) :=
        not_lt.1 (fun h => hg ((ugt_iff _ _ _ _).2 h))
      refine ⟨_, rfl, usub_result prec hprec (!nx) my ey mx ex _ hle ?_⟩
      cases nx <;> cases ny <;> first | (simp at hs; done) | (simp; ring) | simp

theorem MulP_finite (prec : Nat) (hprec : 0 < prec) (nx : Bool) (mx : Nat) (ex : Int)
    (ny : Bool) (my : Nat) (ey : Int) (hx : mx ≠ 0) (hy : my ≠ 0) :
    ∃ r, big.Float.MulP prec (.finite nx mx ex) (.finite ny my ey) = .ok r ∧
      IsRoundedResult prec ((big.Float.finite nx mx ex).toRat * (big.Float.finite ny my ey).toRat)
        r := by
  simp only [big.Float.MulP, pure, Except.pure, toRat_finite]
  refine ⟨_, rfl, umul_result prec hprec (nx != ny) mx ex my ey hx hy _ ?_⟩
  cases nx <;> cases ny <;> simp

theorem QuoP_finite (prec : Nat) (hprec : 0 < prec) (nx : Bool) (mx : Nat) (ex : Int)
    (ny : Bool) (my : Nat) (ey : Int) (hx : mx ≠ 0) (hy : my ≠ 0) :
    ∃ r, big.Float.QuoP prec (.finite nx mx ex) (.finite ny my ey) = .ok r ∧
      IsRoundedResult prec ((big.Float.finite nx mx ex).toRat / (big.Float.finite ny my ey).toRat)
        r := by
  simp only [big.Float.QuoP, pure, Except.pure, toRat_finite]
  refine ⟨_, rfl, uquo_result prec hprec (nx != ny) mx ex my ey hx hy _ ?_⟩
  cases nx <;> cases ny <;> simp [neg_div, div_neg]

theorem applyOp_finite (op : Arith) (nx : Bool) (mx : Nat) (ex : Int)
    (ny : Bool) (my : Nat) (ey : Int) (hx : mx ≠ 0) (hy : my ≠ 0) :
    ∃ r, applyOp op (.finite nx mx ex) (.finite ny my ey) = .ok r ∧
      IsRoundedResult 64
        (exactResult op (big.Float.finite nx mx ex).toRat (big.Float.finite ny my ey).toRat)
        r := by
  cases op
  · obtain ⟨r, h1, h2⟩ := AddP_finite 64 (by decide) nx mx ex ny my ey hx hy
    exact ⟨r, by simp [applyOp, big.Float.Add, h1], h2⟩
  · obtain ⟨r, h1, h2⟩ := SubP_finite 64 (by decide) nx mx ex ny my ey hx hy
    exact ⟨r, by simp [applyOp, big.Float.Sub, h1], h2⟩
  · obtain ⟨r, h1, h2⟩ := MulP_finite 64 (by decide) nx mx ex ny my ey hx hy
    exact ⟨r, by simp [applyOp, big.Float.Mul, h1], h2⟩
  · obtain ⟨r, h1, h2⟩ := QuoP_finite 64 (by decide) nx mx ex ny my ey hx hy
    exact ⟨r, by simp [applyOp, big.Float.Quo, h1], h2⟩

/-! #### Decimal conversion: `decimal.init`, `decimal.round` and `Float.String` -/

theorem foldl_digits (b : List Nat) : ∀ x : Nat,
    b.foldl (fun a d => 10 * a + d) x = x * 10 ^ b.length + b.foldl (fun a d => 10 * a + d) 0 := by
  induction b with
  | nil => intro x; simp
  | cons d t ih =>
    intro x
    simp only [List.foldl_cons, List.length_cons]
    rw [ih (10 * x + d), ih (10 * 0 + d)]
    ring

theorem ofDigits_append (a b : List Nat) :
    ofDigits (a ++ b) = ofDigits a * 10 ^ b.length + ofDigits b := by
  unfold ofDigits
  rw [List.foldl_append, foldl_digits]

theorem ofDigits_nil : ofDigits [] = 0 := rfl

theorem ofDigits_singleton (d : Nat) : ofDigits [d] = d := by simp [ofDigits]

theorem ofDigits_cons (d : Nat) (t : List Nat) :
    ofDigits (d :: t) = d * 10 ^ t.length + ofDigits t := by
  have := ofDigits_append [d] t
  rwa [ofDigits_singleton] at this

theorem ofDigits_lt (l : List Nat) (h : ∀ x ∈ l, x < 10) : ofDigits l < 10 ^ l.length := by
  induction l with
  | nil => simp [ofDigits]
  | cons d t ih =>
    rw [ofDigits_cons, List.length_cons, pow_succ]
    have h1 := ih (fun x hx => h x (List.mem_cons_of_mem _ hx))
    have h2 : d < 10 := h d (List.mem_cons_self _ _)
    nlinarith

theorem ofDigits_ge (d : Nat) (t : List Nat) (hd : d ≠ 0) : 10 ^ t.length ≤ ofDigits (d :: t) := by
  rw [ofDigits_cons]
  have : 1 ≤ d := Nat.one_le_iff_ne_zero.2 hd
  nlinarith [Nat.zero_le (ofDigits t), Nat.one_le_pow t.length 10 (by norm_num)]

theorem ofDigits_replicate_zero (j : Nat) : ofDigits (List.replicate j 0) = 0 := by
  induction j with
  | zero => rfl
  | succ j ih => rw [List.replicate_succ, ofDigits_cons, ih]; simp

theorem digitsAux_append : ∀ (fuel n : Nat) (acc : List Nat),
    big.digitsAux fuel n acc = big.digitsAux fuel n [] ++ acc := by
  intro fuel
  induction fuel with
  | zero => intro n acc; simp [big.digitsAux]
  | succ fuel ih =>
    intro n acc
    unfold big.digitsAux
    by_cases h : n = 0
    · simp [h]
    · rw [if_neg h, if_neg h, ih (n / 10) (n % 10 :: acc), ih (n / 10) [n % 10]]
      simp

theorem ofDigits_digitsAux : ∀ (fuel n : Nat), n ≤ fuel →
    ofDigits (big.digitsAux fuel n []) = n := by
  intro fuel
  induction fuel with
  | zero =>
    intro n hn
    have : n = 0 := by omega
    subst this
    rfl
  | succ fuel ih =>
    intro n hn
    unfold big.digitsAux
    by_cases h : n = 0
    · simp [h, ofDigits]
    · rw [if_neg h, digitsAux_append, ofDigits_append, ih (n / 10) (by omega), ofDigits_singleton]
      simp only [List.length_singleton, pow_one]
      omega

theorem digitsAux_lt : ∀ (fuel n : Nat), ∀ x ∈ big.digitsAux fuel n [], x < 10 := by
  intro fuel
  induction fuel with
  | zero => intro n x hx; simp [big.digitsAux] at hx
  | succ fuel ih =>
    intro n x hx
    unfold big.digitsAux at hx
    by_cases h : n = 0
    · simp [h] at hx
    · rw [if_neg h, digitsAux_append] at hx
      rcases List.mem_append.1 hx with hx | hx
      · exact ih _ x hx
      · simp only [List.mem_singleton] at hx
        omega

theorem digitsAux_head : ∀ (fuel n : Nat), 0 < n → n ≤ fuel →
    ∃ a t, big.digitsAux fuel n [] = a :: t ∧ a ≠ 0 := by
  intro fuel
  induction fuel with
  | zero => intro n h1 h2; omega
  | succ fuel ih =>
    intro n h1 h2
    unfold big.digitsAux
    rw [if_neg (by omega), digitsAux_append]
    by_cases h : n / 10 = 0
    · refine ⟨n % 10, [], ?_, by omega⟩
      rw [h]
      cases fuel <;> simp [big.digitsAux]
    · obtain ⟨a, t, h3, h4⟩ := ih (n / 10) (by omega) (by omega)
      exact ⟨a, t ++ [n % 10], by rw [h3]; rfl, h4⟩

theorem trim_spec (ds : List Nat) :
    ∃ j, ds = big.trim ds ++ List.replicate j 0 ∧ (big.trim ds).getLast? ≠ some 0 := by
  unfold big.trim
  obtain ⟨j, h2⟩ : ∃ j, ds.reverse.takeWhile (fun d => d == 0) = List.replicate j 0 := by
    refine ⟨(ds.reverse.takeWhile (fun d => d == 0)).length, ?_⟩
    rw [List.eq_replicate_iff]
    refine ⟨rfl, fun b hb => ?_⟩
    simpa using List.mem_takeWhile_imp hb
  refine ⟨j, ?_, ?_⟩
  · have h1 := List.takeWhile_append_dropWhile (fun d => d == 0) ds.reverse
    have h3 : ds = (ds.reverse.dropWhile (fun d => d == 0)).reverse ++
        (ds.reverse.takeWhile (fun d => d == 0)).reverse := by
      rw [← List.reverse_append, h1, List.reverse_reverse]
    rw [h2, List.reverse_replicate] at h3
    exact h3
  · rw [List.getLast?_reverse]
    have := List.head?_dropWhile_not (fun d => d == 0) ds.reverse
    intro h
    rw [h] at this
    simp at this

theorem ofDigits_trim (ds : List Nat) :
    ofDigits (big.trim ds) * 10 ^ (ds.length - (big.trim ds).length) = ofDigits ds ∧
      (big.trim ds).length ≤ ds.length := by
  obtain ⟨j, h1, _⟩ := trim_spec ds
  have hlen : ds.length = (big.trim ds).length + j := by
    have := congrArg List.length h1
    simpa using this
  refine ⟨?_, by omega⟩
  have h2 : ofDigits ds = ofDigits (big.trim ds ++ List.replicate j 0) := congrArg ofDigits h1
  rw [h2, ofDigits_append, ofDigits_replicate_zero, List.length_replicate, hlen]
  simp

theorem trim_mem (ds : List Nat) : ∀ x ∈ big.trim ds, x ∈ ds := by
  intro x hx
  obtain ⟨j, h1, _⟩ := trim_spec ds
  rw [h1]
  exact List.mem_append_left _ hx

theorem trim_head (d : Nat) (t : List Nat) (hd : d ≠ 0) :
    ∃ t2, big.trim (d :: t) = d :: t2 := by
  obtain ⟨j, h1, _⟩ := trim_spec (d :: t)
  cases htr : big.trim (d :: t) with
  | nil =>
    rw [htr] at h1
    simp only [List.nil_append] at h1
    have : d ∈ List.replicate j 0 := by
      rw [← h1]
      exact List.mem_cons_self _ _
    exact absurd (List.eq_of_mem_replicate this) hd
  | cons a t2 =>
    rw [htr] at h1
    simp only [List.cons_append, List.cons.injEq] at h1
    exact ⟨t2, by rw [h1.1]⟩

theorem digits_spec (N : Nat) (hN : 0 < N) :
    ofDigits (big.digits N) = N ∧ (∀ x ∈ big.digits N, x < 10) ∧
      ∃ a t, big.digits N = a :: t ∧ a ≠ 0 :=
  ⟨ofDigits_digitsAux N N le_rfl, digitsAux_lt N N, digitsAux_head N N hN le_rfl⟩

theorem init_spec (m : Nat) (hm : 0 < m) (shift : Int) :
    (big.decimal.init m shift).value = (m : ℚ) * 2 ^ shift ∧ (big.decimal.init m shift).Normal := by
  unfold big.decimal.init
  rw [if_neg hm.ne']
  simp only
  obtain ⟨N, hN⟩ : ∃ N, (if shift < 0 then m * 5 ^ (-shift).toNat else m * 2 ^ shift.toNat) = N :=
    ⟨_, rfl⟩
  rw [hN]
  have hNpos : 0 < N := by
    rw [← hN]
    split_ifs <;> positivity
  have hNval : (N : ℚ) * 10 ^ (-((-shift).toNat : Int)) = (m : ℚ) * 2 ^ shift := by
    rw [← hN]
    by_cases hs : shift < 0
    · rw [if_pos hs]
      obtain ⟨s, hs2⟩ : ∃ s : Nat, shift = -(s : Int) := ⟨(-shift).toNat, by omega⟩
      subst hs2
      simp only [neg_neg, Int.toNat_ofNat, zpow_neg, zpow_natCast]
      push_cast
      have : (10 : ℚ) ^ s = 5 ^ s * 2 ^ s := by rw [← mul_pow]; norm_num
      rw [this]
      field_simp
      ring
    · rw [if_neg hs]
      obtain ⟨s, hs2⟩ : ∃ s : Nat, shift = (s : Int) := ⟨shift.toNat, by omega⟩
      subst hs2
      simp
  obtain ⟨hds, hlt, a, t, hat, ha⟩ := digits_spec N hNpos
  have htm := trim_mem (big.digits N)
  obtain ⟨hval, hlen⟩ := ofDigits_trim (big.digits N)
  obtain ⟨j, _, hlast⟩ := trim_spec (big.digits N)
  obtain ⟨t2, ht2⟩ := trim_head a t ha
  rw [← hat] at ht2
  generalize big.digits N = ds at *
  generalize big.trim ds = tr at *
  constructor
  · unfold big.decimal.value
    simp only
    rw [← hNval, ← hds, ← hval]
    have he : (ds.length : Int) - ((-shift).toNat : Int) - (tr.length : Int) =
        ((ds.length - tr.length : Nat) : Int) + (-((-shift).toNat : Int)) := by
      omega
    rw [he, zpow_add₀ (by norm_num : (10 : ℚ) ≠ 0), zpow_natCast]
    push_cast
    ring
  · refine ⟨fun x hx => hlt x (htm x hx), ?_, hlast, ?_⟩
    · rw [ht2]
      simpa using ha
    · rw [ht2]
      simp

theorem rhe_decimal (P dn K T : Nat) (hT : T < 10 ^ K) (hdn : dn < 10) :
    roundHalfEven ((((P * 10 ^ (K + 1) + (dn * 10 ^ K + T) : Nat) : ℚ)) / 10 ^ (K + 1)) =
      if dn * 10 ^ K + T < 5 * 10 ^ K then (P : Int)
      else if 5 * 10 ^ K < dn * 10 ^ K + T then (P : Int) + 1
      else if P % 2 = 0 then (P : Int) else (P : Int) + 1 := by
  have hp : (0 : ℚ) < 10 ^ (K + 1) := by positivity
  have hpk : (0 : ℚ) < 10 ^ K := by positivity
  have hsplit : (((P * 10 ^ (K + 1) + (dn * 10 ^ K + T) : Nat) : ℚ)) / 10 ^ (K + 1) =
      ((P : Int) : ℚ) + ((dn * 10 ^ K + T : Nat) : ℚ) / 10 ^ (K + 1) := by
    push_cast
    field_simp
  have hlt : dn * 10 ^ K + T < 10 ^ (K + 1) := by
    rw [pow_succ]
    nlinarith
  have hy1 : ((dn * 10 ^ K + T : Nat) : ℚ) / 10 ^ (K + 1) < 1 := by
    rw [div_lt_one hp]
    exact_mod_cast hlt
  rw [hsplit, roundHalfEven_add _ _ (by positivity) hy1]
  have h2y : 2 * (((dn * 10 ^ K + T : Nat) : ℚ) / 10 ^ (K + 1)) =
      ((dn * 10 ^ K + T : Nat) : ℚ) / (5 * 10 ^ K) := by
    rw [pow_succ]
    field_simp
    ring
  rw [h2y]
  have h5 : (0 : ℚ) < 5 * 10 ^ K := by positivity
  have c1 : ((dn * 10 ^ K + T : Nat) : ℚ) / (5 * 10 ^ K) < 1 ↔ dn * 10 ^ K + T < 5 * 10 ^ K := by
    rw [div_lt_one h5]
    exact_mod_cast Iff.rfl
  have c2 : 1 < ((dn * 10 ^ K + T : Nat) : ℚ) / (5 * 10 ^ K) ↔ 5 * 10 ^ K < dn * 10 ^ K + T := by
    rw [one_lt_div h5]
    exact_mod_cast Iff.rfl
  have c3 : ((P : Int) % 2 = 0) ↔ P % 2 = 0 := by omega
  simp only [c1, c2, c3]

theorem ofDigits_replicate_nine (j : Nat) : ofDigits (List.replicate j 9) + 1 = 10 ^ j := by
  induction j with
  | zero => rfl
  | succ j ih =>
    rw [List.replicate_succ, ofDigits_cons, List.length_replicate, pow_succ]
    omega

theorem ofDigits_pos_of_getLast (l : List Nat) (hne : l ≠ []) (hl : l.getLast? ≠ some 0) :
    0 < ofDigits l := by
  obtain ⟨pre, z, rfl⟩ : ∃ pre z, l = pre ++ [z] := by
    refine ⟨l.dropLast, l.getLast hne, ?_⟩
    exact (List.dropLast_append_getLast hne).symm
  rw [ofDigits_append, ofDigits_singleton]
  have : z ≠ 0 := by
    intro h
    apply hl
    simp [h]
  omega

theorem ofDigits_mod_two (pre : List Nat) (c : Nat) : ofDigits (pre ++ [c]) % 2 = c % 2 := by
  rw [ofDigits_append, ofDigits_singleton]
  simp only [List.length_singleton, pow_one]
  omega

theorem roundDown_spec (pre : List Nat) (e : Int) (hpre : ∀ x ∈ pre, x < 10)
    (hhead : ∃ h t, pre = h :: t ∧ h ≠ 0) :
    (⟨big.trim pre, e⟩ : big.decimal).Normal ∧ (big.trim pre).length ≤ pre.length ∧
      (⟨big.trim pre, e⟩ : big.decimal).value =
        (ofDigits pre : ℚ) * 10 ^ (e - (pre.length : Int)) := by
  obtain ⟨h, t, rfl, hh⟩ := hhead
  obtain ⟨t2, ht2⟩ := trim_head h t hh
  obtain ⟨hval, hlen⟩ := ofDigits_trim (h :: t)
  obtain ⟨j, _, hlast⟩ := trim_spec (h :: t)
  have hmem := trim_mem (h :: t)
  generalize big.trim (h :: t) = tr at *
  refine ⟨⟨fun x hx => hpre x (hmem x hx), ?_, hlast, ?_⟩, hlen, ?_⟩
  · rw [ht2]
    simpa using hh
  · rw [ht2]
    simp
  · unfold big.decimal.value
    simp only
    rw [← hval]
    have he : e - (tr.length : Int) =
        (((h :: t).length - tr.length : Nat) : Int) + (e - ((h :: t).length : Int)) := by
      omega
    rw [he, zpow_add₀ (by norm_num : (10 : ℚ) ≠ 0), zpow_natCast]
    push_cast
    ring

theorem nines_split (pre : List Nat) (hpre : ∀ x ∈ pre, x < 10) :
    ∃ j, pre = (pre.reverse.dropWhile (fun d => decide (d ≥ 9))).reverse ++ List.replicate j 9 := by
  obtain ⟨j, h2⟩ : ∃ j, pre.reverse.takeWhile (fun d => decide (d ≥ 9)) = List.replicate j 9 := by
    refine ⟨(pre.reverse.takeWhile (fun d => decide (d ≥ 9))).length, ?_⟩
    rw [List.eq_replicate_iff]
    refine ⟨rfl, fun b hb => ?_⟩
    have h1 := List.mem_takeWhile_imp hb
    have h3 : b ∈ pre := by
      have := (List.takeWhile_sublist (fun d => decide (d ≥ 9))).subset hb
      simpa using this
    have := hpre b h3
    simp only [ge_iff_le, decide_eq_true_eq] at h1
    omega
  refine ⟨j, ?_⟩
  have h1 := List.takeWhile_append_dropWhile (fun d => decide (d ≥ 9)) pre.reverse
  have h3 : pre = (pre.reverse.dropWhile (fun d => decide (d ≥ 9))).reverse ++
      (pre.reverse.takeWhile (fun d => decide (d ≥ 9))).reverse := by
    rw [← List.reverse_append, h1, List.reverse_reverse]
  rw [h2, List.reverse_replicate] at h3
  exact h3

theorem roundUp_spec (pre : List Nat) (e : Int) (hpre : ∀ x ∈ pre, x < 10)
    (hhead : ∃ h t, pre = h :: t ∧ h ≠ 0) :
    ∀ r : big.decimal,
      r = (match pre.reverse.dropWhile (fun d => decide (d ≥ 9)) with
        | [] => ⟨[1], e + 1⟩
        | d :: front => ⟨front.reverse ++ [d + 1], e⟩) →
      r.Normal ∧ r.mant.length ≤ pre.length ∧
        r.value = ((ofDigits pre + 1 : Nat) : ℚ) * 10 ^ (e - (pre.length : Int)) := by
  intro r hr
  obtain ⟨j, hj⟩ := nines_split pre hpre
  have hnot := List.head?_dropWhile_not (fun d => decide (d ≥ 9)) pre.reverse
  cases hdw : pre.reverse.dropWhile (fun d => decide (d ≥ 9)) with
  | nil =>
    rw [hdw] at hr hj
    simp only [List.reverse_nil, List.nil_append] at hj
    subst hr
    have hlen : pre.length = j := by rw [hj, List.length_replicate]
    have hpos : 0 < pre.length := by
      obtain ⟨h, t, rfl, _⟩ := hhead
      simp
    refine ⟨⟨by simp, by simp, by simp, by simp⟩, by simpa using hpos, ?_⟩
    unfold big.decimal.value
    simp only [List.length_singleton]
    rw [hj, ofDigits_replicate_nine, List.length_replicate, ofDigits_singleton]
    push_cast
    rw [one_mul, ← zpow_natCast (10 : ℚ) j, ← zpow_add₀ (by norm_num : (10 : ℚ) ≠ 0)]
    congr 1
    omega
  | cons d front =>
    rw [hdw] at hr hj hnot
    simp only [List.head?_cons, decide_eq_false_iff_not, ge_iff_le, not_le] at hnot
    simp only [List.reverse_cons] at hj
    subst hr
    have hlen : pre.length = front.length + 1 + j := by
      have := congrArg List.length hj
      simp at this
      omega
    have hfront : ∀ x ∈ front, x < 10 := by
      intro x hx
      apply hpre
      rw [hj]
      simp [hx]
    refine ⟨⟨?_, ?_, by simp, by simp⟩, by simp; omega, ?_⟩
    · intro x hx
      simp only [List.mem_append, List.mem_reverse, List.mem_singleton] at hx
      rcases hx with hx | rfl
      · exact hfront x hx
      · omega
    · obtain ⟨h, t, hht, hh⟩ := hhead
      show (front.reverse ++ [d + 1]).head? ≠ some 0
      generalize front.reverse = fr at hj ⊢
      cases fr with
      | nil => simp
      | cons a t3 =>
        rw [hht] at hj
        simp only [List.cons_append, List.cons.injEq] at hj
        simp only [List.cons_append, List.head?_cons, ne_eq, Option.some.injEq]
        rw [← hj.1]
        exact hh
    · unfold big.decimal.value
      simp only
      have hP : ofDigits pre + 1 = ofDigits (front.reverse ++ [d + 1]) * 10 ^ j := by
        have h1 : ofDigits pre = ofDigits (front.reverse ++ [d] ++ List.replicate j 9) :=
          congrArg ofDigits hj
        rw [h1, ofDigits_append, List.length_replicate, ofDigits_append, ofDigits_append,
          ofDigits_singleton, ofDigits_singleton]
        have h9 := ofDigits_replicate_nine j
        simp only [List.length_singleton, pow_one]
        have : ofDigits (List.replicate j 9) = 10 ^ j - 1 := by omega
        have hpos : 0 < 10 ^ j := by positivity
        rw [this]
        zify [hpos]
        ring
      rw [hP]
      have he : e - ((front.reverse ++ [d + 1]).length : Int) =
          (j : Int) + (e - (pre.length : Int)) := by
        simp only [List.length_append, List.length_reverse, List.length_singleton]
        omega
      rw [he, zpow_add₀ (by norm_num : (10 : ℚ) ≠ 0), zpow_natCast]
      push_cast
      ring

theorem getD_append_length (pre : List Nat) (x : Nat) (rest : List Nat) :
    (pre ++ x :: rest).getD pre.length 0 = x := by
  induction pre with
  | nil => simp
  | cons a t ih => simpa using ih

theorem getLast?_append_cons (pre : List Nat) (dn : Nat) (rest : List Nat) (hr : rest ≠ []) :
    (pre ++ dn :: rest).getLast? = rest.getLast? := by
  cases rest with
  | nil => exact absurd rfl hr
  | cons a t =>
    rw [List.getLast?_append, List.getLast?_cons_cons]
    cases h : (a :: t).getLast? with
    | none => simp at h
    | some v => rfl

theorem round_spec (d : big.decimal) (hd : d.Normal) (n : Nat) (hn : 0 < n) :
    (d.round n).Normal ∧ (d.round n).mant.length ≤ n ∧
      (d.round n).value =
        (roundHalfEven (d.value / 10 ^ (d.exp - (n : Int))) : ℚ) * 10 ^ (d.exp - (n : Int)) := by
  obtain ⟨l, e⟩ := d
  obtain ⟨hlt, hhead, hlast, hne⟩ := hd
  simp only at hlt hhead hlast hne
  unfold big.decimal.round
  simp only
  by_cases hlen : n ≥ l.length
  · rw [if_pos hlen]
    refine ⟨⟨hlt, hhead, hlast, hne⟩, hlen, ?_⟩
    unfold big.decimal.value
    simp only
    have hx : (ofDigits l : ℚ) * 10 ^ (e - (l.length : Int)) / 10 ^ (e - (n : Int)) =
        ((ofDigits l * 10 ^ (n - l.length) : Nat) : ℚ) := by
      have h : (10 : ℚ) ^ (e - (l.length : Int)) = 10 ^ (n - l.length) * 10 ^ (e - (n : Int)) := by
        rw [← zpow_natCast, ← zpow_add₀ (by norm_num : (10 : ℚ) ≠ 0)]
        congr 1
        omega
      rw [h, div_eq_iff (zpow_ne_zero _ (by norm_num))]
      push_cast
      ring
    rw [hx, roundHalfEven_natCast]
    have h : (10 : ℚ) ^ (e - (l.length : Int)) = 10 ^ (n - l.length) * 10 ^ (e - (n : Int)) := by
      rw [← zpow_natCast, ← zpow_add₀ (by norm_num : (10 : ℚ) ≠ 0)]
      congr 1
      omega
    rw [h]
    push_cast
    ring
  · rw [if_neg hlen]
    have hlen2 : n < l.length := by omega
    obtain ⟨pre, dn, rest, hl, hpre_len⟩ :
        ∃ pre dn rest, l = pre ++ dn :: rest ∧ pre.length = n := by
      refine ⟨l.take n, l[n], l.drop (n + 1), ?_, by simp; omega⟩
      rw [← List.drop_eq_getElem_cons hlen2, List.take_append_drop]
    subst hl
    have htake : (pre ++ dn :: rest).take n = pre := by
      rw [← hpre_len]
      simp
    have hgetn : (pre ++ dn :: rest).getD n 0 = dn := by
      rw [← hpre_len]
      exact getD_append_length pre dn rest
    have hpre : ∀ x ∈ pre, x < 10 := fun x hx => hlt x (List.mem_append_left _ hx)
    have hdn : dn < 10 := hlt dn (by simp)
    have hrest : ∀ x ∈ rest, x < 10 := fun x hx => hlt x (by simp [hx])
    have hprehead : ∃ h t, pre = h :: t ∧ h ≠ 0 := by
      cases pre with
      | nil => simp at hpre_len; omega
      | cons h t =>
        refine ⟨h, t, rfl, ?_⟩
        intro h0
        apply hhead
        simp [h0]
    have hT := ofDigits_lt rest hrest
    have hval : (ofDigits (pre ++ dn :: rest) : ℚ) *
        10 ^ (e - ((pre ++ dn :: rest).length : Int)) / 10 ^ (e - (n : Int)) =
        (((ofDigits pre * 10 ^ (rest.length + 1) + (dn * 10 ^ rest.length + ofDigits rest) : Nat) :
          ℚ)) / 10 ^ (rest.length + 1) := by
      rw [ofDigits_append, ofDigits_cons, List.length_cons]
      have h : (10 : ℚ) ^ (e - (n : Int)) =
          10 ^ (rest.length + 1) * 10 ^ (e - ((pre ++ dn :: rest).length : Int)) := by
        rw [← zpow_natCast, ← zpow_add₀ (by norm_num : (10 : ℚ) ≠ 0)]
        congr 1
        simp only [List.length_append, List.length_cons]
        push_cast
        omega
      rw [h]
      have h1 : (10 : ℚ) ^ (e - ((pre ++ dn :: rest).length : Int)) ≠ 0 :=
        zpow_ne_zero _ (by norm_num)
      have h2 : (10 : ℚ) ^ (rest.length + 1) ≠ 0 := by positivity
      field_simp
      ring
    have hrhe := rhe_decimal (ofDigits pre) dn rest.length (ofDigits rest) hT hdn
    rw [← hval] at hrhe
    have hup : roundHalfEven ((big.decimal.mk (pre ++ dn :: rest) e).value / 10 ^ (e - (n : Int))) =
        if big.shouldRoundUp ⟨pre ++ dn :: rest, e⟩ n = true then ((ofDigits pre + 1 : Nat) : Int)
        else ((ofDigits pre : Nat) : Int) := by
      unfold big.decimal.value
      simp only
      rw [hrhe]
      have hp10 : 0 < 10 ^ rest.length := by positivity
      by_cases h5 : dn = 5
      · subst h5
        by_cases hr : rest = []
        · subst hr
          have hn1 : n + 1 = (pre ++ [5]).length := by simp [hpre_len]
          obtain ⟨pre2, c, hpc⟩ : ∃ pre2 c, pre = pre2 ++ [c] := by
            obtain ⟨h, t, hht, _⟩ := hprehead
            have hne2 : pre ≠ [] := by rw [hht]; simp
            exact ⟨pre.dropLast, pre.getLast hne2, (List.dropLast_append_getLast hne2).symm⟩
          have hgc : (pre ++ [5]).getD (n - 1) 0 = c := by
            have hl2 : pre2.length = n - 1 := by
              have := congrArg List.length hpc
              simp at this
              omega
            rw [hpc, ← hl2, List.append_assoc]
            exact getD_append_length pre2 c _
          have hmod := ofDigits_mod_two pre2 c
          rw [← hpc] at hmod
          have hs : big.shouldRoundUp ⟨pre ++ [5], e⟩ n = (c % 2 != 0) := by
            unfold big.shouldRoundUp
            simp only [hgetn, hgc]
            rw [if_pos ⟨trivial, hn1⟩]
            simp [hn]
          rw [hs]
          simp only [List.length_nil, pow_zero, ofDigits_nil, add_zero, mul_one, lt_self_iff_false,
            if_false]
          by_cases hev : ofDigits pre % 2 = 0
          · rw [if_pos hev]
            have : c % 2 = 0 := by omega
            simp [this]
          · rw [if_neg hev]
            have : c % 2 = 1 := by omega
            simp [this]
        · have hn1 : ¬ (True ∧ n + 1 = (pre ++ 5 :: rest).length) := by
            rintro ⟨_, h⟩
            simp only [List.length_append, List.length_cons] at h
            have : rest.length = 0 := by omega
            exact hr (List.length_eq_zero.1 this)
          have hs : big.shouldRoundUp ⟨pre ++ 5 :: rest, e⟩ n = true := by
            unfold big.shouldRoundUp
            simp only [hgetn]
            rw [if_neg hn1]
            decide
          have hlast2 : rest.getLast? ≠ some 0 := by
            rw [← getLast?_append_cons pre 5 rest hr]
            exact hlast
          have hpos := ofDigits_pos_of_getLast rest hr hlast2
          rw [hs, if_neg (by omega), if_pos (by omega)]
          simp
      · have hn1 : ¬ (dn = 5 ∧ n + 1 = (pre ++ dn :: rest).length) := fun h => h5 h.1
        have hs : big.shouldRoundUp ⟨pre ++ dn :: rest, e⟩ n = decide (dn ≥ 5) := by
          unfold big.shouldRoundUp
          simp only [hgetn]
          rw [if_neg hn1]
        rw [hs]
        by_cases hlow : dn < 5
        · have : dn * 10 ^ rest.length + ofDigits rest < 5 * 10 ^ rest.length := by nlinarith
          rw [if_pos this]
          have : ¬ dn ≥ 5 := by omega
          simp [this]
        · have hge : 6 ≤ dn := by omega
          have : 5 * 10 ^ rest.length < dn * 10 ^ rest.length + ofDigits rest := by nlinarith
          rw [if_neg (by omega), if_pos this]
          have : dn ≥ 5 := by omega
          simp [this]
    rw [hup]
    cases hsr : big.shouldRoundUp ⟨pre ++ dn :: rest, e⟩ n
    · simp only [Bool.false_eq_true, if_false]
      unfold big.decimal.roundDown
      simp only [htake]
      obtain ⟨h1, h2, h3⟩ := roundDown_spec pre e hpre hprehead
      rw [hpre_len] at h2 h3
      exact ⟨h1, h2, by rw [h3]; push_cast; ring⟩
    · simp only [if_true]
      obtain ⟨h1, h2, h3⟩ := roundUp_spec pre e hpre hprehead
        (big.decimal.roundUp ⟨pre ++ dn :: rest, e⟩ n) (by
          unfold big.decimal.roundUp
          simp only [htake])
      rw [hpre_len] at h2 h3
      exact ⟨h1, h2, by rw [h3]; push_cast; ring⟩

theorem digitChar_ne_e (x : Nat) (hx : x < 10) : big.digitChar x ≠ 'e' := by
  unfold big.digitChar
  interval_cases x <;> decide

theorem fmtE_mem (p : Nat) (d : big.decimal) : 'e' ∈ big.fmtE p d := by
  unfold big.fmtE
  simp

theorem fmtF_not_mem (p : Nat) (d : big.decimal) (hd : ∀ x ∈ d.mant, x < 10) :
    'e' ∉ big.fmtF p d := by
  have hget : ∀ i : Nat, d.mant.getD i 0 < 10 := by
    intro i
    rw [List.getD_eq_getElem?_getD]
    cases h : d.mant[i]? with
    | none => simp
    | some v =>
      simp only [Option.getD_some]
      exact hd v (List.getElem?_mem h)
  have hat : ∀ i : Int, d.at i ≠ 'e' := by
    intro i
    unfold big.decimal.at
    split_ifs
    · exact digitChar_ne_e _ (hget _)
    · decide
  unfold big.fmtF
  simp only [List.mem_append, not_or]
  constructor
  · split_ifs
    · simp only [List.mem_append, List.mem_map, List.mem_replicate, not_or, not_exists, not_and]
      refine ⟨fun x hx h => digitChar_ne_e x (hd x (List.mem_of_mem_take hx)) h, ?_⟩
      intro _
      decide
    · decide
  · split_ifs
    · simp only [List.mem_cons, List.mem_map, List.mem_range, not_or, not_exists, not_and]
      exact ⟨by decide, fun i _ h => hat _ h⟩
    · simp

theorem String_zero (neg : Bool) :
    (big.Float.zero neg).String = if neg = true then "-0" else "0" := by
  cases neg <;> rfl

theorem textG_body (d : big.decimal) (hlen : d.mant.length ≤ 10) :
    (if d.exp - 1 < -4 ∨
          d.exp - 1 ≥ (if (if 10 = 0 then 1 else 10) > d.mant.length ∧ (d.mant.length : Int) ≥ d.exp
            then (d.mant.length : Int) else ((if 10 = 0 then 1 else 10 : Nat) : Int)) then
          big.fmtE ((if (if 10 = 0 then 1 else 10) > d.mant.length then d.mant.length
            else (if 10 = 0 then 1 else 10)) - 1) d
        else big.fmtF (((if (((if 10 = 0 then 1 else 10 : Nat) : Int)) > d.exp
          then (d.mant.length : Int) else ((if 10 = 0 then 1 else 10 : Nat) : Int)) - d.exp).toNat) d) =
        (if d.exp < -3 ∨ 10 < d.exp then big.fmtE (d.mant.length - 1) d
           else big.fmtF ((d.mant.length : Int) - d.exp).toNat d) := by
  simp only [show ¬ (10 = 0) by decide, if_false]
  by_cases hc : d.exp < -3 ∨ 10 < d.exp
  · rw [if_pos hc, if_pos]
    · congr 1
      split_ifs <;> omega
    · rcases hc with hc | hc
      · left
        omega
      · right
        split_ifs <;> omega
  · rw [if_neg hc, if_neg]
    · congr 1
      split_ifs <;> omega
    · push_neg at hc ⊢
      constructor
      · omega
      · split_ifs <;> omega

theorem String_finite (neg : Bool) (m : Nat) (e : Int) (d : big.decimal)
    (hd : d = (big.decimal.init m (e - (big.bitLen m : Int))).round 10)
    (hnorm : d.Normal) (hlen : d.mant.length ≤ 10) :
    (big.Float.finite neg m e).String =
        String.mk ((if neg = true then ['-'] else []) ++
          (if d.exp < -3 ∨ 10 < d.exp then big.fmtE (d.mant.length - 1) d
           else big.fmtF ((d.mant.length : Int) - d.exp).toNat d)) ∧
      ('e' ∈ (big.Float.finite neg m e).String.data ↔ (d.exp < -3 ∨ 10 < d.exp)) := by
  have hstr : (big.Float.finite neg m e).String =
        String.mk ((if neg = true then ['-'] else []) ++
          (if d.exp < -3 ∨ 10 < d.exp then big.fmtE (d.mant.length - 1) d
           else big.fmtF ((d.mant.length : Int) - d.exp).toNat d)) := by
    rw [← textG_body d hlen]
    subst hd
    unfold big.Float.String big.Float.TextG
    cases neg <;> simp [big.Float.neg]
  refine ⟨hstr, ?_⟩
  rw [hstr]
  simp only [List.mem_append]
  by_cases hc : d.exp < -3 ∨ 10 < d.exp
  · rw [if_pos hc]
    simp [hc, fmtE_mem]
  · rw [if_neg hc]
    have := fmtF_not_mem ((d.mant.length : Int) - d.exp).toNat d hnorm.1
    cases neg <;> simp [hc, this]

theorem value_bounds (d : big.decimal) (hd : d.Normal) :
    (10 : ℚ) ^ (d.exp - 1) ≤ d.value ∧ d.value < 10 ^ d.exp := by
  obtain ⟨l, e⟩ := d
  obtain ⟨hlt, hhead, _, hne⟩ := hd
  simp only at hlt hhead hne
  cases l with
  | nil => exact absurd rfl hne
  | cons a t =>
    have ha : a ≠ 0 := by
      intro h
      apply hhead
      simp [h]
    have h1 := ofDigits_ge a t ha
    have h2 := ofDigits_lt (a :: t) hlt
    unfold big.decimal.value
    simp only [List.length_cons] at h2 ⊢
    have hp : (0 : ℚ) < 10 ^ (e - ((t.length + 1 : Nat) : Int)) := zpow_pos (by norm_num) _
    constructor
    · have he : (10 : ℚ) ^ (e - 1) = 10 ^ t.length * 10 ^ (e - ((t.length + 1 : Nat) : Int)) := by
        rw [← zpow_natCast, ← zpow_add₀ (by norm_num : (10 : ℚ) ≠ 0)]
        congr 1
        push_cast
        omega
      rw [he]
      apply mul_le_mul_of_nonneg_right _ hp.le
      exact_mod_cast h1
    · have he : (10 : ℚ) ^ e = 10 ^ (t.length + 1) * 10 ^ (e - ((t.length + 1 : Nat) : Int)) := by
        rw [← zpow_natCast, ← zpow_add₀ (by norm_num : (10 : ℚ) ≠ 0)]
        congr 1
        push_cast
        omega
      rw [he]
      apply mul_lt_mul_of_pos_right _ hp
      exact_mod_cast h2

theorem exp_rule (d : big.decimal) (hd : d.Normal) :
    (d.exp < -3 ∨ 10 < d.exp) ↔ (d.value < 10 ^ (-4 : Int) ∨ 10 ^ (10 : Int) ≤ d.value) := by
  obtain ⟨h1, h2⟩ := value_bounds d hd
  have mono : ∀ a b : Int, a ≤ b → (10 : ℚ) ^ a ≤ 10 ^ b :=
    fun a b h => zpow_le_zpow_right₀ (by norm_num) h
  constructor
  · rintro (h | h)
    · left
      exact lt_of_lt_of_le h2 (mono _ _ (by omega))
    · right
      exact le_trans (mono _ _ (by omega)) h1
  · rintro (h | h)
    · left
      by_contra hc
      have := mono (-4) (d.exp - 1) (by omega)
      linarith
    · right
      by_contra hc
      have := mono d.exp 10 (by omega)
      linarith

theorem range_map_getD (l : List Nat) (o : Nat) :
    (List.range (l.length - o)).map (fun i => big.digitChar (l.getD (o + i) 0)) =
      digitString (l.drop o) := by
  apply List.ext_getElem
  · simp [digitString]
  · intro i h1 h2
    simp only [List.length_map, List.length_range] at h1
    simp [digitString, List.getD_eq_getElem?_getD, List.getElem?_eq_getElem (show o + i < l.length by omega)]

theorem fmtE_eq (d : big.decimal) (hne : d.mant ≠ []) :
    big.fmtE (d.mant.length - 1) d = exponentNotation d := by
  obtain ⟨l, e⟩ := d
  cases l with
  | nil => exact absurd rfl hne
  | cons a t =>
    unfold big.fmtE exponentNotation digitString
    simp only [List.length_cons, Nat.add_sub_cancel]
    have h1 : t.length + 1 > 0 := by omega
    have h2 : List.take (t.length + 1) (a :: t) = a :: t := by
      rw [List.take_of_length_le]
      simp
    simp only [h1, if_true, min_self, h2, List.drop_succ_cons, List.drop_zero, List.take_succ_cons,
      List.take_zero, List.map_cons, List.map_nil]
    have h3 : t.length + 1 - (t.length + 1) ⊔ 1 = 0 := by simp
    rw [h3]
    by_cases ht : t.length > 0 <;> by_cases h0 : (e - 1).natAbs = 0 <;>
      by_cases h10 : (e - 1).natAbs < 10 <;> simp [ht, h0, h10]


theorem range_map_const (k : Nat) (f : Nat → Char) (c : Char) (h : ∀ i, i < k → f i = c) :
    (List.range k).map f = List.replicate k c := by
  apply List.ext_getElem
  · simp
  · intro i h1 h2
    simp only [List.length_map, List.length_range] at h1
    simp [h i h1]

theorem at_range (d : big.decimal) (k : Nat) :
    (List.map (fun i => d.at (d.exp + i)) do
      let a ← List.range k
      pure ↑a) = (List.range k).map (fun i : Nat => d.at (d.exp + (i : Int))) := by
  simp only [bind_pure_comp, Functor.map, List.map_map]
  rfl

theorem fmtF_eq (d : big.decimal) (hne : d.mant ≠ []) :
    big.fmtF ((d.mant.length : Int) - d.exp).toNat d = plainNotation d := by
  obtain ⟨l, e⟩ := d
  simp only at hne
  have hlen : 0 < l.length := List.length_pos.2 hne
  unfold big.fmtF plainNotation
  simp only [at_range]
  by_cases h1 : e ≤ 0
  · rw [if_neg (by omega), if_pos h1]
    obtain ⟨k, hk⟩ : ∃ k : Nat, e = -(k : Int) := ⟨(-e).toNat, by omega⟩
    subst hk
    have hp : ((l.length : Int) - -(k : Int)).toNat = k + l.length := by omega
    rw [hp, if_pos (by omega), List.range_add, List.map_append, List.map_map]
    simp only [neg_neg, Int.toNat_ofNat, List.singleton_append, List.cons.injEq, true_and]
    congr 1
    · apply range_map_const
      intro i hi
      unfold big.decimal.at
      rw [if_neg]
      omega
    · have h0 := range_map_getD l 0
      simp only [Nat.sub_zero, zero_add, List.drop_zero] at h0
      rw [← h0]
      apply List.map_congr_left
      intro i hi
      simp only [List.mem_range] at hi
      simp only [Function.comp_apply]
      unfold big.decimal.at
      rw [if_pos (by constructor <;> push_cast <;> omega)]
      congr 2
      push_cast
      omega
  · rw [if_pos (by omega), if_neg h1]
    obtain ⟨k, hk⟩ : ∃ k : Nat, e = (k : Int) := ⟨e.toNat, by omega⟩
    subst hk
    simp only [Int.toNat_ofNat]
    by_cases h2 : (l.length : Int) ≤ (k : Int)
    · rw [if_pos h2]
      have hp : ((l.length : Int) - (k : Int)).toNat = 0 := by omega
      have hm : min l.length k = l.length := by omega
      rw [hp, if_neg (by omega), hm, List.take_of_length_le le_rfl]
      simp [digitString]
    · rw [if_neg h2]
      have hp : ((l.length : Int) - (k : Int)).toNat = l.length - k := by omega
      have hm : min l.length k = k := by omega
      rw [hp, if_pos (by omega), hm, Nat.sub_self, List.replicate_zero, List.append_nil]
      congr 2
      rw [← range_map_getD l k]
      apply List.map_congr_left
      intro i hi
      simp only [List.mem_range] at hi
      unfold big.decimal.at
      rw [if_pos (by constructor <;> push_cast <;> omega)]
      congr 2

theorem String_isPrinted (x : big.Float) (hx : ∀ neg e, x ≠ .finite neg 0 e) :
    IsPrinted x x.String := by
  cases x with
  | zero neg => exact String_zero neg
  | inf neg => cases neg <;> rfl
  | finite neg m e =>
    have hm : 0 < m := Nat.pos_of_ne_zero (fun h => hx neg e (by rw [h]))
    obtain ⟨hv0, hn0⟩ := init_spec m hm (e - (big.bitLen m : Int))
    have hmag : (big.Float.finite neg m e).mag = (m : ℚ) * 2 ^ (e - (big.bitLen m : Int)) := rfl
    rw [← hmag] at hv0
    obtain ⟨hn, hlen, hv⟩ := round_spec _ hn0 10 (by norm_num)
    obtain ⟨hb1, hb2⟩ := value_bounds _ hn0
    obtain ⟨hs, he⟩ := String_finite neg m e _ rfl hn hlen
    have hrule := exp_rule _ hn
    refine ⟨(big.decimal.init m (e - (big.bitLen m : Int))).round 10,
      ⟨hn, hlen, (big.decimal.init m (e - (big.bitLen m : Int))).exp, ?_, ?_, ?_⟩, ?_, ?_⟩
    · rw [← hv0]
      exact hb1
    · rw [← hv0]
      exact hb2
    · rw [hv, hv0]
    · rw [hs, fmtE_eq _ hn.2.2.2, fmtF_eq _ hn.2.2.2]
      congr 2
      by_cases hc : ((big.decimal.init m (e - (big.bitLen m : Int))).round 10).exp < -3 ∨
          10 < ((big.decimal.init m (e - (big.bitLen m : Int))).round 10).exp
      · rw [if_pos hc, if_pos (hrule.1 hc)]
      · rw [if_neg hc, if_neg (fun h => hc (hrule.2 h))]
    · rw [he]
      exact hrule

/-! #### Well-formed values and the result of `Calc` -/

theorem roundTo_valid (prec : Nat) (hprec : 0 < prec) (neg : Bool) (m : Nat) (k : Int)
    (sbit : Bool) : (big.roundTo prec neg m k sbit).IsValid := by
  unfold big.roundTo
  by_cases hm : m = 0
  · rw [if_pos hm]
    trivial
  rw [if_neg hm]
  have hmpos : 0 < m := Nat.pos_of_ne_zero hm
  simp only
  split_ifs
  · trivial
  · trivial
  · exact (oddPart_pos hmpos).ne'
  · next h1 h2 h3 h4 =>
    have hlo := (size_bounds hmpos).1
    rw [← bitLen_eq_size] at hlo
    have hblpos : 0 < big.bitLen m := by
      rw [bitLen_eq_size]
      exact Nat.size_pos.2 hmpos
    apply (oddPart_pos _).ne'
    apply Nat.div_pos _ (by positivity)
    refine le_trans ?_ hlo
    exact Nat.pow_le_pow_right (by norm_num) (by omega)
  · trivial
  · exact one_ne_zero
  · exact (oddPart_pos (Nat.succ_pos _)).ne'

theorem MulP_valid (prec : Nat) (hprec : 0 < prec) (x y f : big.Float)
    (h : big.Float.MulP prec x y = .ok f) : f.IsValid := by
  cases x <;> cases y <;>
    simp only [big.Float.MulP, pure, Except.pure, throw, throwThe, MonadExceptOf.throw,
      Except.ok.injEq] at h <;>
    first
      | (subst h; exact roundTo_valid prec hprec _ _ _ _)
      | (subst h; trivial)
      | cases h

theorem QuoP_valid (prec : Nat) (hprec : 0 < prec) (x y f : big.Float)
    (h : big.Float.QuoP prec x y = .ok f) : f.IsValid := by
  cases x <;> cases y <;>
    simp only [big.Float.QuoP, pure, Except.pure, throw, throwThe, MonadExceptOf.throw,
      Except.ok.injEq] at h <;>
    first
      | (subst h; exact roundTo_valid prec hprec _ _ _ _)
      | (subst h; trivial)
      | cases h

theorem scan_tail_valid {c1 c2 : Prop} [Decidable c1] [Decidable c2] {a : big.Float}
    {v : Except big.ErrNaN big.Float} {rest : List Char} {f : big.Float} {r : List Char}
    (h : (if c1 then none
          else if c2 then some (a, rest)
          else match v with
            | .ok f1 => some (f1, rest)
            | .error _ => none) = some (f, r))
    (ha : a.IsValid) (hv : ∀ f1, v = .ok f1 → f1.IsValid) : f.IsValid := by
  by_cases h1 : c1
  · rw [if_pos h1] at h
    cases h
  · rw [if_neg h1] at h
    by_cases h2 : c2
    · rw [if_pos h2] at h
      cases h
      exact ha
    · rw [if_neg h2] at h
      cases v with
      | ok f1 =>
        cases h
        exact hv _ rfl
      | error e => cases h

theorem quo_or_mul_valid {c : Prop} [Decidable c] {x y z w f1 : big.Float}
    (h : (if c then big.Float.QuoP 64 x y else big.Float.MulP 64 z w) = .ok f1) :
    f1.IsValid := by
  by_cases hc : c
  · rw [if_pos hc] at h
    exact QuoP_valid 64 (by decide) _ _ _ h
  · rw [if_neg hc] at h
    exact MulP_valid 64 (by decide) _ _ _ h

theorem scan_valid {s rest : List Char} {f : big.Float}
    (h : big.scan s = some (f, rest)) : f.IsValid := by
  unfold big.scan at h
  split at h
  · cases h
  · next neg r1 hsign =>
    dsimp only at h
    by_cases e1 : (big.natScan r1).err = true
    · rw [if_pos e1] at h
      cases h
    rw [if_neg e1] at h
    by_cases e2 : (big.scanExponent (big.natScan r1).rest).err = true
    · rw [if_pos e2] at h
      cases h
    rw [if_neg e2] at h
    by_cases e3 : (big.natScan r1).mant = 0
    · rw [if_pos e3] at h
      simp only [Option.some.injEq, Prod.mk.injEq] at h
      rw [← h.1]
      trivial
    rw [if_neg e3] at h
    refine scan_tail_valid h (roundTo_valid 64 (by decide) _ _ _ _) ?_
    intro f1 hv
    exact quo_or_mul_valid hv

theorem SetString_valid {s : String} {f : big.Float} (h : big.Float.SetString s = some f) :
    f.IsValid := by
  unfold big.Float.SetString big.Parse at h
  split_ifs at h
  · cases h; trivial
  · cases h; trivial
  · cases h; trivial
  · split at h
    · next f1 hscan =>
      cases h
      exact scan_valid hscan
    · cases h

theorem Set_allValid {db : cache.Cache} (h : AllValid db) (t : Int) (key : String)
    (x : big.Float) (hx : x.IsValid) (d : Int) : AllValid (db.Set t key x d) := by
  intro k item hk
  simp only [cache.Cache.Set] at hk
  by_cases hkk : k = key
  · rw [if_pos hkk] at hk
    cases hk
    exact hx
  · rw [if_neg hkk] at hk
    exact h k item hk

theorem Delete_allValid {db : cache.Cache} (h : AllValid db) (key : String) :
    AllValid (db.Delete key) := by
  intro k item hk
  simp only [cache.Cache.Delete] at hk
  by_cases hkk : k = key
  · rw [if_pos hkk] at hk
    cases hk
  · rw [if_neg hkk] at hk
    exact h k item hk

theorem DeleteExpired_allValid {db : cache.Cache} (h : AllValid db) (now : Int) :
    AllValid (db.DeleteExpired now) := by
  intro k item hk
  simp only [cache.Cache.DeleteExpired] at hk
  cases hi : db.items k with
  | none => simp [hi] at hk
  | some it =>
    rw [hi] at hk
    simp only [Option.filter] at hk
    split_ifs at hk
    cases hk
    exact h k _ hi

theorem Serve_allValid (db : cache.Cache) (t1 t2 : Int) (rpcObj : RpcObj)
    (returnObj : ReplyObj) {out : Outcome} (hdb : AllValid db)
    (h : ServerHandler.Serve db t1 t2 rpcObj returnObj = .ok out) : AllValid out.db := by
  have hcalc : ∀ op {r : cache.Cache × ReplyObj},
      Calc db t1 t2 rpcObj returnObj op = .ok r → AllValid r.1 := by
    intro op r hr
    rw [Calc_keeps_store db t1 t2 rpcObj returnObj op hr]
    exact hdb
  have hcreate : ∀ {r : cache.Cache × ReplyObj},
      Create db t1 t2 rpcObj returnObj = .ok r → AllValid r.1 := by
    intro r hr
    unfold Create at hr
    split at hr
    · cases hr
    · split at hr
      · cases hr
      · split at hr
        · cases hr; exact hdb
        · split at hr
          · split at hr
            · cases hr; exact hdb
            · next n hn =>
              cases hr
              exact Set_allValid hdb _ _ _ (SetString_valid hn) _
          · cases hr; exact hdb
  have hset : ∀ {r : cache.Cache × ReplyObj},
      Set db t1 t2 rpcObj returnObj = .ok r → AllValid r.1 := by
    intro r hr
    unfold Set at hr
    split at hr
    · cases hr
    · split at hr
      · cases hr
      · split at hr
        · split at hr
          · cases hr; exact hdb
          · next n hn =>
            cases hr
            exact Set_allValid hdb _ _ _ (SetString_valid hn) _
        · cases hr; exact hdb
  have hdelete : ∀ {r : cache.Cache × ReplyObj},
      Delete db t1 rpcObj returnObj = .ok r → AllValid r.1 := by
    intro r hr
    unfold Delete at hr
    split at hr
    · cases hr
    · split at hr
      · cases hr; exact Delete_allValid hdb _
      · cases hr; exact hdb
  unfold ServerHandler.Serve at h
  repeat' split at h
  · cases h; exact hdb
  · exact hcreate (returnNil_ok h).1
  · exact hset (returnNil_ok h).1
  · exact hdelete (returnNil_ok h).1
  · exact hcalc _ (returnNil_ok h).1
  · exact hcalc _ (returnNil_ok h).1
  · exact hcalc _ (returnNil_ok h).1
  · exact hcalc _ (returnNil_ok h).1
  · cases h; exact hdb

theorem Reachable_allValid {db : cache.Cache} (h : Reachable db) : AllValid db := by
  induction h with
  | start =>
    intro k item hk
    simp [database, cache.New] at hk
  | serve t1 t2 rpcObj returnObj out _ hs ih => exact Serve_allValid _ t1 t2 rpcObj returnObj ih hs
  | sweep now _ ih => exact DeleteExpired_allValid ih now

theorem resolvesTo_valid {db : cache.Cache} (hdb : AllValid db) {t : Int} {tok : String}
    {n : big.Float} (h : resolvesTo db t tok n) : n.IsValid := by
  rcases h with h | ⟨_, h⟩
  · unfold cache.Cache.Get at h
    split at h
    · cases h
    · next item hi =>
      split_ifs at h
      cases h
      exact hdb tok item hi
  · exact SetString_valid h

theorem IsRounding_valid {prec : Nat} {q : ℚ} {r : big.Float} (h : IsRounding prec q r) :
    r.IsValid := by
  obtain ⟨e, _, _, h1, h2, h3⟩ := h
  by_cases hmin : e < big.MinExp
  · rw [h1 hmin]
    trivial
  by_cases hmax : big.MaxExp < e
  · rw [h2 hmax]
    trivial
  obtain ⟨h4, h5⟩ := h3 (by omega) (by omega)
  by_cases hc : roundHalfEven (q / 2 ^ (e - (prec : Int))) = 2 ^ prec ∧ e = big.MaxExp
  · rw [h4 hc]
    trivial
  · obtain ⟨⟨m, x, hr, hm⟩, _⟩ := h5 hc
    rw [hr]
    exact hm

theorem IsRoundedResult_valid {prec : Nat} {q : ℚ} {r : big.Float}
    (h : IsRoundedResult prec q r) : r.IsValid := by
  by_cases hq : q = 0
  · rw [h.1 hq]
    trivial
  · exact IsRounding_valid (h.2 hq).2

theorem toRat_zero (n : Bool) : (big.Float.zero n).toRat = 0 := by
  cases n <;> simp [big.Float.toRat, big.Float.mag, big.Float.neg]

theorem mag_zero (n : Bool) : (big.Float.zero n).mag = 0 := rfl

theorem toRat_finite_ne_zero (n : Bool) {m : Nat} (hm : m ≠ 0) (e : Int) :
    (big.Float.finite n m e).toRat ≠ 0 := by
  rw [toRat_finite]
  have := val_pos hm e
  cases n
  · simp only [Bool.false_eq_true, if_false]
    exact this.ne'
  · simp only [if_true]
    exact neg_ne_zero.2 this.ne'

theorem mag_finite_ne_zero (n : Bool) {m : Nat} (hm : m ≠ 0) (e : Int) :
    (big.Float.finite n m e).mag ≠ 0 := by
  rw [mag_finite]
  exact (val_pos hm e).ne'

theorem toRat_Neg_finite (n : Bool) (m : Nat) (e : Int) :
    (big.Float.finite n m e).Neg.toRat = -(big.Float.finite n m e).toRat := by
  cases n <;> simp [big.Float.Neg, big.Float.toRat, big.Float.mag, big.Float.neg]

theorem applyOp_spec (op : Arith) (x y : big.Float) (hx : x.IsValid) (hy : y.IsValid)
    (hfx : ∀ n, x ≠ .inf n) (hfy : ∀ n, y ≠ .inf n) (hdiv : op = .DIV → y.toRat ≠ 0) :
    ∃ r, applyOp op x y = .ok r ∧ IsOpResult op x y r ∧ r.IsValid := by
  cases x with
  | inf n => exact absurd rfl (hfx n)
  | finite nx mx ex =>
    cases y with
    | inf n => exact absurd rfl (hfy n)
    | finite ny my ey =>
      obtain ⟨r, h1, h2⟩ := applyOp_finite op nx mx ex ny my ey hx hy
      refine ⟨r, h1, ⟨fun _ => h2, fun h => ?_⟩, IsRoundedResult_valid h2⟩
      rcases h with h | h
      · exact absurd h (mag_finite_ne_zero nx hx ex)
      · exact absurd h (mag_finite_ne_zero ny hy ey)
    | zero ny =>
      have hxne := toRat_finite_ne_zero nx hx ex
      cases op
      · refine ⟨.finite nx mx ex, rfl, ⟨fun h => absurd rfl h.2, fun _ => ?_⟩, hx⟩
        simp only [exactResult, toRat_zero, add_zero]
        exact ⟨fun h => absurd h hxne, fun _ => ⟨⟨_, _, _, rfl, hx⟩, trivial⟩⟩
      · refine ⟨.finite nx mx ex, rfl, ⟨fun h => absurd rfl h.2, fun _ => ?_⟩, hx⟩
        simp only [exactResult, toRat_zero, sub_zero]
        exact ⟨fun h => absurd h hxne, fun _ => ⟨⟨_, _, _, rfl, hx⟩, trivial⟩⟩
      · refine ⟨.zero (nx != ny), rfl, ⟨fun h => absurd rfl h.2, fun _ => ?_⟩, trivial⟩
        simp only [exactResult, toRat_zero, mul_zero]
        exact ⟨fun _ => rfl, fun h => absurd rfl h⟩
      · exact absurd (toRat_zero ny) (hdiv rfl)
  | zero nx =>
    cases y with
    | inf n => exact absurd rfl (hfy n)
    | finite ny my ey =>
      have hyne := toRat_finite_ne_zero ny hy ey
      cases op
      · refine ⟨.finite ny my ey, rfl, ⟨fun h => absurd rfl h.1, fun _ => ?_⟩, hy⟩
        simp only [exactResult, toRat_zero, zero_add]
        exact ⟨fun h => absurd h hyne, fun _ => ⟨⟨_, _, _, rfl, hy⟩, trivial⟩⟩
      · refine ⟨(big.Float.finite ny my ey).Neg, rfl, ⟨fun h => absurd rfl h.1, fun _ => ?_⟩, hy⟩
        simp only [exactResult, toRat_zero, zero_sub]
        refine ⟨fun h => absurd (neg_eq_zero.1 h) hyne, fun _ => ⟨⟨_, _, _, rfl, hy⟩, ?_⟩⟩
        exact toRat_Neg_finite ny my ey
      · refine ⟨.zero (nx != ny), rfl, ⟨fun h => absurd rfl h.1, fun _ => ?_⟩, trivial⟩
        simp only [exactResult, toRat_zero, zero_mul]
        exact ⟨fun _ => rfl, fun h => absurd rfl h⟩
      · refine ⟨.zero (nx != ny), rfl, ⟨fun h => absurd rfl h.1, fun _ => ?_⟩, trivial⟩
        simp only [exactResult, toRat_zero, zero_div]
        exact ⟨fun _ => rfl, fun h => absurd rfl h⟩
    | zero ny =>
      cases op
      · refine ⟨.zero (nx && ny), rfl, ⟨fun h => absurd rfl h.1, fun _ => ?_⟩, trivial⟩
        simp only [exactResult, toRat_zero, add_zero]
        exact ⟨fun _ => rfl, fun h => absurd rfl h⟩
      · refine ⟨.zero (nx && !ny), rfl, ⟨fun h => absurd rfl h.1, fun _ => ?_⟩, trivial⟩
        simp only [exactResult, toRat_zero, sub_zero]
        exact ⟨fun _ => rfl, fun h => absurd rfl h⟩
      · refine ⟨.zero (nx != ny), rfl, ⟨fun h => absurd rfl h.1, fun _ => ?_⟩, trivial⟩
        simp only [exactResult, toRat_zero, mul_zero]
        exact ⟨fun _ => rfl, fun h => absurd rfl h⟩
      · exact absurd (toRat_zero ny) (hdiv rfl)

theorem String_isPrinted_of_valid (x : big.Float) (hx : x.IsValid) : IsPrinted x x.String := by
  apply String_isPrinted
  intro neg e h
  rw [h] at hx
  exact hx rfl

/-- C14 (amended): on every store the server can reach, for add, sub, mul and div at
version 1 whose operands resolve to zero or finite values `n1` and `n2` (the divisor of
div not zero), `Serve` replies `ok=true` with a result string `s` for which there is a
`Float` `r` such that `r` is the exact result of the operation on the rational numbers
`n1` and `n2` stand for, rounded to nearest even at 64 mantissa bits (exact when an
operand is zero), and `s` is `r` printed with at most 10 significant decimal digits,
rounded to nearest even, in exponent notation exactly when the rounded magnitude is
below `10^-4` or not below `10^10`. -/
theorem C14_result_rounded_and_printed (db : cache.Cache) (hdb : Reachable db) (t1 t2 : Int)
    (m : String) (op : Arith) (a b : String) (id : Int) (returnObj : ReplyObj)
    (n1 n2 : big.Float) (hm : (m, op) ∈ arithMethods)
    (h1 : resolvesTo db t1 a n1) (h2 : resolvesTo db t2 b n2)
    (hf1 : ∀ neg, n1 ≠ .inf neg) (hf2 : ∀ neg, n2 ≠ .inf neg)
    (hdiv : op = .DIV → n2.toRat ≠ 0) :
    ∃ (r : big.Float) (s : String),
      ServerHandler.Serve db t1 t2 ⟨Float64.one, m, [a, b], id⟩ returnObj =
        .ok ⟨db, ⟨id, true, "Calculate success", s⟩, none⟩ ∧
      IsOpResult op n1 n2 r ∧ IsPrinted r s := by
  have hall := Reachable_allValid hdb
  obtain ⟨r, happ, hres, hval⟩ := applyOp_spec op n1 n2 (resolvesTo_valid hall h1)
    (resolvesTo_valid hall h2) hf1 hf2 hdiv
  refine ⟨r, r.String, ?_, hres, String_isPrinted_of_valid r hval⟩
  rw [Serve_calc_resolved db t1 t2 m op a b [] id returnObj hm n1 n2 h1 h2, happ]

set_option maxRecDepth 100000 in
/-- C14 (amended) on the start-up store: `add("1", "0.005")` replies `1.005`,
`sub("5", "2.5")` replies `2.5`, `mul("3", "0.005")` replies `0.015` and
`div("5", "2.5")` replies `2`. -/
theorem C14_rounded_and_printed_witness :
    ServerHandler.Serve database 0 0 ⟨Float64.one, "add", ["1", "0.005"], 1⟩
        ⟨0, false, "", ""⟩ =
      .ok ⟨database, ⟨1, true, "Calculate success", "1.005"⟩, none⟩ ∧
    ServerHandler.Serve database 0 0 ⟨Float64.one, "sub", ["5", "2.5"], 1⟩
        ⟨0, false, "", ""⟩ =
      .ok ⟨database, ⟨1, true, "Calculate success", "2.5"⟩, none⟩ ∧
    ServerHandler.Serve database 0 0 ⟨Float64.one, "mul", ["3", "0.005"], 1⟩
        ⟨0, false, "", ""⟩ =
      .ok ⟨database, ⟨1, true, "Calculate success", "0.015"⟩, none⟩ ∧
    ServerHandler.Serve database 0 0 ⟨Float64.one, "div", ["5", "2.5"], 10⟩
        ⟨0, false, "", ""⟩ =
      .ok ⟨database, ⟨10, true, "Calculate success", "2"⟩, none⟩ ∧
    (∃ (r : big.Float) (s : String),
      ServerHandler.Serve database 0 0 ⟨Float64.one, "add", ["1", "0.005"], 1⟩
          ⟨0, false, "", ""⟩ =
        .ok ⟨database, ⟨1, true, "Calculate success", s⟩, none⟩ ∧
      IsOpResult .ADD (.finite false 1 1) (.finite false 5902958103587056517 (-7)) r ∧
      IsPrinted r s) ∧
    (∃ (r : big.Float) (s : String),
      ServerHandler.Serve database 0 0 ⟨Float64.one, "div", ["5", "2.5"], 10⟩
          ⟨0, false, "", ""⟩ =
        .ok ⟨database, ⟨10, true, "Calculate success", s⟩, none⟩ ∧
      IsOpResult .DIV (.finite false 5 3) (.finite false 5 2) r ∧ IsPrinted r s) :=
  ⟨by rfl, by rfl, by rfl, by rfl,
   C14_result_rounded_and_printed database Reachable.start 0 0 "add" .ADD "1" "0.005" 1
     ⟨0, false, "", ""⟩ (.finite false 1 1) (.finite false 5902958103587056517 (-7))
     (by decide) (Or.inr ⟨by rfl, by decide⟩) (Or.inr ⟨by rfl, by decide⟩)
     (fun _ h => by cases h) (fun _ h => by cases h) (fun h => by cases h),
   C14_result_rounded_and_printed database Reachable.start 0 0 "div" .DIV "5" "2.5" 10
     ⟨0, false, "", ""⟩ (.finite false 5 3) (.finite false 5 2)
     (by decide) (Or.inr ⟨by rfl, by decide⟩) (Or.inr ⟨by rfl, by decide⟩)
     (fun _ h => by cases h) (fun _ h => by cases h)
     (fun _ => toRat_finite_ne_zero false (by decide) 2)⟩

/-! ### Expiration -/

theorem Get_expired {db : cache.Cache} {k : String} {v : big.Float} {e t : Int}
    (hitem : db.items k = some ⟨v, e⟩) (hpos : 0 < e) (hlate : e < t) :
    db.Get t k = none := by
  simp [cache.Cache.Get, hitem, hpos, hlate]

/-- C15 (as stated, refuted): `dbGgg3` holds `ggg = 3` written at time 0, so its
deadline is `0 + TTL = 300000000000`. A lookup at exactly that time still finds the
entry: `mul("ggg", "0.005")` returns `0.015` from the stored value, `delete("ggg")`
replies `ok=true` and `create("ggg", "1")` replies `ok=false`. -/
theorem C15_live_at_deadline :
    dbGgg3.items "ggg" = some ⟨.finite false 3 2, 0 + 5 * cache.Minute⟩ ∧
    (0 : Int) + 5 * cache.Minute = 300000000000 ∧
    ServerHandler.Serve dbGgg3 300000000000 300000000000
        ⟨Float64.one, "mul", ["ggg", "0.005"], 1⟩ ⟨0, false, "", ""⟩ =
      .ok ⟨dbGgg3, ⟨1, true, "Calculate success", "0.015"⟩, none⟩ ∧
    ServerHandler.Serve dbGgg3 300000000000 300000000000
        ⟨Float64.one, "delete", ["ggg"], 1⟩ ⟨0, false, "", ""⟩ =
      .ok ⟨dbGgg3.Delete "ggg", ⟨1, true, "Delete: ggg success", ""⟩, none⟩ ∧
    ServerHandler.Serve dbGgg3 300000000000 300000000000
        ⟨Float64.one, "create", ["ggg", "1"], 1⟩ ⟨0, false, "", ""⟩ =
      .ok ⟨dbGgg3, ⟨1, false, "ggg existed!! ", ""⟩, none⟩ :=
  ⟨by rfl, by decide, by rfl, by rfl, by rfl⟩

/-- C15 (amended): an entry written by create or set at time `t0` carries the deadline
`t0 + TTL`; when that deadline is positive, every lookup at a time strictly after it
treats the name as absent, swept or not: `Get` finds nothing, set and delete reply
`ok=false` and leave the store alone, create of a non-numeric name with a valid literal
succeeds, and an arithmetic operand falls back to parsing the token. -/
theorem C15_expired_entry_absent (db : cache.Cache) (name lit b : String) (v : big.Float)
    (t0 t t' : Int) (id : Int) (returnObj : ReplyObj)
    (hitem : db.items name = some ⟨v, t0 + db.defaultExpiration⟩)
    (hpos : 0 < t0 + db.defaultExpiration) (hlate : t0 + db.defaultExpiration < t) :
    db.Get t name = none ∧
    ServerHandler.Serve db t t' ⟨Float64.one, "set", [name, lit], id⟩ returnObj =
      .ok ⟨db, ⟨id, false, name ++ " does not exist!! ", ""⟩, none⟩ ∧
    ServerHandler.Serve db t t' ⟨Float64.one, "delete", [name], id⟩ returnObj =
      .ok ⟨db, ⟨id, false, "Delete: " ++ name ++ " not existed!! ", ""⟩, none⟩ ∧
    (big.Float.SetString name = none → ∀ p, big.Float.SetString lit = some p →
      ServerHandler.Serve db t t' ⟨Float64.one, "create", [name, lit], id⟩ returnObj =
        .ok ⟨db.Set t' name p cache.DefaultExpiration,
          ⟨id, true, "Create: " ++ name ++ " success", ""⟩, none⟩) ∧
    operand (db.Get t name) name = big.Float.SetString name ∧
    (big.Float.SetString name = none → ∀ m op, (m, op) ∈ arithMethods →
      ServerHandler.Serve db t t' ⟨Float64.one, m, [name, b], id⟩ returnObj =
        .ok ⟨db, ⟨id, false, "Params[0] error, expired or invalid", ""⟩, none⟩) := by
  have hg : db.Get t name = none := Get_expired hitem hpos hlate
  refine ⟨hg, ?_, ?_, ?_, ?_, ?_⟩
  · rw [Serve_set]
    simp [Set, index, hg, returnNil, FillReplay]
  · rw [Serve_delete]
    simp [Delete, index, hg, returnNil, FillReplay]
  · intro hn p hp
    rw [Serve_create]
    simp [Create, index, hg, hn, hp, returnNil, FillReplay]
  · simp [operand, hg]
  · intro hn m op hm
    rw [Serve_calc db t t' returnObj m op hm]
    simp [Calc, index, operand, hg, hn, returnNil, FillReplay]

/-- C15 (amended) on `dbGgg3` one nanosecond after the deadline of `ggg`: the name is
absent, delete fails and `mul("ggg", "0.005")` fails on operand 0. -/
theorem C15_expired_entry_witness :
    dbGgg3.Get 300000000001 "ggg" = none ∧
    ServerHandler.Serve dbGgg3 300000000001 300000000001
        ⟨Float64.one, "delete", ["ggg"], 1⟩ ⟨0, false, "", ""⟩ =
      .ok ⟨dbGgg3, ⟨1, false, "Delete: ggg not existed!! ", ""⟩, none⟩ ∧
    ServerHandler.Serve dbGgg3 300000000001 300000000001
        ⟨Float64.one, "mul", ["ggg", "0.005"], 1⟩ ⟨0, false, "", ""⟩ =
      .ok ⟨dbGgg3, ⟨1, false, "Params[0] error, expired or invalid", ""⟩, none⟩ :=
  have h := C15_expired_entry_absent dbGgg3 "ggg" "1" "0.005" (.finite false 3 2) 0
    300000000001 300000000001 1 ⟨0, false, "", ""⟩ (by rfl) (by decide) (by decide)
  ⟨h.1, h.2.2.1, h.2.2.2.2.2 (by decide) "mul" .MUL (by decide)⟩

/-! ### A stored name and the literal it was written with -/

/-- C18 (as stated, refuted): `dbGgg3` is reachable and its name `ggg` was last written
by `set("ggg", "3")` at time 0; after the deadline `mul("ggg", "0.005")` replies
`ok=false` while `mul("3", "0.005")` replies `ok=true` with `0.015`. -/
theorem C18_expired_name_differs_from_literal :
    Reachable dbGgg3 ∧
    dbGgg3.items "ggg" = some ⟨.finite false 3 2, 300000000000⟩ ∧
    big.Float.SetString "3" = some (.finite false 3 2) ∧
    ServerHandler.Serve dbGgg3 300000000001 300000000001
        ⟨Float64.one, "mul", ["ggg", "0.005"], 1⟩ ⟨0, false, "", ""⟩ =
      .ok ⟨dbGgg3, ⟨1, false, "Params[0] error, expired or invalid", ""⟩, none⟩ ∧
    ServerHandler.Serve dbGgg3 300000000001 300000000001
        ⟨Float64.one, "mul", ["3", "0.005"], 1⟩ ⟨0, false, "", ""⟩ =
      .ok ⟨dbGgg3, ⟨1, true, "Calculate success", "0.015"⟩, none⟩ :=
  ⟨Reachable_dbGgg3, by rfl, by decide, by rfl, by rfl⟩

/-- C18 (amended): in a reachable store, if `k` is found unexpired at the time of its
lookup with the value that the literal `s` parses to (as after a create or set of `k`
with literal `s`), then for every arithmetic method and every other operand `b` the
requests `op(k, b)` and `op(s, b)` have the same outcome (same `ok`, message, result and
store), and so have `op(b, k)` and `op(b, s)`. -/
theorem C18_live_name_interchangeable (db : cache.Cache) (h : Reachable db) (k s b : String)
    (v : big.Float) (t1 t2 : Int) (m : String) (op : Arith) (id : Int) (returnObj : ReplyObj)
    (hm : (m, op) ∈ arithMethods) (hs : big.Float.SetString s = some v) :
    (db.Get t1 k = some v →
      ServerHandler.Serve db t1 t2 ⟨Float64.one, m, [k, b], id⟩ returnObj =
        ServerHandler.Serve db t1 t2 ⟨Float64.one, m, [s, b], id⟩ returnObj) ∧
    (db.Get t2 k = some v →
      ServerHandler.Serve db t1 t2 ⟨Float64.one, m, [b, k], id⟩ returnObj =
        ServerHandler.Serve db t1 t2 ⟨Float64.one, m, [b, s], id⟩ returnObj) := by
  have hinv := Reachable_noNumericName h
  have ops : ∀ t, db.Get t k = some v → operand (db.Get t k) k = operand (db.Get t s) s := by
    intro t hk
    have hg := NoNumericName_literal_not_stored hinv t s v hs
    simp [operand, hk, hg, hs]
  constructor
  · intro hk
    rw [Serve_calc db t1 t2 returnObj m op hm, Serve_calc db t1 t2 returnObj m op hm]
    simp only [Calc, index, List.get?, ops t1 hk]
  · intro hk
    rw [Serve_calc db t1 t2 returnObj m op hm, Serve_calc db t1 t2 returnObj m op hm]
    simp only [Calc, index, List.get?, ops t2 hk]

/-- C18 (amended) at the client's requests: after `set("ggg", "3")`, while `ggg` is
live, `mul("ggg", "0.005")` equals `mul("3", "0.005")`, both `0.015`. -/
theorem C18_live_name_witness :
    ServerHandler.Serve dbGgg3 1 1 ⟨Float64.one, "mul", ["ggg", "0.005"], 1⟩
        ⟨0, false, "", ""⟩ =
      ServerHandler.Serve dbGgg3 1 1 ⟨Float64.one, "mul", ["3", "0.005"], 1⟩
        ⟨0, false, "", ""⟩ ∧
    ServerHandler.Serve dbGgg3 1 1 ⟨Float64.one, "mul", ["3", "0.005"], 1⟩ ⟨0, false, "", ""⟩ =
      .ok ⟨dbGgg3, ⟨1, true, "Calculate success", "0.015"⟩, none⟩ :=
  ⟨(C18_live_name_interchangeable dbGgg3 Reachable_dbGgg3 "ggg" "3" "0.005"
      (.finite false 3 2) 1 1 "mul" .MUL 1 ⟨0, false, "", ""⟩ (by decide) (by decide)).1
      (by rfl),
   by rfl⟩

/-! ### What `SetString` rejects -/

theorem Consumed.refl (r : List Char) (d : Nat) : Consumed r r d :=
  ⟨[], rfl, by simp, by simp⟩

theorem Consumed.cons {c : Char} {r rest : List Char} {d : Nat} (hc : allowedChar c = true)
    (hdot : c ≠ '.') (h : Consumed r rest d) : Consumed (c :: r) rest d := by
  obtain ⟨pre, he, ha, hd⟩ := h
  refine ⟨c :: pre, by rw [he]; rfl, ?_, ?_⟩
  · intro x hx
    rcases List.mem_cons.mp hx with rfl | hx
    · exact hc
    · exact ha x hx
  · rw [List.count_cons_of_ne (Ne.symm hdot)]
    exact hd

theorem Consumed.cons_dot {r rest : List Char} {d : Nat} (h : Consumed r rest d) :
    Consumed ('.' :: r) rest (d + 1) := by
  obtain ⟨pre, he, ha, hd⟩ := h
  refine ⟨'.' :: pre, by rw [he]; rfl, ?_, ?_⟩
  · intro x hx
    rcases List.mem_cons.mp hx with rfl | hx
    · decide
    · exact ha x hx
  · rw [List.count_cons_self]
    omega

theorem Consumed.mono {a b : List Char} {d d2 : Nat} (h : Consumed a b d) (hd : d ≤ d2) :
    Consumed a b d2 := by
  obtain ⟨pre, he, ha, hc⟩ := h
  exact ⟨pre, he, ha, hc.trans hd⟩

theorem Consumed.trans {a b c : List Char} {d1 d2 : Nat} (h1 : Consumed a b d1)
    (h2 : Consumed b c d2) : Consumed a c (d1 + d2) := by
  obtain ⟨p1, e1, a1, c1⟩ := h1
  obtain ⟨p2, e2, a2, c2⟩ := h2
  refine ⟨p1 ++ p2, by rw [e1, e2, List.append_assoc], ?_, ?_⟩
  · intro x hx
    rcases List.mem_append.mp hx with hx | hx
    · exact a1 x hx
    · exact a2 x hx
  · rw [List.count_append]
    omega

theorem Consumed.all {s : List Char} {d : Nat} (h : Consumed s [] d) :
    (∀ c ∈ s, allowedChar c = true) ∧ s.count '.' ≤ d := by
  obtain ⟨pre, he, ha, hc⟩ := h
  rw [List.append_nil] at he
  subst he
  exact ⟨ha, hc⟩

theorem allowedChar_of_digitVal {ch : Char} {b : Nat} (hb : b ≤ 63)
    (h : ¬ big.digitVal ch ≥ b) : allowedChar ch = true ∧ ch ≠ '.' := by
  have hlt : big.digitVal ch < 63 := by omega
  refine ⟨by simp [allowedChar, hlt], ?_⟩
  rintro rfl
  exact absurd hlt (by decide)

theorem scanDigits_consumed (b : Nat) (hb : b ≤ 63) (input : List Char) :
    ∀ st : big.ScanState,
      Consumed input (big.scanDigits b st input).2 (if st.fracOk = true then 1 else 0) := by
  induction input with
  | nil => intro st; exact Consumed.refl _ _
  | cons ch r ih =>
    intro st
    rw [big.scanDigits]
    split
    · next h =>
      obtain ⟨rfl, hf⟩ := h
      have := (ih { st with fracOk := false, invalSep := st.invalSep || st.prev == .sep,
                            prev := .other, dp := some st.count }).cons_dot
      simpa [hf] using this
    · split
      · next h =>
        subst h
        exact (ih _).cons (by decide) (by decide)
      · split
        · exact Consumed.refl _ _
        · next h =>
          obtain ⟨ha, hd⟩ := allowedChar_of_digitVal hb h
          exact (ih _).cons ha hd

theorem natScan_consumed (input : List Char) :
    Consumed input (big.natScan input).rest 1 := by
  unfold big.natScan
  split
  · next ch r =>
    have h0 : allowedChar '0' = true ∧ ('0' : Char) ≠ '.' := ⟨by decide, by decide⟩
    simp only
    split
    · next h =>
      have hch : allowedChar ch = true ∧ ch ≠ '.' := by
        rcases h with rfl | rfl <;> exact ⟨by decide, by decide⟩
      exact ((scanDigits_consumed 2 (by decide) r _).cons hch.1 hch.2).cons h0.1 h0.2
    · split
      · next h =>
        have hch : allowedChar ch = true ∧ ch ≠ '.' := by
          rcases h with rfl | rfl <;> exact ⟨by decide, by decide⟩
        exact ((scanDigits_consumed 8 (by decide) r _).cons hch.1 hch.2).cons h0.1 h0.2
      · split
        · next h =>
          have hch : allowedChar ch = true ∧ ch ≠ '.' := by
            rcases h with rfl | rfl <;> exact ⟨by decide, by decide⟩
          exact ((scanDigits_consumed 16 (by decide) r _).cons hch.1 hch.2).cons h0.1 h0.2
        · exact (scanDigits_consumed 10 (by decide) (ch :: r) _).cons h0.1 h0.2
  · exact (Consumed.refl [] 1).cons (by decide) (by decide)
  · exact scanDigits_consumed 10 (by decide) _ _

theorem allowedChar_of_digit {ch : Char} (h : '0' ≤ ch ∧ ch ≤ '9') :
    allowedChar ch = true ∧ ch ≠ '.' := by
  have hv : big.digitVal ch < 63 := by
    unfold big.digitVal
    rw [if_pos h]
    have h9 : ch.toNat ≤ '9'.toNat := h.2
    have : ('9' : Char).toNat = 57 := by decide
    omega
  refine ⟨by simp [allowedChar, hv], ?_⟩
  rintro rfl
  exact absurd hv (by decide)

theorem scanExpDigits_consumed (input : List Char) :
    ∀ st : big.ExpState, Consumed input (big.scanExpDigits st input).2 0 := by
  induction input with
  | nil => intro st; exact Consumed.refl _ _
  | cons ch r ih =>
    intro st
    rw [big.scanExpDigits]
    split
    · next h =>
      obtain ⟨ha, hd⟩ := allowedChar_of_digit h
      exact (ih _).cons ha hd
    · split
      · next h =>
        subst h
        exact (ih _).cons (by decide) (by decide)
      · exact Consumed.refl _ _

theorem scanExpValue_consumed (ebase : Nat) (r : List Char) :
    Consumed r (big.scanExpValue ebase r).rest 0 := by
  unfold big.scanExpValue
  simp only
  split
  · exact (scanExpDigits_consumed _ _).cons (by decide) (by decide)
  · exact (scanExpDigits_consumed _ _).cons (by decide) (by decide)
  · exact scanExpDigits_consumed _ _

theorem scanExponent_consumed (input : List Char) :
    Consumed input (big.scanExponent input).rest 0 := by
  unfold big.scanExponent
  split
  · exact Consumed.refl _ _
  · next ch r =>
    split
    · next h =>
      have hch : allowedChar ch = true ∧ ch ≠ '.' := by
        rcases h with rfl | rfl <;> exact ⟨by decide, by decide⟩
      exact (scanExpValue_consumed 10 r).cons hch.1 hch.2
    · split
      · next h =>
        have hch : allowedChar ch = true ∧ ch ≠ '.' := by
          rcases h with rfl | rfl <;> exact ⟨by decide, by decide⟩
        exact (scanExpValue_consumed 2 r).cons hch.1 hch.2
      · exact Consumed.refl _ _

theorem scanSign_consumed {s r1 : List Char} {neg : Bool}
    (h : big.scanSign s = some (neg, r1)) : Consumed s r1 0 := by
  unfold big.scanSign at h
  split at h
  · cases h
  · cases h
    exact (Consumed.refl _ _).cons (by decide) (by decide)
  · cases h
    exact (Consumed.refl _ _).cons (by decide) (by decide)
  · cases h
    exact Consumed.refl _ _

theorem scan_tail_rest (c1 c2 : Prop) [Decidable c1] [Decidable c2] (a : big.Float)
    (v : Except big.ErrNaN big.Float) (rest : List Char) {f : big.Float} {r : List Char}
    (h : (if c1 then none
          else if c2 then some (a, rest)
          else match v with
            | .ok f1 => some (f1, rest)
            | .error _ => none) = some (f, r)) : r = rest := by
  by_cases h1 : c1
  · rw [if_pos h1] at h
    cases h
  · rw [if_neg h1] at h
    by_cases h2 : c2
    · rw [if_pos h2] at h
      cases h
      rfl
    · rw [if_neg h2] at h
      cases v with
      | ok f1 =>
        cases h
        rfl
      | error e => cases h

theorem scan_consumed {s rest : List Char} {f : big.Float}
    (h : big.scan s = some (f, rest)) : Consumed s rest 1 := by
  unfold big.scan at h
  split at h
  · cases h
  · next neg r1 hsign =>
    have hall : Consumed s (big.scanExponent (big.natScan r1).rest).rest 1 := by
      have := ((scanSign_consumed hsign).trans (natScan_consumed r1)).trans
        (scanExponent_consumed (big.natScan r1).rest)
      simpa using this
    dsimp only at h
    by_cases e1 : (big.natScan r1).err = true
    · rw [if_pos e1] at h
      cases h
    rw [if_neg e1] at h
    by_cases e2 : (big.scanExponent (big.natScan r1).rest).err = true
    · rw [if_pos e2] at h
      cases h
    rw [if_neg e2] at h
    by_cases e3 : (big.natScan r1).mant = 0
    · rw [if_pos e3] at h
      cases h
      exact hall
    rw [if_neg e3] at h
    rw [scan_tail_rest _ _ _ _ _ h]
    exact hall

theorem Parse_some_chars {s : String} {f : big.Float} (h : big.Parse s = some f) :
    s ≠ "" ∧ (∀ c ∈ s.data, allowedChar c = true) ∧ s.data.count '.' ≤ 1 := by
  have hne : s ≠ "" := by
    rintro rfl
    have hempty : big.Parse "" = none := by decide
    rw [hempty] at h
    cases h
  refine ⟨hne, ?_⟩
  unfold big.Parse at h
  split at h
  · next hs => rcases hs with rfl | rfl <;> exact ⟨by decide, by decide⟩
  · split at h
    · next hs => rcases hs with rfl | rfl <;> exact ⟨by decide, by decide⟩
    · split at h
      · next hs => rcases hs with rfl | rfl <;> exact ⟨by decide, by decide⟩
      · split at h
        · next f1 hscan => exact (scan_consumed hscan).all
        · cases h

theorem char_le_iff (a b : Char) : a ≤ b ↔ a.toNat ≤ b.toNat := Iff.rfl

theorem baseDigit_iff (b : Nat) (hb : b = 2 ∨ b = 8 ∨ b = 10 ∨ b = 16) (c : Char) :
    baseDigit b c = true ↔ big.digitVal c < b := by
  unfold baseDigit big.digitVal
  simp only [char_le_iff]
  have e0 : ('0' : Char).toNat = 48 := by decide
  have e1 : ('1' : Char).toNat = 49 := by decide
  have e7 : ('7' : Char).toNat = 55 := by decide
  have e9 : ('9' : Char).toNat = 57 := by decide
  have ea : ('a' : Char).toNat = 97 := by decide
  have ef : ('f' : Char).toNat = 102 := by decide
  have ez : ('z' : Char).toNat = 122 := by decide
  have eA : ('A' : Char).toNat = 65 := by decide
  have eF : ('F' : Char).toNat = 70 := by decide
  have eZ : ('Z' : Char).toNat = 90 := by decide
  rw [e0, e1, e7, e9, ea, ef, ez, eA, eF, eZ]
  generalize c.toNat = n
  rcases hb with rfl | rfl | rfl | rfl <;> simp <;> split_ifs <;> omega


theorem baseDigit_dot (b : Nat) : baseDigit b '.' = false := by
  unfold baseDigit
  split_ifs <;> decide

theorem baseDigit_underscore (b : Nat) : baseDigit b '_' = false := by
  unfold baseDigit
  split_ifs <;> decide

theorem baseDigit_ten_iff (c : Char) : baseDigit 10 c = true ↔ ('0' ≤ c ∧ c ≤ '9') := by
  simp [baseDigit]

theorem scanExpDigits_literal (input : List Char) :
    ∀ st : big.ExpState,
      (big.scanExpDigits st input).2 = [] →
      (big.scanExpDigits st input).1.hasDigits = true →
      (big.scanExpDigits st input).1.invalSep = false →
      (big.scanExpDigits st input).1.prev ≠ .sep →
      st.invalSep = false ∧ (st.prev = .sep → startsWithDigit 10 input = true) ∧
        exponentDigits (st.prev == .digit) st.hasDigits input = true := by
  induction input with
  | nil =>
    intro st _ hd hi hp
    simp only [big.scanExpDigits] at hd hi hp
    exact ⟨hi, fun h => absurd h hp, by simpa [exponentDigits] using hd⟩
  | cons ch r ih =>
    intro st hr hd hi hp
    rw [big.scanExpDigits] at hr hd hi hp
    by_cases h1 : '0' ≤ ch ∧ ch ≤ '9'
    · rw [if_pos h1] at hr hd hi hp
      obtain ⟨i1, _, i3⟩ := ih _ hr hd hi hp
      have hb : baseDigit 10 ch = true := (baseDigit_ten_iff ch).2 h1
      refine ⟨i1, fun _ => by simpa [startsWithDigit] using hb, ?_⟩
      rw [exponentDigits, if_pos hb]
      simpa using i3
    · rw [if_neg h1] at hr hd hi hp
      have hb : ¬ baseDigit 10 ch = true := fun h => h1 ((baseDigit_ten_iff ch).1 h)
      by_cases h2 : ch = '_'
      · rw [if_pos h2] at hr hd hi hp
        obtain ⟨i1, i2, i3⟩ := ih _ hr hd hi hp
        simp only [Bool.or_eq_false_iff, bne_eq_false_iff_eq] at i1
        refine ⟨i1.1, fun h => ?_, ?_⟩
        · rw [i1.2] at h
          cases h
        · rw [exponentDigits, if_neg hb, if_pos h2, i2 rfl]
          simp only [i1.2, beq_self_eq_true, Bool.and_self, Bool.true_and]
          simpa using i3
      · rw [if_neg h2] at hr
        cases hr

theorem dropSign_eq (r : List Char) :
    (∃ r1, r = '+' :: r1 ∧ dropSign r = r1) ∨ (∃ r1, r = '-' :: r1 ∧ dropSign r = r1) ∨
      ((∀ r1, r ≠ '+' :: r1) ∧ (∀ r1, r ≠ '-' :: r1) ∧ dropSign r = r) := by
  unfold dropSign
  split
  · exact Or.inl ⟨_, rfl, rfl⟩
  · exact Or.inr (Or.inl ⟨_, rfl, rfl⟩)
  · next h1 h2 => exact Or.inr (Or.inr ⟨fun r1 h => h1 r1 h, fun r1 h => h2 r1 h, rfl⟩)

theorem scanExpValue_dropSign (ebase : Nat) (r : List Char) :
    (big.scanExpValue ebase r).rest =
        (big.scanExpDigits ⟨0, false, .other, false⟩ (dropSign r)).2 ∧
      ((big.scanExpValue ebase r).err = false →
        (big.scanExpDigits ⟨0, false, .other, false⟩ (dropSign r)).1.hasDigits = true ∧
        (big.scanExpDigits ⟨0, false, .other, false⟩ (dropSign r)).1.invalSep = false ∧
        (big.scanExpDigits ⟨0, false, .other, false⟩ (dropSign r)).1.prev ≠ .sep) := by
  rcases dropSign_eq r with ⟨r1, rfl, h⟩ | ⟨r1, rfl, h⟩ | ⟨h1, h2, h⟩
  · rw [h]
    simp only [big.scanExpValue, Bool.or_eq_false_iff, Bool.not_eq_false',
      beq_eq_false_iff_ne, ne_eq]
    exact ⟨trivial, fun he => ⟨he.1.1.1, he.1.2, he.2⟩⟩
  · rw [h]
    simp only [big.scanExpValue, Bool.or_eq_false_iff, Bool.not_eq_false',
      beq_eq_false_iff_ne, ne_eq]
    exact ⟨trivial, fun he => ⟨he.1.1.1, he.1.2, he.2⟩⟩
  · rw [h]
    unfold big.scanExpValue
    split
    · next r1 => exact absurd rfl (h1 r1)
    · next r1 => exact absurd rfl (h2 r1)
    · simp only [Bool.or_eq_false_iff, Bool.not_eq_false', beq_eq_false_iff_ne, ne_eq]
      exact ⟨trivial, fun he => ⟨he.1.1.1, he.1.2, he.2⟩⟩

theorem scanExponent_literal (input : List Char)
    (herr : (big.scanExponent input).err = false)
    (hrest : (big.scanExponent input).rest = []) : exponentPart input = true := by
  have key : ∀ (ebase : Nat) (r : List Char), (big.scanExpValue ebase r).err = false →
      (big.scanExpValue ebase r).rest = [] → exponentDigits false false (dropSign r) = true := by
    intro ebase r he hr
    obtain ⟨e1, e2⟩ := scanExpValue_dropSign ebase r
    obtain ⟨hd, hi, hp⟩ := e2 he
    rw [e1] at hr
    exact (scanExpDigits_literal _ _ hr hd hi hp).2.2
  cases input with
  | nil => rfl
  | cons ch r =>
    simp only [big.scanExponent] at herr hrest
    by_cases h1 : ch = 'e' ∨ ch = 'E'
    · rw [if_pos h1] at herr hrest
      rw [exponentPart, key 10 r herr hrest]
      rcases h1 with rfl | rfl <;> rfl
    · rw [if_neg h1] at herr hrest
      by_cases h2 : ch = 'p' ∨ ch = 'P'
      · rw [if_pos h2] at herr hrest
        rw [exponentPart, key 2 r herr hrest]
        rcases h2 with rfl | rfl <;> rfl
      · rw [if_neg h2] at hrest
        cases hrest

theorem scanDigits_literal (b : Nat) (hb : b = 2 ∨ b = 8 ∨ b = 10 ∨ b = 16)
    (input : List Char) :
    ∀ st : big.ScanState,
      (big.scanDigits b st input).1.invalSep = false →
      (big.scanDigits b st input).1.prev ≠ .sep →
      (big.scanDigits b st input).1.count ≠ 0 →
      exponentPart (big.scanDigits b st input).2 = true →
      st.invalSep = false ∧ (st.prev = .sep → startsWithDigit b input = true) ∧
        mantissaPart b (st.prev == .digit) (!st.fracOk) (decide (st.count ≠ 0)) input = true := by
  induction input with
  | nil =>
    intro st hi hp hc _
    simp only [big.scanDigits] at hi hp hc
    exact ⟨hi, fun h => absurd h hp, by simp [mantissaPart, hc]⟩
  | cons ch r ih =>
    intro st hi hp hc he
    rw [big.scanDigits] at hi hp hc he
    by_cases h1 : ch = '.' ∧ st.fracOk = true
    · rw [if_pos h1] at hi hp hc he
      obtain ⟨i1, _, i3⟩ := ih _ hi hp hc he
      simp only [Bool.or_eq_false_iff, beq_eq_false_iff_ne, ne_eq] at i1
      obtain ⟨rfl, hf⟩ := h1
      refine ⟨i1.1, fun h => absurd h i1.2, ?_⟩
      rw [mantissaPart, if_neg (by simp [baseDigit_dot]), if_pos ⟨rfl, by simp [hf]⟩]
      simpa using i3
    · rw [if_neg h1] at hi hp hc he
      by_cases h2 : ch = '_'
      · rw [if_pos h2] at hi hp hc he
        obtain ⟨i1, i2, i3⟩ := ih _ hi hp hc he
        simp only [Bool.or_eq_false_iff, bne_eq_false_iff_eq] at i1
        subst h2
        refine ⟨i1.1, fun h => ?_, ?_⟩
        · rw [i1.2] at h
          cases h
        · rw [mantissaPart, if_neg (by simp [baseDigit_underscore]),
            if_neg (by simp), if_pos rfl, i2 rfl]
          simp only [i1.2, beq_self_eq_true, Bool.and_self, Bool.true_and]
          simpa using i3
      · rw [if_neg h2] at hi hp hc he
        by_cases h3 : big.digitVal ch ≥ b
        · rw [if_pos h3] at hi hp hc he
          have hbd : ¬ baseDigit b ch = true := fun h => by
            have := (baseDigit_iff b hb ch).1 h
            omega
          refine ⟨hi, fun h => absurd h hp, ?_⟩
          have hdot : ¬ (ch = '.' ∧ (!st.fracOk) = false) := by
            rintro ⟨hd, hf⟩
            exact h1 ⟨hd, by simpa using hf⟩
          rw [mantissaPart, if_neg hbd, if_neg hdot, if_neg h2]
          simp [hc, he]
        · rw [if_neg h3] at hi hp hc he
          have hbd : baseDigit b ch = true := (baseDigit_iff b hb ch).2 (by omega)
          obtain ⟨i1, _, i3⟩ := ih _ hi hp hc he
          refine ⟨i1, fun _ => by simpa [startsWithDigit] using hbd, ?_⟩
          rw [mantissaPart, if_pos hbd]
          simpa using i3


theorem finishScan_ok {b : Nat} {p : big.ScanState × List Char}
    (h : (big.finishScan b p).err = false) :
    p.1.invalSep = false ∧ p.1.prev ≠ .sep ∧ p.1.count ≠ 0 := by
  simpa [big.finishScan, and_assoc] using h

theorem natScan_literal (r1 : List Char) (herr : (big.natScan r1).err = false)
    (hexp : exponentPart (big.natScan r1).rest = true) :
    (match basePrefix r1 with
      | some (b, r) => mantissaPart b true false false r
      | none => mantissaPart 10 false false false r1) = true := by
  obtain ⟨ns, hns⟩ : ∃ ns, big.natScan r1 = ns := ⟨_, rfl⟩
  rw [hns] at herr hexp
  unfold big.natScan at hns
  split at hns
  · next ch r =>
    simp only at hns
    subst hns
    by_cases h1 : ch = 'b' ∨ ch = 'B'
    · rw [if_pos h1] at herr hexp
      obtain ⟨a1, a2, a3⟩ := finishScan_ok herr
      have := (scanDigits_literal 2 (by simp) r _ a1 a2 a3 hexp).2.2
      simpa [basePrefix, h1] using this
    rw [if_neg h1] at herr hexp
    by_cases h2 : ch = 'o' ∨ ch = 'O'
    · rw [if_pos h2] at herr hexp
      obtain ⟨a1, a2, a3⟩ := finishScan_ok herr
      have := (scanDigits_literal 8 (by simp) r _ a1 a2 a3 hexp).2.2
      simpa [basePrefix, h1, h2] using this
    rw [if_neg h2] at herr hexp
    by_cases h3 : ch = 'x' ∨ ch = 'X'
    · rw [if_pos h3] at herr hexp
      obtain ⟨a1, a2, a3⟩ := finishScan_ok herr
      have := (scanDigits_literal 16 (by simp) r _ a1 a2 a3 hexp).2.2
      simpa [basePrefix, h1, h2, h3] using this
    rw [if_neg h3] at herr hexp
    obtain ⟨a1, a2, a3⟩ := finishScan_ok herr
    have := (scanDigits_literal 10 (by simp) (ch :: r) _ a1 a2 a3 hexp).2.2
    have hz : baseDigit 10 '0' = true := by decide
    simp only [basePrefix, h1, h2, h3, if_false]
    rw [mantissaPart, if_pos hz]
    simpa using this
  · decide
  · next h0 h00 =>
    subst hns
    obtain ⟨a1, a2, a3⟩ := finishScan_ok herr
    have := (scanDigits_literal 10 (by simp) r1 _ a1 a2 a3 hexp).2.2
    have hp : basePrefix r1 = none := by
      unfold basePrefix
      split
      · next ch r2 => exact absurd rfl (h0 ch r2)
      · rfl
    rw [hp]
    simpa using this

theorem scanSign_dropSign {s r1 : List Char} {neg : Bool}
    (h : big.scanSign s = some (neg, r1)) : r1 = dropSign s := by
  rcases dropSign_eq s with ⟨r2, rfl, h2⟩ | ⟨r2, rfl, h2⟩ | ⟨h1, h2, h3⟩
  · rw [h2]
    simp only [big.scanSign] at h
    cases h
    rfl
  · rw [h2]
    simp only [big.scanSign] at h
    cases h
    rfl
  · rw [h3]
    unfold big.scanSign at h
    split at h
    · cases h
    · next r2 => exact absurd rfl (h1 r2)
    · next r2 => exact absurd rfl (h2 r2)
    · cases h
      rfl

theorem scan_literal {s : List Char} {f : big.Float} (h : big.scan s = some (f, [])) :
    numberLiteral s = true := by
  unfold big.scan at h
  split at h
  · cases h
  · next neg r1 hsign =>
    dsimp only at h
    by_cases e1 : (big.natScan r1).err = true
    · rw [if_pos e1] at h
      cases h
    rw [if_neg e1] at h
    by_cases e2 : (big.scanExponent (big.natScan r1).rest).err = true
    · rw [if_pos e2] at h
      cases h
    rw [if_neg e2] at h
    have hrest : (big.scanExponent (big.natScan r1).rest).rest = [] := by
      by_cases e3 : (big.natScan r1).mant = 0
      · rw [if_pos e3] at h
        simp only [Option.some.injEq, Prod.mk.injEq] at h
        exact h.2
      · rw [if_neg e3] at h
        exact (scan_tail_rest _ _ _ _ _ h).symm
    have hexp := scanExponent_literal _ (by simpa using e2) hrest
    have := natScan_literal r1 (by simpa using e1) hexp
    unfold numberLiteral
    rw [← scanSign_dropSign hsign]
    exact this

theorem Parse_floatLiteral {s : String} {f : big.Float} (h : big.Parse s = some f) :
    floatLiteral s = true := by
  unfold big.Parse at h
  unfold floatLiteral
  split at h
  · next hs => rcases hs with rfl | rfl <;> decide
  · split at h
    · next hs => rcases hs with rfl | rfl <;> decide
    · split at h
      · next hs => rcases hs with rfl | rfl <;> decide
      · split at h
        · next f1 hscan => simp [scan_literal hscan]
        · cases h

theorem SetString_rejects {s : String} (h : rejectedLiteral s) :
    big.Float.SetString s = none := by
  cases hp : big.Float.SetString s with
  | none => rfl
  | some f =>
    obtain ⟨hne, hall, hdots⟩ := Parse_some_chars hp
    rcases h with h | h | ⟨c, hc, hbad⟩ | h
    · exact absurd h hne
    · omega
    · rw [hall c hc] at hbad
      cases hbad
    · rw [Parse_floatLiteral hp] at h
      cases h

theorem whitespace_not_allowed (c : Char) (h : c.isWhitespace = true) :
    allowedChar c = false := by
  simp only [Char.isWhitespace, Bool.or_eq_true, decide_eq_true_eq] at h
  rcases h with ((rfl | rfl) | rfl) | rfl <;> decide

/-- C17 (as stated, refuted): on the empty store `create("x", "Inf")` replies `ok=true`
and stores `+Inf`, although `Inf` holds no digit, sign or point; `create("x", "0x10")`
stores 16 read from a hexadecimal literal; and `create("x", "1_0")` stores 10. -/
theorem C17_inf_and_hex_accepted :
    ServerHandler.Serve database 0 0 ⟨Float64.one, "create", ["x", "Inf"], 1⟩
        ⟨0, false, "", ""⟩ =
      .ok ⟨database.Set 0 "x" (.inf false) cache.DefaultExpiration,
        ⟨1, true, "Create: x success", ""⟩, none⟩ ∧
    ServerHandler.Serve database 0 0 ⟨Float64.one, "create", ["x", "0x10"], 1⟩
        ⟨0, false, "", ""⟩ =
      .ok ⟨database.Set 0 "x" (.finite false 1 5) cache.DefaultExpiration,
        ⟨1, true, "Create: x success", ""⟩, none⟩ ∧
    ServerHandler.Serve database 0 0 ⟨Float64.one, "create", ["x", "1_0"], 1⟩
        ⟨0, false, "", ""⟩ =
      .ok ⟨database.Set 0 "x" (.finite false 5 4) cache.DefaultExpiration,
        ⟨1, true, "Create: x success", ""⟩, none⟩ ∧
    (∀ c ∈ "Inf".data, ¬ ('0' ≤ c ∧ c ≤ '9') ∧ c ≠ '+' ∧ c ≠ '-' ∧ c ≠ '.') :=
  ⟨by rfl, by rfl, by rfl, by decide⟩

/-- C17 (amended): for every literal that is empty, has more than one point, holds a
character that is no ASCII letter or digit, sign, point or `_` (every whitespace
character is such a one), or is not written as an optional sign followed by `Inf`, `inf`
or a number (optional prefix `0b`, `0o` or `0x`, digits of the base with at most one
point and at least one digit, `_` only between a digit or the prefix and a digit, and an
optional exponent `e`, `E`, `p` or `P` with optional sign and decimal digits),
`create(name, literal)` and `set(name, literal)` at version 1 reply `ok=false` and leave
the store as it is. -/
theorem C17_rejected_literals (db : cache.Cache) (t1 t2 : Int) (name lit : String) (id : Int)
    (returnObj : ReplyObj) (h : rejectedLiteral lit) :
    (∃ out, ServerHandler.Serve db t1 t2 ⟨Float64.one, "create", [name, lit], id⟩ returnObj
        = .ok out ∧ out.reply.Ok = false ∧ out.db = db) ∧
    (∃ out, ServerHandler.Serve db t1 t2 ⟨Float64.one, "set", [name, lit], id⟩ returnObj
        = .ok out ∧ out.reply.Ok = false ∧ out.db = db) ∧
    (∀ c : Char, c.isWhitespace = true → allowedChar c = false) := by
  have hp := SetString_rejects h
  refine ⟨?_, ?_, whitespace_not_allowed⟩
  · rw [Serve_create]
    simp only [Create, index, List.get?, returnNil, hp]
    cases hk : big.Float.SetString name with
    | some x => exact ⟨_, rfl, rfl, rfl⟩
    | none =>
      cases hg : db.Get t1 name with
      | some x => exact ⟨_, rfl, rfl, rfl⟩
      | none => exact ⟨_, rfl, rfl, rfl⟩
  · rw [Serve_set]
    simp only [Set, index, List.get?, returnNil, hp]
    cases hg : db.Get t1 name with
    | some x => exact ⟨_, rfl, rfl, rfl⟩
    | none => exact ⟨_, rfl, rfl, rfl⟩

/-- C17 (amended) on the store holding `ggg`: the client's own `set("ggg", "asd")`
replies `ok=false` with the store unchanged, and so do the literals `1.2.3` (two
points), `1 0` (a blank), `abc`, `12abc`, `1-2`, `--1`, `0xg`, `1__2`, `_1` and `1e`;
`1.5e+3`, `0x1p-2`, `1_000.5` and `-Inf` are written as `floatLiteral` describes. -/
theorem C17_rejected_literals_witness :
    rejectedLiteral "1.2.3" ∧ rejectedLiteral "1 0" ∧ rejectedLiteral "" ∧
    rejectedLiteral "asd" ∧
    (floatLiteral "abc" = false ∧ floatLiteral "12abc" = false ∧ floatLiteral "1-2" = false ∧
      floatLiteral "--1" = false ∧ floatLiteral "0xg" = false ∧ floatLiteral "1__2" = false ∧
      floatLiteral "_1" = false ∧ floatLiteral "1e" = false ∧ floatLiteral "." = false ∧
      floatLiteral "+" = false ∧ floatLiteral "1.5e+3" = true ∧
      floatLiteral "0x1p-2" = true ∧ floatLiteral "1_000.5" = true ∧
      floatLiteral "-Inf" = true) ∧
    (∃ out, ServerHandler.Serve dbGgg3 1 1 ⟨Float64.one, "set", ["ggg", "1.2.3"], 5⟩
        ⟨0, false, "", ""⟩ = .ok out ∧ out.reply.Ok = false ∧ out.db = dbGgg3) ∧
    (∃ out, ServerHandler.Serve dbGgg3 1 1 ⟨Float64.one, "create", ["hhh", "1 0"], 5⟩
        ⟨0, false, "", ""⟩ = .ok out ∧ out.reply.Ok = false ∧ out.db = dbGgg3) ∧
    (∃ out, ServerHandler.Serve dbGgg3 1 1 ⟨Float64.one, "set", ["ggg", "asd"], 555⟩
        ⟨0, false, "", ""⟩ = .ok out ∧ out.reply.Ok = false ∧ out.db = dbGgg3) ∧
    (∃ out, ServerHandler.Serve dbGgg3 1 1 ⟨Float64.one, "set", ["ggg", "12abc"], 5⟩
        ⟨0, false, "", ""⟩ = .ok out ∧ out.reply.Ok = false ∧ out.db = dbGgg3) ∧
    (∃ out, ServerHandler.Serve dbGgg3 1 1 ⟨Float64.one, "create", ["hhh", "1-2"], 5⟩
        ⟨0, false, "", ""⟩ = .ok out ∧ out.reply.Ok = false ∧ out.db = dbGgg3) ∧
    (∃ out, ServerHandler.Serve dbGgg3 1 1 ⟨Float64.one, "create", ["hhh", "--1"], 5⟩
        ⟨0, false, "", ""⟩ = .ok out ∧ out.reply.Ok = false ∧ out.db = dbGgg3) :=
  ⟨Or.inr (Or.inl (by decide)), Or.inr (Or.inr (Or.inl ⟨' ', by decide, by decide⟩)),
   Or.inl rfl, Or.inr (Or.inr (Or.inr (by decide))), by decide,
   (C17_rejected_literals dbGgg3 1 1 "ggg" "1.2.3" 5 ⟨0, false, "", ""⟩
      (Or.inr (Or.inl (by decide)))).2.1,
   (C17_rejected_literals dbGgg3 1 1 "hhh" "1 0" 5 ⟨0, false, "", ""⟩
      (Or.inr (Or.inr (Or.inl ⟨' ', by decide, by decide⟩)))).1,
   (C17_rejected_literals dbGgg3 1 1 "ggg" "asd" 555 ⟨0, false, "", ""⟩
      (Or.inr (Or.inr (Or.inr (by decide))))).2.1,
   (C17_rejected_literals dbGgg3 1 1 "ggg" "12abc" 5 ⟨0, false, "", ""⟩
      (Or.inr (Or.inr (Or.inr (by decide))))).2.1,
   (C17_rejected_literals dbGgg3 1 1 "hhh" "1-2" 5 ⟨0, false, "", ""⟩
      (Or.inr (Or.inr (Or.inr (by decide))))).1,
   (C17_rejected_literals dbGgg3 1 1 "hhh" "--1" 5 ⟨0, false, "", ""⟩
      (Or.inr (Or.inr (Or.inr (by decide))))).1⟩

/-! ### Handlers that run at the same time -/

theorem Create_eq_runSplit (db : cache.Cache) (t1 t2 : Int) (rpcObj : RpcObj)
    (returnObj : ReplyObj) :
    Create db t1 t2 rpcObj returnObj = runSplit (CreateLookup db t1 rpcObj returnObj) db t2 := by
  unfold Create CreateLookup
  cases index rpcObj.Params 0 with
  | error e => rfl
  | ok key =>
    cases index rpcObj.Params 1 with
    | error e => rfl
    | ok value =>
      dsimp only
      split_ifs
      · rfl
      · cases big.Float.SetString value <;> rfl
      · rfl

theorem Set_eq_runSplit (db : cache.Cache) (t1 t2 : Int) (rpcObj : RpcObj)
    (returnObj : ReplyObj) :
    Set db t1 t2 rpcObj returnObj = runSplit (SetLookup db t1 rpcObj returnObj) db t2 := by
  unfold Set SetLookup
  cases index rpcObj.Params 0 with
  | error e => rfl
  | ok key =>
    cases index rpcObj.Params 1 with
    | error e => rfl
    | ok value =>
      dsimp only
      split_ifs
      · cases big.Float.SetString value <;> rfl
      · rfl

theorem Delete_eq_runSplit (db : cache.Cache) (t1 t2 : Int) (rpcObj : RpcObj)
    (returnObj : ReplyObj) :
    Delete db t1 rpcObj returnObj = runSplit (DeleteLookup db t1 rpcObj returnObj) db t2 := by
  unfold Delete DeleteLookup
  cases index rpcObj.Params 0 with
  | error e => rfl
  | ok key =>
    dsimp only
    split_ifs
    · rfl
    · rfl

/-- C16 (what the code does): the handlers check with `database.Get` and act with a
later `database.Set` or `database.Delete`, and nothing holds other handlers off in
between. Two creates of `k` whose lookups both come before either write both reply
`ok=true` (the later write wins), while in either sequential order the second replies
`ok=false`. A `set` of `ggg` whose lookup comes before a whole `delete` of `ggg` and
whose write comes after it replies `ok=true` and puts `ggg` back, while the delete
replied `ok=true` too; in sequential order either `ggg` ends absent or the set fails. -/
theorem C16_check_then_act_race :
    (∃ pA pB,
      CreateLookup database 0 ⟨Float64.one, "create", ["k", "1"], 1⟩ ⟨0, false, "", ""⟩
        = .ok pA ∧
      CreateLookup database 0 ⟨Float64.one, "create", ["k", "2"], 2⟩ ⟨0, false, "", ""⟩
        = .ok pB ∧
      (pA.commit database 0).2.Ok = true ∧
      (pB.commit (pA.commit database 0).1 0).2.Ok = true ∧
      (pB.commit (pA.commit database 0).1 0).1.Get 0 "k" = some (.finite false 1 2)) ∧
    (∃ o1 o2,
      ServerHandler.Serve database 0 0 ⟨Float64.one, "create", ["k", "1"], 1⟩
        ⟨0, false, "", ""⟩ = .ok o1 ∧
      ServerHandler.Serve o1.db 0 0 ⟨Float64.one, "create", ["k", "2"], 2⟩
        ⟨0, false, "", ""⟩ = .ok o2 ∧
      o1.reply.Ok = true ∧ o2.reply.Ok = false) ∧
    (∃ o1 o2,
      ServerHandler.Serve database 0 0 ⟨Float64.one, "create", ["k", "2"], 2⟩
        ⟨0, false, "", ""⟩ = .ok o1 ∧
      ServerHandler.Serve o1.db 0 0 ⟨Float64.one, "create", ["k", "1"], 1⟩
        ⟨0, false, "", ""⟩ = .ok o2 ∧
      o1.reply.Ok = true ∧ o2.reply.Ok = false) ∧
    (∃ pS dD,
      SetLookup dbGgg3 1 ⟨Float64.one, "set", ["ggg", "7"], 3⟩ ⟨0, false, "", ""⟩ = .ok pS ∧
      Delete dbGgg3 1 ⟨Float64.one, "delete", ["ggg"], 4⟩ ⟨0, false, "", ""⟩ = .ok dD ∧
      dD.2.Ok = true ∧ dD.1.Get 1 "ggg" = none ∧
      (pS.commit dD.1 1).2.Ok = true ∧
      (pS.commit dD.1 1).1.Get 1 "ggg" = some (.finite false 7 3)) ∧
    (∃ o1 o2,
      ServerHandler.Serve dbGgg3 1 1 ⟨Float64.one, "set", ["ggg", "7"], 3⟩
        ⟨0, false, "", ""⟩ = .ok o1 ∧
      ServerHandler.Serve o1.db 1 1 ⟨Float64.one, "delete", ["ggg"], 4⟩
        ⟨0, false, "", ""⟩ = .ok o2 ∧
      o1.reply.Ok = true ∧ o2.reply.Ok = true ∧ o2.db.Get 1 "ggg" = none) ∧
    (∃ o1 o2,
      ServerHandler.Serve dbGgg3 1 1 ⟨Float64.one, "delete", ["ggg"], 4⟩
        ⟨0, false, "", ""⟩ = .ok o1 ∧
      ServerHandler.Serve o1.db 1 1 ⟨Float64.one, "set", ["ggg", "7"], 3⟩
        ⟨0, false, "", ""⟩ = .ok o2 ∧
      o1.reply.Ok = true ∧ o2.reply.Ok = false ∧ o2.db.Get 1 "ggg" = none) :=
  ⟨⟨_, _, by rfl, by rfl, by rfl, by rfl, by rfl⟩,
   ⟨_, _, by rfl, by rfl, by rfl, by rfl⟩,
   ⟨_, _, by rfl, by rfl, by rfl, by rfl⟩,
   ⟨_, _, by rfl, by rfl, by rfl, by rfl, by rfl, by rfl⟩,
   ⟨_, _, by rfl, by rfl, by rfl, by rfl, by rfl⟩,
   ⟨_, _, by rfl, by rfl, by rfl, by rfl, by rfl⟩⟩

end GoProj
